import Mathlib

/-!
Accounts management system: a shallow embedding.

The C++ sources `Transaction.cpp`, `Account.cpp` and `ForestTree.cpp` are
rendered as Lean functions.

* `int` is `Int`. The step `exp *= 10` of `radixSortTransactions`, the one
  place where the code takes an `int` out of the range of a 32-bit `int`, is
  checked against that range and leaving it is a fault. `double` is `ℚ` (exact
  arithmetic), `char` is `Char`, `std::string` produced by `to_string` is a
  `List Char`.
* A `Node*` is the address of a node inside the tree: the list of links
  (`child` / `sibling`) followed from `root`; `nullptr` is `none`.
* Code that can leave defined behaviour returns `Except Fault _`.
* A text file is the list of its lines; what a report writes to a stream is
  the list of the blocks (lines) written, with the values handed to the stream.
  The dump of `printTreeRecursive`, which is read back, carries for each
  balance the number that its written text denotes.
-/

namespace AMS

/-- How a run of the program can go wrong. `outOfFuel` belongs to the model
only: the loops of the source are run with a bound, shown to be large enough.
`invalidArgument` and `outOfRange` are the exceptions `std::invalid_argument`
and `std::out_of_range` of `std::stoi` and `std::stod`, which the program does
not catch; `notModelled` marks an input of `std::stod` whose value the model
does not compute; `signedOverflow` is an `int` computed outside the range of
`int` (undefined behaviour). -/
inductive Fault where
  | nullDeref
  | outOfBounds
  | outOfFuel
  | invalidArgument
  | outOfRange
  | notModelled
  | signedOverflow
deriving DecidableEq, Repr

deriving instance DecidableEq for Except

/-! ## Transaction.cpp -/

/-- The class `Transaction`: `int id; double amount; char type`. -/
structure Transaction where
  id : Int
  amount : ℚ
  type : Char
deriving DecidableEq, Repr

/-- The constructor `Transaction::Transaction()`. -/
def Transaction.default : Transaction := ⟨0, 0, 'D'⟩

/-- The constructor `Transaction::Transaction(int id)`. -/
def Transaction.ofId (id : Int) : Transaction := ⟨id, 0, 'D'⟩

/-- The setter `Transaction::setId`. -/
def Transaction.setId (t : Transaction) (id : Int) : Transaction :=
  if id < 1 then t else { t with id := id }

/-- The constructor `Transaction::Transaction(int id, double amount, char type)`: `amount` and
`type` are initialised, then `setId(id)` runs. The member `id` holds `held`
(whatever was in memory) before `setId`. -/
def Transaction.ofParts (held : Int) (id : Int) (amount : ℚ) (type : Char) : Transaction :=
  Transaction.setId ⟨held, amount, type⟩ id

/-! ## Account.cpp -/

/-- The class `Account`. -/
structure Account where
  accountNumber : Int
  description : String
  balance : ℚ
  transactions : List Transaction
deriving DecidableEq, Repr

/-- The constructor `Account::Account()`. -/
def Account.default : Account := ⟨0, "", 0, []⟩

/-- The setter `Account::setAccountNumber`. -/
def Account.setAccountNumber (a : Account) (num : Int) : Account :=
  if num < 1 then a else { a with accountNumber := num }

/-- The constructor `Account::Account(int number, const string & desc, double bal)`: the
member `accountNumber`, which the constructor does not initialise, holds `held`
before `setAccountNumber(number)` runs. -/
def Account.ofParts (held : Int) (number : Int) (desc : String) (bal : ℚ) : Account :=
  Account.setAccountNumber ⟨held, desc, bal, []⟩ number

/-- The method `Account::updateBalance`. -/
def Account.updateBalance (a : Account) (amount : ℚ) : Account :=
  { a with balance := a.balance + amount }

/-- The function `std::to_string(int)`: the decimal digits, with a leading `-` below zero. -/
def to_string : Int → List Char
  | Int.ofNat m => Nat.toDigits 10 m
  | Int.negSucc m => '-' :: Nat.toDigits 10 (m + 1)

/-- The method `Account::compAccountNumber`:
`to_string(otherAccountNum).find(to_string(accountNumber)) == 0`. -/
def Account.compAccountNumber (a : Account) (otherAccountNum : Int) : Bool :=
  (to_string a.accountNumber).isPrefixOf (to_string otherAccountNum)

/-- The expression `(transactions[i].getId() / exp) % 10` of
`countingSortByDigit`, with C++ truncating division and remainder. -/
def digitOf (id exp : Int) : Int := Int.tmod (Int.tdiv id exp) 10

/-- The statement `count[digit]++` on the array `int count[10]`. -/
def countIncr (count : List Nat) (digit : Int) : Except Fault (List Nat) :=
  if 0 ≤ digit ∧ digit.toNat < count.length then
    .ok (count.set digit.toNat (count.getD digit.toNat 0 + 1))
  else .error .outOfBounds

/-- The first loop of `countingSortByDigit`: count the occurrences of each digit. -/
def countDigits (exp : Int) : List Transaction → List Nat → Except Fault (List Nat)
  | [], count => .ok count
  | t :: rest, count =>
    match countIncr count (digitOf t.id exp) with
    | .error e => .error e
    | .ok count1 => countDigits exp rest count1

/-- The second loop of `countingSortByDigit`, from index `i` on:
`count[i] += count[i - 1]` for `i < 10`. -/
def prefixSums : Nat → Nat → List Nat → List Nat
  | 0, _, count => count
  | fuel + 1, i, count =>
    prefixSums fuel (i + 1) (count.set i (count.getD i 0 + count.getD (i - 1) 0))

/-- One step of the third loop of `countingSortByDigit`:
`output[count[digit] - 1] = transactions[i]; count[digit]--`. -/
def placeOne (exp : Int) (t : Transaction) (st : List Transaction × List Nat) :
    Except Fault (List Transaction × List Nat) :=
  let digit := digitOf t.id exp
  if 0 ≤ digit ∧ digit.toNat < st.2.length then
    let c := st.2.getD digit.toNat 0
    if 1 ≤ c ∧ c - 1 < st.1.length then
      .ok (st.1.set (c - 1) t, st.2.set digit.toNat (c - 1))
    else .error .outOfBounds
  else .error .outOfBounds

/-- The third loop of `countingSortByDigit`: it runs from the last transaction
down to the first, so the tail of the list is placed before its head. -/
def placeAll (exp : Int) : List Transaction → List Transaction × List Nat →
    Except Fault (List Transaction × List Nat)
  | [], st => .ok st
  | t :: rest, st =>
    match placeAll exp rest st with
    | .error e => .error e
    | .ok st1 => placeOne exp t st1

/-- The method `Account::countingSortByDigit`; the last loop copies `output` back. -/
def countingSortByDigit (transactions : List Transaction) (exp : Int) :
    Except Fault (List Transaction) :=
  let n := transactions.length
  let output := List.replicate n Transaction.default
  match countDigits exp transactions (List.replicate 10 0) with
  | .error e => .error e
  | .ok count1 =>
    match placeAll exp transactions (output, prefixSums 9 1 count1) with
    | .error e => .error e
    | .ok st => .ok st.1

/-- The first loop of `radixSortTransactions`: `maxId = max(maxId, trans.getId())`. -/
def maxIdOf (transactions : List Transaction) : Int :=
  transactions.foldl (fun m t => max m t.id) 0

/-- The largest value of an `int` (32 bits). -/
def INT_MAX : Int := 2147483647

/-- The smallest value of an `int` (32 bits). -/
def INT_MIN : Int := -2147483648

/-- The second loop of `radixSortTransactions`:
`for (exp = 1; maxId / exp > 0; exp *= 10) countingSortByDigit(transactions, exp)`.
The step `exp *= 10` is made in `int`: a product outside the range of `int` is
a fault. -/
def radixLoop (maxId : Int) : Nat → Int → List Transaction → Except Fault (List Transaction)
  | 0, _, _ => .error .outOfFuel
  | fuel + 1, exp, transactions =>
    if Int.tdiv maxId exp > 0 then
      match countingSortByDigit transactions exp with
      | .error e => .error e
      | .ok sorted =>
        if exp * 10 < INT_MIN ∨ INT_MAX < exp * 10 then .error .signedOverflow
        else radixLoop maxId fuel (exp * 10) sorted
    else .ok transactions

/-- The method `Account::radixSortTransactions`. The loop makes at most one pass per
decimal digit of `maxId`, so `maxId + 1` rounds of fuel are enough. -/
def radixSortTransactions (transactions : List Transaction) : Except Fault (List Transaction) :=
  let maxId := maxIdOf transactions
  radixLoop maxId (maxId.toNat + 1) 1 transactions

/-- The `while (left <= right)` loop of `findTransaction`; `none` is `end()`. -/
def binarySearch (transactions : List Transaction) (transactionID : Int) :
    Nat → Int → Int → Except Fault (Option Nat)
  | 0, _, _ => .error .outOfFuel
  | fuel + 1, left, right =>
    if left ≤ right then
      let mid := left + Int.tdiv (right - left) 2
      if 0 ≤ mid ∧ mid.toNat < transactions.length then
        let midId := (transactions.getD mid.toNat Transaction.default).id
        if midId = transactionID then .ok (some mid.toNat)
        else if midId < transactionID then
          binarySearch transactions transactionID fuel (mid + 1) right
        else binarySearch transactions transactionID fuel left (mid - 1)
      else .error .outOfBounds
    else .ok none

/-- The method `Account::findTransaction`: the account with its transactions re-sorted,
and the position found (`none` for `transactions.end()`). The search halves
`right - left + 1 ≤ size` each round, so `size + 1` rounds of fuel are enough. -/
def Account.findTransaction (a : Account) (transactionID : Int) :
    Except Fault (Account × Option Nat) :=
  let right : Int := (a.transactions.length : Int) - 1
  match radixSortTransactions a.transactions with
  | .error e => .error e
  | .ok sorted =>
    match binarySearch sorted transactionID (sorted.length + 1) 0 right with
    | .error e => .error e
    | .ok pos => .ok ({ a with transactions := sorted }, pos)

/-- The method `Account::addTransaction`. -/
def Account.addTransaction (a : Account) (trans : Transaction) : Except Fault Account :=
  match a.findTransaction trans.id with
  | .error e => .error e
  | .ok (a1, some _) => .ok a1
  | .ok (a1, none) =>
    let a2 := a1.updateBalance (trans.amount * (if trans.type = 'C' then -1 else 1))
    .ok { a2 with transactions := a2.transactions ++ [trans] }

/-- The method `Account::removeTransaction`: the account afterwards and the returned
transaction (`Transaction(-1)` when the id is not found). -/
def Account.removeTransaction (a : Account) (id : Int) : Except Fault (Account × Transaction) :=
  match a.findTransaction id with
  | .error e => .error e
  | .ok (a1, some pos) =>
    match a1.transactions.get? pos with
    | none => .error .outOfBounds
    | some it =>
      let a2 := a1.updateBalance (it.amount * (if it.type = 'D' then -1 else 1))
      .ok ({ a2 with transactions := a2.transactions.eraseIdx pos }, it)
  | .ok (a1, none) => .ok (a1, Transaction.ofId (-1))

/-! ## ForestTree.cpp -/

/-- The nested class `Node`: `Account data; Node* sibling; Node* child`, with
`null` for `nullptr`. The field `seed` is a ghost: it records the balance of
the account at the moment `new Node(acc)` ran; no operation reads or changes it. -/
inductive Node where
  | null : Node
  | mk (data : Account) (seed : ℚ) (sibling : Node) (child : Node) : Node
deriving DecidableEq, Repr

/-- The constructor `Node(const Account & acc)`. -/
def Node.ofAccount (acc : Account) : Node := .mk acc acc.balance .null .null

/-- The two pointer members of a node. -/
inductive Link where
  | sibling
  | child
deriving DecidableEq, Repr

/-- A non-null `Node*` (also an `Account*` into a node): the links followed
from `root` to reach the node. -/
abbrev NodePtr := List Link

/-- The node a pointer points to (`null` when the links leave the tree). -/
def Node.deref : Node → NodePtr → Node
  | n, [] => n
  | .null, _ :: _ => .null
  | .mk _ _ s _, .sibling :: p => s.deref p
  | .mk _ _ _ c, .child :: p => c.deref p

/-- Overwrite the node a pointer points to by `f` of it. -/
def Node.modify (f : Node → Node) : Node → NodePtr → Node
  | n, [] => f n
  | .null, _ :: _ => .null
  | .mk d g s c, .sibling :: p => .mk d g (s.modify f p) c
  | .mk d g s c, .child :: p => .mk d g s (c.modify f p)

/-- The assignment `node->sibling = x` on a node. -/
def Node.setSibling (n : Node) (x : Node) : Node :=
  match n with
  | .null => .null
  | .mk d g _ c => .mk d g x c

/-- The assignment `node->child = x` on a node. -/
def Node.setChild (n : Node) (x : Node) : Node :=
  match n with
  | .null => .null
  | .mk d g s _ => .mk d g s x

/-- The call `node->data.updateBalance(amount)` on a node. -/
def Node.updateBalance (amount : ℚ) : Node → Node
  | .null => .null
  | .mk d g s c => .mk (d.updateBalance amount) g s c

/-- The value of the pointer member `p->child`. -/
def Node.childPtr (root : Node) (p : NodePtr) : Option NodePtr :=
  if root.deref (p ++ [Link.child]) = .null then none else some (p ++ [Link.child])

/-- The class `ForestTree`: `nodePtr root`. -/
structure ForestTree where
  root : Node
deriving DecidableEq, Repr

/-- The constructor `ForestTree::ForestTree()`. -/
def ForestTree.empty : ForestTree := ⟨.null⟩

/-- The `while (currNode != nullptr)` loop of `searchAccountWithTracking`.
The first argument is the node `currNode` points to, `cur` is its address;
the result is `((currNode, behind), tracked)` when the loop is left. -/
def searchLoop (accountNum : Int) :
    Node → NodePtr → Option NodePtr → List NodePtr →
      (Option NodePtr × Option NodePtr) × List NodePtr
  | .null, _, behind, tracked => ((none, behind), tracked)
  | .mk data _ sibling child, cur, behind, tracked =>
    if data.compAccountNumber accountNum then
      if accountNum = data.accountNumber then ((some cur, behind), tracked)
      else if child = .null then ((some cur, behind), tracked ++ [cur])
      else searchLoop accountNum child (cur ++ [Link.child]) (some cur) (tracked ++ [cur])
    else
      if accountNum < data.accountNumber then ((some cur, behind), tracked)
      else searchLoop accountNum sibling (cur ++ [Link.sibling]) (some cur) tracked

/-- The method `ForestTree::searchAccountWithTracking(int, vector<Account*> &)`, called
with an empty `tracked`: the pair `{ currNode, behind }` and the filled `tracked`. -/
def ForestTree.searchAccountWithTracking (t : ForestTree) (accountNum : Int) :
    (Option NodePtr × Option NodePtr) × List NodePtr :=
  searchLoop accountNum t.root [] none []

/-- The loop `for (auto & account : tracked) account->updateBalance(amount)`. -/
def updateTracked (amount : ℚ) (tracked : List NodePtr) (root : Node) : Node :=
  tracked.foldl (fun r p => r.modify (Node.updateBalance amount) p) root

/-- The expression `to_string(accountNum)[0] - '0'`. -/
def firstDigit (accountNum : Int) : Int :=
  (((to_string accountNum).headD '0').toNat : Int) - (('0' : Char).toNat : Int)

/-- An assignment through `res[1]`, which faults when `res[1]` is null. -/
def throughBehind (root : Node) (behind : Option NodePtr) (f : Node → Node) :
    Except Fault Node :=
  match behind with
  | none => .error .nullDeref
  | some b => if root.deref b = .null then .error .nullDeref else .ok (root.modify f b)

/-- The second half of `addAccount` (from `if (res[0] != nullptr)` on): the new
node is linked in next to `res[0]` and `res[1]`. Gives the returned flag and
the nodes afterwards. -/
def linkNewNode (acc : Account) (root1 : Node) (res : Option NodePtr × Option NodePtr) :
    Except Fault (Bool × Node) :=
  let accountNum := acc.accountNumber
  let newNode := Node.ofAccount acc
  match res.1 with
  | some res0 =>
    match root1.deref res0 with
    | .null => .error .nullDeref
    | .mk data0 seed0 sibling0 child0 =>
      if accountNum = data0.accountNumber then .ok (false, root1)
      else if (to_string data0.accountNumber).length < (to_string accountNum).length then
        .ok (true, root1.modify (fun n => n.setChild newNode) res0)
      else if accountNum < data0.accountNumber then
        match res.2 with
        | none => .error .nullDeref
        | some res1 =>
          if root1.childPtr res1 = some res0 then
            (throughBehind root1 (some res1)
              (fun n => n.setChild (newNode.setSibling (root1.deref res0)))).map
              (fun r => (true, r))
          else if (to_string data0.accountNumber).length > (to_string accountNum).length then
            (throughBehind root1 (some res1)
              (fun n => n.setSibling
                ((newNode.setSibling sibling0).setChild (.mk data0 seed0 .null child0)))).map
              (fun r => (true, r))
          else
            (throughBehind root1 (some res1)
              (fun n => n.setSibling (newNode.setSibling (root1.deref res0)))).map
              (fun r => (true, r))
      else .ok (true, root1)
  | none =>
    (throughBehind root1 res.2 (fun n => n.setSibling newNode)).map (fun r => (true, r))

/-- The method `ForestTree::addAccount(const Account &)`: the returned flag and the tree
afterwards. -/
def ForestTree.addAccount (t : ForestTree) (acc : Account) : Except Fault (Bool × ForestTree) :=
  let accountNum := acc.accountNumber
  let newNode := Node.ofAccount acc
  if accountNum > 9 ∧ (t.searchAccountWithTracking (firstDigit accountNum)).1.1 = none then
    .ok (false, t)
  else
    match t.root with
    | .null => .ok (true, ⟨newNode⟩)
    | .mk rootData _ _ _ =>
      if accountNum < rootData.accountNumber then
        .ok (true, ⟨newNode.setSibling t.root⟩)
      else
        let found := t.searchAccountWithTracking accountNum
        let root1 := updateTracked acc.balance found.2 t.root
        (linkNewNode acc root1 found.1).map (fun r => (r.1, ⟨r.2⟩))

/-- The method `ForestTree::addAccount(int, string, double)`; the account is built by
`Account(number, description, balance)`. That constructor does not initialise
the member `accountNumber` before `setAccountNumber(number)` runs, so for a
number below 1, which the setter refuses, the member keeps an indeterminate
value; the model takes 0 for it. For a number of at least 1 the value does not
matter. -/
def ForestTree.addAccount3 (t : ForestTree) (number : Int) (description : String)
    (balance : ℚ) : Except Fault (Bool × ForestTree) :=
  t.addAccount (Account.ofParts 0 number description balance)

/-- The call `currNode->data.addTransaction(t)` on a node. -/
def Node.addTransaction (trans : Transaction) : Node → Except Fault Node
  | .null => .error .nullDeref
  | .mk d g s c => (d.addTransaction trans).map (fun d1 => .mk d1 g s c)

/-- The method `ForestTree::addAcountTransaction`. -/
def ForestTree.addAcountTransaction (t : ForestTree) (accountNum : Int) (trans : Transaction) :
    Except Fault ForestTree :=
  let found := t.searchAccountWithTracking accountNum
  match found.1.1 with
  | none => .ok t
  | some currNode =>
    match t.root.deref currNode with
    | .null => .error .nullDeref
    | .mk data seed sibling child =>
      if data.accountNumber ≠ accountNum then .ok t
      else
        match data.addTransaction trans with
        | .error e => .error e
        | .ok data1 =>
          let root1 := t.root.modify (fun _ => .mk data1 seed sibling child) currNode
          .ok ⟨updateTracked (trans.amount * (if trans.type = 'D' then 1 else -1)) found.2 root1⟩

/-- The method `ForestTree::removeAccountTransaction`. -/
def ForestTree.removeAccountTransaction (t : ForestTree) (accountNum : Int)
    (transactionID : Int) : Except Fault ForestTree :=
  let found := t.searchAccountWithTracking accountNum
  match found.1.1 with
  | none => .ok t
  | some currNode =>
    match t.root.deref currNode with
    | .null => .error .nullDeref
    | .mk data seed sibling child =>
      if data.accountNumber ≠ accountNum then .ok t
      else
        match data.removeTransaction transactionID with
        | .error e => .error e
        | .ok (data1, removed) =>
          let root1 := t.root.modify (fun _ => .mk data1 seed sibling child) currNode
          if removed.id = -1 then .ok ⟨root1⟩
          else
            .ok ⟨updateTracked (removed.amount * (if removed.type = 'C' then 1 else -1))
              found.2 root1⟩

/-! ## Setters, parsing and reports -/

/-- The functions `tolower` and `toupper` of `<cctype>` in the "C" locale are
`Char.toLower` and `Char.toUpper`. The method `Transaction::setType`: the
returned flag and the transaction afterwards. -/
def Transaction.setType (t : Transaction) (type : Char) : Bool × Transaction :=
  if type.toLower = 'd' ∨ type.toLower = 'c' then (true, { t with type := type.toUpper })
  else (false, t)

/-- The loop of `split`: `current` is the piece being read, `parts` the pieces
pushed so far. A delimiter met while `current` is empty takes the `else`
branch and is appended to `current`. -/
def splitLoop (delimiter : Char) : List Char → List Char → List (List Char) → List (List Char)
  | [], current, parts => if current ≠ [] then parts ++ [current] else parts
  | c :: rest, current, parts =>
    if c = delimiter ∧ current ≠ [] then splitLoop delimiter rest [] (parts ++ [current])
    else splitLoop delimiter rest (current ++ [c]) parts

/-- The function `split` of `Account.cpp`. -/
def split (line : List Char) (delimiter : Char) : List (List Char) :=
  splitLoop delimiter line [] []

/-- The function `isspace` of `<cctype>` in the "C" locale. -/
def isspace (c : Char) : Bool :=
  c = ' ' ∨ c = '\t' ∨ c = '\n' ∨ c.toNat = 11 ∨ c.toNat = 12 ∨ c = '\r'

/-- The value of a run of decimal digits. -/
def digitsValue (ds : List Char) : Nat :=
  ds.foldl (fun n c => 10 * n + (c.toNat - ('0' : Char).toNat)) 0

/-- The function `std::stoi(const string &)` (base 10, as `strtol`): white
space is skipped, a sign is optional, the longest run of digits is read and
what follows is ignored; no digit gives `std::invalid_argument`, a value
outside `int` gives `std::out_of_range`. -/
def stoi (str : List Char) : Except Fault Int :=
  let s1 := str.dropWhile isspace
  let s2 := if s1.head? = some '-' ∨ s1.head? = some '+' then s1.drop 1 else s1
  let ds := s2.takeWhile Char.isDigit
  if ds = [] then .error .invalidArgument
  else
    let v : Int := if s1.head? = some '-' then -(digitsValue ds : Int) else (digitsValue ds : Int)
    if v < -2147483648 ∨ 2147483647 < v then .error .outOfRange else .ok v

/-- The function `std::stod(const string &)` on plain decimal notation: white
space is skipped, a sign is optional, digits with an optional fraction are read
and what follows is ignored; no digit gives `std::invalid_argument`. The value
is exact (`double` is `ℚ`). Exponents, hexadecimal notation, `inf` and `nan`
are not computed by the model: a string that continues with `e`, `E`, `x` or
`X` after the digits, or starts with a letter of `inf` or `nan`, gives
`notModelled`. -/
def stod (str : List Char) : Except Fault ℚ :=
  let s1 := str.dropWhile isspace
  let s2 := if s1.head? = some '-' ∨ s1.head? = some '+' then s1.drop 1 else s1
  let ip := s2.takeWhile Char.isDigit
  let r := s2.dropWhile Char.isDigit
  let fp := if r.head? = some '.' then (r.drop 1).takeWhile Char.isDigit else []
  let r2 := if r.head? = some '.' then (r.drop 1).dropWhile Char.isDigit else r
  if ip = [] ∧ fp = [] then
    if s2.head? = some 'i' ∨ s2.head? = some 'I' ∨ s2.head? = some 'n' ∨ s2.head? = some 'N' then
      .error .notModelled
    else .error .invalidArgument
  else if r2.head? = some 'e' ∨ r2.head? = some 'E' ∨ r2.head? = some 'x' ∨
      r2.head? = some 'X' then .error .notModelled
  else
    let v : ℚ := (digitsValue ip : ℚ) + (digitsValue fp : ℚ) / ((10 ^ fp.length : Nat) : ℚ)
    .ok (if s1.head? = some '-' then -v else v)

/-- The method `Account::readAccount` on a stream that holds the one line
`line` (without a line end), as `buildTreeFromFile` calls it: an empty line
and a line with fewer than three parts leave the account as it is. -/
def Account.readAccount (a : Account) (line : List Char) : Except Fault Account :=
  if line = [] then .ok a
  else
    let parts := split line ' '
    if parts.length < 3 then .ok a
    else
      match stoi (parts.getD 0 []) with
      | .error e => .error e
      | .ok number =>
        match stod (parts.getD (parts.length - 1) []) with
        | .error e => .error e
        | .ok bal =>
          let desc := (List.range' 1 (parts.length - 3)).foldl
            (fun desc i => desc ++ parts.getD i [] ++ [' ']) []
          .ok { a with accountNumber := number, balance := bal,
                       description := String.mk (desc ++ parts.getD (parts.length - 2) []) }

/-- The loop of `ForestTree::buildTreeFromFile` over the lines of the file;
`acc` is the one `Account` object the loop reads every line into. -/
def buildLoop (t : ForestTree) (acc : Account) : List String → Except Fault ForestTree
  | [] => .ok t
  | line :: rest =>
    if line.data = [] then buildLoop t acc rest
    else
      match acc.readAccount line.data with
      | .error e => .error e
      | .ok acc1 =>
        match t.addAccount acc1 with
        | .error e => .error e
        | .ok r => buildLoop r.2 acc1 rest

/-- The method `ForestTree::buildTreeFromFile`; `file` is `none` when the file
cannot be opened and holds its lines otherwise. -/
def ForestTree.buildTreeFromFile (t : ForestTree) (file : Option (List String)) :
    Except Fault (Bool × ForestTree) :=
  match file with
  | none => .ok (false, t)
  | some lines => (buildLoop t Account.default lines).map (fun r => (true, r))

/-- What `printTree` and `printAccountRecursive` write for one node: the
depth of the indentation, then the number, description, balance and records
handed to `out`. -/
structure ReportBlock where
  depth : Nat
  accountNumber : Int
  description : String
  balance : ℚ
  transactions : List Transaction
deriving DecidableEq, Repr

/-- The method `ForestTree::printTree`: the blocks written to `out`. -/
def printTree : Node → Nat → List ReportBlock
  | .null, _ => []
  | .mk d _ s c, depth =>
    ⟨depth, d.accountNumber, d.description, d.balance, d.transactions⟩ ::
      (printTree c (depth + 1) ++ printTree s depth)

/-- The description `printAccountRecursive` writes: a leading double quote is
dropped unless the character at index 9 is a double quote too, and at most 10
characters are kept. -/
def shownDescription (description : String) : String :=
  let d := description.data
  let d1 := if d ≠ [] ∧ d.head? = some '"' ∧ (d.length ≤ 10 ∨ d.get? 9 ≠ some '"')
    then d.drop 1 else d
  String.mk (d1.take 10)

/-- The method `ForestTree::printAccountRecursive`: the blocks written to `out`. -/
def printAccountRecursive : Node → Nat → List ReportBlock
  | .null, _ => []
  | .mk d _ s c, depth =>
    ⟨depth, d.accountNumber, shownDescription d.description, d.balance, d.transactions⟩ ::
      (printAccountRecursive c (depth + 1) ++
        (if depth ≠ 0 then printAccountRecursive s depth else []))

/-- The method `ForestTree::printTreeRecursive`: the lines written to `out`,
each as the number, the description and the number that the text of the
balance denotes. The balance is a `double` written by `out <<` at the default
precision, which keeps 6 significant digits: `written b` is the number denoted
by the text written for `b` (1234567.5 is written `1.23457e+06`, which denotes
1234570). The conversion belongs to the stream library and is a parameter. -/
def printTreeRecursive (written : ℚ → ℚ) : Node → List (Int × String × ℚ)
  | .null => []
  | .mk d _ s c =>
    (d.accountNumber, d.description, written d.balance) ::
      (printTreeRecursive written c ++ printTreeRecursive written s)

/-- The conversion of a balance that is written in full: `out <<` writes a
balance of at most 6 significant digits, such as 1500 or 0.25, with all its
digits, and the text denotes the balance itself. -/
def writtenInFull (b : ℚ) : ℚ := b

/-! ## Runs of calls, and the properties the hierarchy is meant to have -/

/-- The calls `addAccount(number, description, balance)` for the listed
triples, one after the other. -/
def ForestTree.addAccounts (t : ForestTree) : List (Int × String × ℚ) → Except Fault ForestTree
  | [] => .ok t
  | x :: rest =>
    match t.addAccount3 x.1 x.2.1 x.2.2 with
    | .error e => .error e
    | .ok r => ForestTree.addAccounts r.2 rest

/-- A call of one of the three mutating operations of `ForestTree`. -/
inductive Call where
  | addAccount (number : Int) (description : String) (balance : ℚ)
  | addAcountTransaction (accountNum : Int) (trans : Transaction)
  | removeAccountTransaction (accountNum : Int) (transactionID : Int)
deriving DecidableEq, Repr

/-- The tree after one call. -/
def ForestTree.call (t : ForestTree) : Call → Except Fault ForestTree
  | .addAccount number description balance =>
    (t.addAccount3 number description balance).map (fun r => r.2)
  | .addAcountTransaction accountNum tran => t.addAcountTransaction accountNum tran
  | .removeAccountTransaction accountNum transactionID =>
    t.removeAccountTransaction accountNum transactionID

/-- The tree after a sequence of calls. -/
def ForestTree.calls (t : ForestTree) : List Call → Except Fault ForestTree
  | [] => .ok t
  | c :: rest =>
    match t.call c with
    | .error e => .error e
    | .ok t1 => ForestTree.calls t1 rest

/-- The calls the balance claim speaks of: accounts with positive numbers,
records of kind `'D'` or `'C'`. -/
def Call.Admissible : Call → Prop
  | .addAccount number _ _ => 0 < number
  | .addAcountTransaction _ tran => tran.type = 'D' ∨ tran.type = 'C'
  | .removeAccountTransaction _ _ => True

/-- The account numbers along a sibling chain, starting at the given node. -/
def Node.chain : Node → List Int
  | .null => []
  | .mk d _ s _ => d.accountNumber :: s.chain

/-- The account numbers of all nodes: a node, its child subtree, its siblings. -/
def Node.numbers : Node → List Int
  | .null => []
  | .mk d _ s c => d.accountNumber :: (c.numbers ++ s.numbers)

/-- The account a pointer points to. -/
def Node.account? : Node → Option Account
  | .null => none
  | .mk d _ _ _ => some d

/-- The numbers of the structural ancestors of the node at an address,
outermost first: the nodes on the way at which a `child` link is taken. -/
def Node.ancestors : Node → NodePtr → List Int
  | _, [] => []
  | .null, _ :: _ => []
  | .mk _ _ s _, .sibling :: p => s.ancestors p
  | .mk d _ _ c, .child :: p => d.accountNumber :: c.ancestors p

/-- The signed contribution of a record: `+amount` for a debit, `-amount`
for a credit. -/
def signedAmount (t : Transaction) : ℚ :=
  if t.type = 'D' then t.amount else if t.type = 'C' then -t.amount else 0

/-- The signed sum of a collection of records. -/
def signedSum (ts : List Transaction) : ℚ := (ts.map signedAmount).sum

/-- Seed balance plus signed record sum, summed over a node, its child
subtree and its siblings with their subtrees. -/
def Node.ownTotal : Node → ℚ
  | .null => 0
  | .mk d g s c => g + signedSum d.transactions + c.ownTotal + s.ownTotal

/-- Balance consistency: every node's balance is its seed balance plus the
signed sum of its records plus the same for every node of its child subtree. -/
def BalanceConsistent (root : Node) : Prop :=
  ∀ p d g s c, root.deref p = .mk d g s c →
    d.balance = g + signedSum d.transactions + c.ownTotal

/-- Children are prefixed by their parent. -/
def ChildrenPrefixed (root : Node) : Prop :=
  ∀ p d g s c, root.deref p = .mk d g s c →
    ∀ k ∈ c.chain, to_string d.accountNumber <+: to_string k

/-- Prefix invariant, weak form: a node below the top level has a structural
ancestor whose decimal string is a proper prefix of its own. -/
def PrefixInvariant (root : Node) : Prop :=
  ∀ p d g s c, root.deref p = .mk d g s c → Link.child ∈ p →
    ∃ a ∈ root.ancestors p,
      to_string a <+: to_string d.accountNumber ∧ to_string a ≠ to_string d.accountNumber

/-- Sibling ordering: the top-level chain and the chain of children of every
node are strictly ascending. -/
def ChainsAscending (root : Node) : Prop :=
  root.chain.Pairwise (· < ·) ∧
    ∀ p d g s c, root.deref p = .mk d g s c → c.chain.Pairwise (· < ·)

/-- Tracked search ends in an exact match: `found` is non-null and its number
is the target. -/
def ForestTree.exactMatch (t : ForestTree) (accountNum : Int) : Bool :=
  match (t.searchAccountWithTracking accountNum).1.1 with
  | none => false
  | some found =>
    match t.root.deref found with
    | .null => false
    | .mk d _ _ _ => decide (d.accountNumber = accountNum)

/-- A leaf node holding the given account. -/
def leaf (number : Int) (description : String) (balance : ℚ) (seed : ℚ) : Node :=
  .mk ⟨number, description, balance, []⟩ seed .null .null

/-- The tree of the build scenario: 1 → 10 → 1011 with balances 1600, 600, 100. -/
def scenarioTree : ForestTree :=
  ⟨.mk ⟨1, "Assets", 1600, []⟩ 1000 .null
    (.mk ⟨10, "Cash", 600, []⟩ 500 .null (leaf 1011 "Cash A" 100 100))⟩

/-- The effect of adding the record `r` to the account `d`, numbered `n` and
stored at `found`, of the tree `t`, on the tree `t1` afterwards: same node
structure; the account at `found` has gained `r` (its records may be reordered)
and its balance the signed amount of `r`; every tracked ledger has its balance
changed by the signed amount and nothing else; every other ledger is as before. -/
def TransactionAdded (t : ForestTree) (n : Int) (r : Transaction) (found : NodePtr)
    (d : Account) (t1 : ForestTree) : Prop :=
  (∀ q, t1.root.deref q = .null ↔ t.root.deref q = .null) ∧
  found ∉ (t.searchAccountWithTracking n).2 ∧
  (∃ d1, (t1.root.deref found).account? = some d1 ∧
    d1.transactions.Perm (r :: d.transactions) ∧
    d1.balance = d.balance + signedAmount r ∧
    d1.accountNumber = d.accountNumber ∧ d1.description = d.description) ∧
  (∀ q ∈ (t.searchAccountWithTracking n).2, ∃ a, (t.root.deref q).account? = some a ∧
    (t1.root.deref q).account? = some (a.updateBalance (signedAmount r))) ∧
  (∀ q, q ≠ found → q ∉ (t.searchAccountWithTracking n).2 →
    (t1.root.deref q).account? = (t.root.deref q).account?)

/-- The tree `t2` holds what the tree `t` held, up to the order of the records
of the account `d` stored at `found`: same node structure, the account at
`found` with the balance, number, description and records of `d`, every other
ledger as in `t`. -/
def TransactionUndone (t : ForestTree) (found : NodePtr) (d : Account) (t2 : ForestTree) :
    Prop :=
  (∀ q, t2.root.deref q = .null ↔ t.root.deref q = .null) ∧
  (∃ d2, (t2.root.deref found).account? = some d2 ∧ d2.balance = d.balance ∧
    d2.transactions.Perm d.transactions ∧
    d2.accountNumber = d.accountNumber ∧ d2.description = d.description) ∧
  (∀ q, q ≠ found → (t2.root.deref q).account? = (t.root.deref q).account?)

/-- The tree 1 → 10, where account 10 holds one record, a debit of 100 with id 7. -/
def cashTree : ForestTree :=
  ⟨.mk ⟨1, "Assets", 1600, []⟩ 1000 .null
    (.mk ⟨10, "Cash", 600, [⟨7, 100, 'D'⟩]⟩ 500 .null .null)⟩

/-- The ledgers of `t2` against those of `t`: the same nodes, and in every
ledger the same number, description and balance and the same records, up to
their order. -/
def LedgersKept (t t2 : ForestTree) : Prop :=
  (∀ q, t2.root.deref q = .null ↔ t.root.deref q = .null) ∧
  ∀ q a, (t.root.deref q).account? = some a →
    ∃ a2, (t2.root.deref q).account? = some a2 ∧ a2.balance = a.balance ∧
      a2.transactions.Perm a.transactions ∧ a2.accountNumber = a.accountNumber ∧
      a2.description = a.description

/-! ## Insertion, read off the tree instead of through pointers -/

/-- The nodes in place of the node `mk d g s c` when the new account is linked
in before it: `via` is the link of `res[1]` that pointed to that node. -/
def wrapBefore (acc : Account) (via : Link) (d : Account) (g : ℚ) (s c : Node) : Node :=
  match via with
  | .child => (Node.ofAccount acc).setSibling (.mk d g s c)
  | .sibling =>
    if (to_string d.accountNumber).length > (to_string acc.accountNumber).length then
      ((Node.ofAccount acc).setSibling s).setChild (.mk d g .null c)
    else (Node.ofAccount acc).setSibling (.mk d g s c)

/-- The nodes in place of the node `mk d g s c` at which the search stopped
without an exact match, once the new node is linked in. -/
def linkedAt (acc : Account) (via : Link) (d : Account) (g : ℚ) (s c : Node) : Node :=
  if (to_string d.accountNumber).length < (to_string acc.accountNumber).length then
    .mk d g s (Node.ofAccount acc)
  else if acc.accountNumber < d.accountNumber then wrapBefore acc via d g s c
  else .mk d g s c

/-- What `addAccount` makes of the nodes from `node` on, when its search
enters `node` through the link `via` of the node before it. -/
def insertInto (acc : Account) (via : Link) : Node → Node
  | .null => Node.ofAccount acc
  | .mk d g s c =>
    if d.compAccountNumber acc.accountNumber then
      if acc.accountNumber = d.accountNumber then .mk d g s c
      else if c = .null then linkedAt acc via (d.updateBalance acc.balance) g s .null
      else .mk (d.updateBalance acc.balance) g s (insertInto acc Link.child c)
    else
      if acc.accountNumber < d.accountNumber then linkedAt acc via d g s c
      else .mk d g (insertInto acc Link.sibling s) c

/-- The nodes `addAccount` leaves behind, as a function of the nodes before. -/
def insertTop (acc : Account) (root : Node) : Node :=
  if acc.accountNumber > 9 ∧
      (searchLoop (firstDigit acc.accountNumber) root [] none []).1.1 = none then root
  else
    match root with
    | .null => Node.ofAccount acc
    | .mk rootData g s c =>
      if acc.accountNumber < rootData.accountNumber then
        (Node.ofAccount acc).setSibling (.mk rootData g s c)
      else insertInto acc Link.sibling (.mk rootData g s c)

/-- The first number of a chain, if any, lies above `k`. -/
def Node.headAbove (k : Int) : Node → Prop
  | .null => True
  | .mk d _ _ _ => k < d.accountNumber

/-- Every node lies below its next sibling. -/
def Node.Ascending : Node → Prop
  | .null => True
  | .mk d _ s c => s.headAbove d.accountNumber ∧ s.Ascending ∧ c.Ascending

/-- Apply `h` to the account of a node. -/
def Node.mapData (h : Account → Account) : Node → Node
  | .null => .null
  | .mk d g s c => .mk (h d) g s c

/-- The addresses of the structural ancestors of the node at an address,
outermost first: the addresses on the way at which a `child` link is taken. -/
def ancestorPtrs : NodePtr → List NodePtr
  | [] => []
  | .sibling :: p => (ancestorPtrs p).map (fun q => Link.sibling :: q)
  | .child :: p => [] :: (ancestorPtrs p).map (fun q => Link.child :: q)

/-- Whether the search loop for `n`, entered at `node`, ends at a node whose
number is `n`. -/
def hitsExact (n : Int) : Node → Bool
  | .null => false
  | .mk d _ s c =>
    if d.compAccountNumber n then
      if n = d.accountNumber then true
      else if c = .null then false
      else hitsExact n c
    else
      if n < d.accountNumber then false
      else hitsExact n s

/-- The ledgers of a chain of nodes with their addresses: each node, then the
ledgers below it, then those of its next siblings. -/
def Node.ledgers : Node → List (NodePtr × Account)
  | .null => []
  | .mk d _ s c =>
    ([], d) :: (c.ledgers.map (fun x => (Link.child :: x.1, x.2)) ++
      s.ledgers.map (fun x => (Link.sibling :: x.1, x.2)))

/-- A ledger after an insertion at `pNew` with seed balance `b`, against the
same ledger before: credited with `b` if it is a structural ancestor of the new
node, unchanged otherwise. -/
def Credited (b : ℚ) (pNew : NodePtr) (old new : NodePtr × Account) : Prop :=
  new.2 = if new.1 ∈ ancestorPtrs pNew then old.2.updateBalance b else old.2

/-- The effect of a successful `addAccount(acc)` on the ledgers: the new tree
holds `acc` at some address `pNew`; the other ledgers of the new tree are the
ledgers of the old tree in the same order, the structural ancestors of the new
node credited with the balance of `acc` and the others unchanged. -/
def SeedPropagated (t : ForestTree) (acc : Account) (t1 : ForestTree) : Prop :=
  ∃ pNew, (t1.root.deref pNew).account? = some acc ∧
    List.Forall₂ (Credited acc.balance pNew) t.root.ledgers
      (t1.root.ledgers.filter (fun x => decide (x.1 ≠ pNew)))

/-- The depth of the node at an address: the number of `child` links on the way. -/
def depthOf (p : NodePtr) : Nat := p.count Link.child

/-- The order of a pre-order walk on addresses: a node comes before everything
reached through it, and what is reached through its `child` link comes before
what is reached through its `sibling` link. -/
def PreorderBefore : NodePtr → NodePtr → Prop :=
  List.Lex (fun a b => a = Link.child ∧ b = Link.sibling)

/-! ## Rebuilding a hierarchy from its dump -/

/-- The tree `X` with the nodes `N` put at the null pointer reached by `p`,
and `b` added to the balance of every ledger at which `p` takes the `child`
link. -/
def graft (N : Node) (b : ℚ) : NodePtr → Node → Node
  | [], .null => N
  | [], .mk d g s c => .mk d g s c
  | _ :: _, .null => .null
  | .sibling :: p, .mk d g s c => .mk d g (graft N b p s) c
  | .child :: p, .mk d g s c => .mk (d.updateBalance b) g s (graft N b p c)

/-- The search for `x` in `X` runs along `p` and ends at the null pointer
there: at a `sibling` link the node is no prefix of `x` and not above `x`, at a
`child` link it is a prefix of `x`, not `x` itself and not above `x`. -/
def Routes (x : Int) : Node → NodePtr → Prop
  | .null, [] => True
  | .null, _ :: _ => False
  | .mk _ _ _ _, [] => False
  | .mk d _ s _, .sibling :: p =>
    d.compAccountNumber x = false ∧ ¬ x < d.accountNumber ∧ Routes x s p
  | .mk d _ _ c, .child :: p =>
    d.compAccountNumber x = true ∧ x ≠ d.accountNumber ∧ ¬ x < d.accountNumber ∧ Routes x c p

/-- The prefix discipline of a chart of accounts: every ledger has a positive
number; its number is a proper prefix of every number below it; it is smaller
than, and no prefix of, the numbers of its later siblings and of the ledgers
below them. -/
def Node.Orderly : Node → Prop
  | .null => True
  | .mk d _ s c =>
    0 < d.accountNumber ∧
    (∀ y ∈ c.numbers, d.compAccountNumber y = true ∧ y ≠ d.accountNumber) ∧
    (∀ y ∈ s.numbers, d.compAccountNumber y = false ∧ d.accountNumber < y) ∧
    s.Orderly ∧ c.Orderly

/-- Every number above 9 of the list `rest` has its first digit among the
numbers before it (`seen` holds the numbers before `rest`). -/
def firstDigitsKnown : List Int → List Int → Prop
  | _, [] => True
  | seen, y :: rest => (y ≤ 9 ∨ firstDigit y ∈ seen) ∧ firstDigitsKnown (y :: seen) rest

/-- The sum of the balances, as the dump writes them, of the ledgers of a
chain of nodes and of the ledgers below them. -/
def Node.total (n : Node) (written : ℚ → ℚ) : ℚ :=
  (n.ledgers.map (fun x => written x.2.balance)).sum

/-- The nodes expected when the lines of a dump are inserted again: the same
arrangement, numbers and descriptions, no records, and in every ledger its
balance as written plus the balances as written of all ledgers below it. -/
def Node.regrown (written : ℚ → ℚ) : Node → Node
  | .null => .null
  | .mk d _ s c =>
    .mk ⟨d.accountNumber, d.description, written d.balance + c.total written, []⟩
      (written d.balance) (Node.regrown written s) (Node.regrown written c)

/-- Two ledgers with the same number, description and records (the balance
may differ). -/
def SameIdentity (old new : NodePtr × Account) : Prop :=
  new.2.accountNumber = old.2.accountNumber ∧ new.2.description = old.2.description ∧
    new.2.transactions = old.2.transactions

/-- The nodes of `t1` are the nodes of `t`, in the same order and each with its
number, description and records, and one more node, which holds `acc`. -/
def NodesKeptPlusOne (t : ForestTree) (acc : Account) (t1 : ForestTree) : Prop :=
  ∃ pNew, (t1.root.deref pNew).account? = some acc ∧
    List.Forall₂ SameIdentity t.root.ledgers
      (t1.root.ledgers.filter (fun x => decide (x.1 ≠ pNew)))

/-- The nodes of `t1` are at the addresses of the nodes of `t` (the same
`child` and `sibling` links), each with its number, description and records. -/
def SameNodes (t t1 : ForestTree) : Prop :=
  t1.root.ledgers.map Prod.fst = t.root.ledgers.map Prod.fst ∧
    List.Forall₂ SameIdentity t.root.ledgers t1.root.ledgers

/-! ## Counting sort, as the buckets it builds -/

/-- The digit `(id / exp) % 10` of a record, as an index into `count`. -/
def digitIdx (exp : Int) (t : Transaction) : Nat := (digitOf t.id exp).toNat

/-- The records whose digit is `k`, in the order of the collection. -/
def bucket (exp : Int) (ts : List Transaction) (k : Nat) : List Transaction :=
  ts.filter (fun t => decide (digitIdx exp t = k))

/-- The buckets of the digits below `m`, one after the other. -/
def bucketsUpTo (exp : Int) (ts : List Transaction) : Nat → List Transaction
  | 0 => []
  | m + 1 => bucketsUpTo exp ts m ++ bucket exp ts m

/-- The collection sorted by digit, records of equal digit in their old order. -/
def stableByDigit (exp : Int) (ts : List Transaction) : List Transaction :=
  bucketsUpTo exp ts 10

/-- The second loop of `radixSortTransactions` run with integers taken as
unbounded, with a record of its run: the values of `exp` at which a pass was
made, the value of `exp` at which the loop ended (the one computed by the last
`exp *= 10`), and the records afterwards. Where every `exp` of the record is in
the range of `int` the run is that of `radixLoop`. -/
def radixLoopTrace (maxId : Int) :
    Nat → Int → List Transaction → Except Fault (List Int × Int × List Transaction)
  | 0, _, _ => .error .outOfFuel
  | fuel + 1, exp, transactions =>
    if Int.tdiv maxId exp > 0 then
      match countingSortByDigit transactions exp with
      | .error e => .error e
      | .ok sorted =>
        (radixLoopTrace maxId fuel (exp * 10) sorted).map (fun r => (exp :: r.1, r.2))
    else .ok ([], exp, transactions)

/-- The method `Account::radixSortTransactions` with the record of its run,
integers taken as unbounded. -/
def radixSortTrace (transactions : List Transaction) :
    Except Fault (List Int × Int × List Transaction) :=
  let maxId := maxIdOf transactions
  radixLoopTrace maxId (maxId.toNat + 1) 1 transactions

/-! ## Runs of calls on one account -/

/-- A call of one of the two mutating operations of `Account`. -/
inductive AccountCall where
  | addTransaction (tran : Transaction)
  | removeTransaction (id : Int)
deriving DecidableEq, Repr

/-- The account after one call (the record returned by `removeTransaction`
is dropped). -/
def Account.call (a : Account) : AccountCall → Except Fault Account
  | .addTransaction tran => a.addTransaction tran
  | .removeTransaction id => (a.removeTransaction id).map (fun r => r.1)

/-- The account after a sequence of calls. -/
def Account.calls (a : Account) : List AccountCall → Except Fault Account
  | [] => .ok a
  | c :: rest =>
    match a.call c with
    | .error e => .error e
    | .ok a1 => Account.calls a1 rest

/-- The id a call speaks of is at least 1. -/
def AccountCall.IdPositive : AccountCall → Prop
  | .addTransaction tran => 1 ≤ tran.id
  | .removeTransaction id => 1 ≤ id

/-- The id a call speaks of is at least 1, and an added record is of kind
`'D'` or `'C'`. -/
def AccountCall.Valid : AccountCall → Prop
  | .addTransaction tran => 1 ≤ tran.id ∧ (tran.type = 'D' ∨ tran.type = 'C')
  | .removeTransaction id => 1 ≤ id

/-- The id of a record that a call adds is below 1000000000. -/
def AccountCall.IdSmall : AccountCall → Prop
  | .addTransaction tran => tran.id < 1000000000
  | .removeTransaction _ => True

/-- Whether, after the calls, a record with the id has been added and not
removed since; `b` says whether that was so before the calls. -/
def liveAfter (id : Int) : Bool → List AccountCall → Bool
  | b, [] => b
  | b, .addTransaction tran :: rest => liveAfter id (if tran.id = id then true else b) rest
  | b, .removeTransaction i :: rest => liveAfter id (if i = id then false else b) rest

/-! ## Pointers: reading and writing through an address -/

@[simp] theorem Node.deref_nil (R : Node) : R.deref [] = R := by
  cases R <;> rfl

@[simp] theorem Node.modify_nil (f : Node → Node) (R : Node) : R.modify f [] = f R := by
  cases R <;> rfl

@[simp] theorem Node.deref_null (p : NodePtr) : Node.null.deref p = .null := by
  cases p <;> rfl

theorem Node.deref_append (R : Node) (p q : NodePtr) :
    R.deref (p ++ q) = (R.deref p).deref q := by
  induction p generalizing R with
  | nil => simp
  | cons l p ih =>
    cases R with
    | null => simp [Node.deref, Node.deref_null]
    | mk d g s c => cases l <;> simp [Node.deref, ih]

theorem Node.deref_prefix_ne_null {R : Node} {p q : NodePtr}
    (h : R.deref (p ++ q) ≠ .null) : R.deref p ≠ .null := by
  intro hp
  rw [Node.deref_append, hp, Node.deref_null] at h
  exact h rfl

theorem Node.modify_append (f : Node → Node) (R : Node) (p q : NodePtr) :
    R.modify f (p ++ q) = R.modify (fun n => n.modify f q) p := by
  induction p generalizing R with
  | nil => simp
  | cons l p ih =>
    cases R with
    | null => cases q <;> simp [Node.modify]
    | mk d g s c => cases l <;> simp [Node.modify, ih]

theorem Node.modify_congr {f g : Node → Node} (R : Node) (p : NodePtr)
    (h : f (R.deref p) = g (R.deref p)) : R.modify f p = R.modify g p := by
  induction p generalizing R with
  | nil => simpa [Node.modify, Node.deref] using h
  | cons l p ih =>
    cases R with
    | null => simp [Node.modify]
    | mk d g s c =>
      cases l
      · simp only [Node.modify, Node.deref] at h ⊢
        rw [ih s h]
      · simp only [Node.modify, Node.deref] at h ⊢
        rw [ih c h]

theorem Node.modify_self (R : Node) (p : NodePtr) (f : Node → Node)
    (h : f (R.deref p) = R.deref p) : R.modify f p = R := by
  induction p generalizing R with
  | nil => simpa [Node.modify, Node.deref] using h
  | cons l p ih =>
    cases R with
    | null => simp [Node.modify]
    | mk d g s c =>
      cases l
      · simp only [Node.modify, Node.deref] at h ⊢
        rw [ih s h]
      · simp only [Node.modify, Node.deref] at h ⊢
        rw [ih c h]

theorem Node.modify_modify (R : Node) (p : NodePtr) (f g : Node → Node)
    (h : R.deref p ≠ .null) : (R.modify f p).modify g p = R.modify (fun n => g (f n)) p := by
  induction p generalizing R with
  | nil => simp
  | cons l p ih =>
    cases R with
    | null => exact absurd rfl h
    | mk d g s c =>
      cases l
      · simp only [Node.modify, Node.deref] at h ⊢
        rw [ih s h]
      · simp only [Node.modify, Node.deref] at h ⊢
        rw [ih c h]

theorem Node.deref_modify_same (R : Node) (p : NodePtr) (f : Node → Node)
    (h : R.deref p ≠ .null) : (R.modify f p).deref p = f (R.deref p) := by
  induction p generalizing R with
  | nil => simp
  | cons l p ih =>
    cases R with
    | null => exact absurd rfl h
    | mk d g s c =>
      cases l
      · simp only [Node.modify, Node.deref] at h ⊢
        exact ih s h
      · simp only [Node.modify, Node.deref] at h ⊢
        exact ih c h

theorem Node.modify_setSibling (R : Node) (b : NodePtr) (X : Node) (h : R.deref b ≠ .null) :
    R.modify (fun n => n.setSibling X) b = R.modify (fun _ => X) (b ++ [Link.sibling]) := by
  rw [Node.modify_append]
  apply Node.modify_congr
  cases hb : R.deref b with
  | null => exact absurd hb h
  | mk d g s c => simp [Node.setSibling, Node.modify]

theorem Node.modify_setChild (R : Node) (b : NodePtr) (X : Node) (h : R.deref b ≠ .null) :
    R.modify (fun n => n.setChild X) b = R.modify (fun _ => X) (b ++ [Link.child]) := by
  rw [Node.modify_append]
  apply Node.modify_congr
  cases hb : R.deref b with
  | null => exact absurd hb h
  | mk d g s c => simp [Node.setChild, Node.modify]

theorem updateTracked_nil (a : ℚ) (R : Node) : updateTracked a [] R = R := rfl

theorem updateTracked_cons (a : ℚ) (p : NodePtr) (l : List NodePtr) (R : Node) :
    updateTracked a (p :: l) R = updateTracked a l (R.modify (Node.updateBalance a) p) := rfl

theorem updateTracked_append (a : ℚ) (l1 l2 : List NodePtr) (R : Node) :
    updateTracked a (l1 ++ l2) R = updateTracked a l2 (updateTracked a l1 R) := by
  simp [updateTracked, List.foldl_append]

theorem Node.deref_updateBalance_below (a : ℚ) (R : Node) (p : NodePtr) (l : Link)
    (q : NodePtr) :
    (R.modify (Node.updateBalance a) p).deref (p ++ l :: q) = R.deref (p ++ l :: q) := by
  induction p generalizing R with
  | nil => cases R <;> cases l <;> simp [Node.updateBalance, Node.deref]
  | cons l1 p ih =>
    cases R with
    | null => simp [Node.modify]
    | mk d g s c => cases l1 <;> simp [Node.modify, Node.deref, ih]

theorem Node.deref_updateBalance_null_iff (a : ℚ) (R : Node) (p q : NodePtr) :
    (R.modify (Node.updateBalance a) p).deref q = .null ↔ R.deref q = .null := by
  induction q generalizing R p with
  | nil =>
    cases p with
    | nil => cases R <;> simp [Node.updateBalance]
    | cons l1 p => cases R <;> cases l1 <;> simp [Node.modify]
  | cons l q ih =>
    cases p with
    | nil => cases R <;> cases l <;> simp [Node.updateBalance, Node.deref]
    | cons l1 p =>
      cases R with
      | null => simp [Node.modify]
      | mk d g s c => cases l1 <;> cases l <;> simp [Node.modify, Node.deref, ih]

theorem deref_updateTracked_null_iff (a : ℚ) (tracked : List NodePtr) (R : Node) (q : NodePtr) :
    (updateTracked a tracked R).deref q = .null ↔ R.deref q = .null := by
  induction tracked generalizing R with
  | nil => rfl
  | cons p l ih => rw [updateTracked_cons, ih, Node.deref_updateBalance_null_iff]

theorem deref_updateTracked_of_prefixes (a : ℚ) (tracked : List NodePtr) (R : Node)
    (cur : NodePtr) (h : ∀ p ∈ tracked, ∃ q, q ≠ [] ∧ cur = p ++ q) :
    (updateTracked a tracked R).deref cur = R.deref cur := by
  induction tracked generalizing R with
  | nil => rfl
  | cons p l ih =>
    rw [updateTracked_cons, ih _ (fun p hp => h p (List.mem_cons_of_mem _ hp))]
    obtain ⟨q, hq, rfl⟩ := h p (List.mem_cons_self _ _)
    cases q with
    | nil => exact absurd rfl hq
    | cons l1 q => exact Node.deref_updateBalance_below a R p l1 q

theorem throughBehind_ok (R : Node) (b : NodePtr) (f : Node → Node) (h : R.deref b ≠ .null) :
    throughBehind R (some b) f = .ok (R.modify f b) := by
  simp [throughBehind, h]

theorem childPtr_child (R : Node) (b : NodePtr) (h : R.deref (b ++ [Link.child]) ≠ .null) :
    R.childPtr b = some (b ++ [Link.child]) := by
  simp [Node.childPtr, h]

theorem childPtr_ne_sibling (R : Node) (b : NodePtr) :
    R.childPtr b ≠ some (b ++ [Link.sibling]) := by
  unfold Node.childPtr
  split <;> simp

theorem linkNewNode_at (acc : Account) (R1 : Node) (b : NodePtr) (via : Link)
    (d : Account) (g : ℚ) (s c : Node)
    (hcur : R1.deref (b ++ [via]) = .mk d g s c) (hb : R1.deref b ≠ .null)
    (hne : acc.accountNumber ≠ d.accountNumber) :
    linkNewNode acc R1 (some (b ++ [via]), some b) =
      .ok (true, R1.modify (fun _ => linkedAt acc via d g s c) (b ++ [via])) := by
  have hnn : R1.deref (b ++ [via]) ≠ .null := by rw [hcur]; simp
  unfold linkNewNode linkedAt
  simp only [hcur, hne, if_false]
  by_cases hlen : (to_string d.accountNumber).length < (to_string acc.accountNumber).length
  · simp only [hlen, if_true]
    congr 2
    apply Node.modify_congr
    rw [hcur]; rfl
  · simp only [hlen, if_false]
    by_cases hlt : acc.accountNumber < d.accountNumber
    · simp only [hlt, if_true]
      cases via with
      | child =>
        rw [childPtr_child R1 b hnn]
        simp only [if_true, throughBehind_ok R1 b _ hb, Except.map]
        rw [Node.modify_setChild R1 b _ hb]
        rfl
      | sibling =>
        simp only [childPtr_ne_sibling, if_false]
        by_cases hgt : (to_string d.accountNumber).length > (to_string acc.accountNumber).length
        · simp only [hgt, if_true, throughBehind_ok R1 b _ hb, Except.map]
          rw [Node.modify_setSibling R1 b _ hb]
          simp [wrapBefore, hgt]
        · simp only [hgt, if_false, throughBehind_ok R1 b _ hb, Except.map]
          rw [Node.modify_setSibling R1 b _ hb]
          simp [wrapBefore, hgt]
    · simp only [hlt, if_false]
      congr 2
      exact (Node.modify_self R1 _ _ hcur.symm).symm

/-! ## `addAccount` through pointers agrees with insertion read off the tree -/

theorem Node.modify_below_child (R1 : Node) (cur : NodePtr) (a : ℚ) (d : Account) (g : ℚ)
    (s c X : Node) (h : R1.deref cur = .mk d g s c) :
    (R1.modify (Node.updateBalance a) cur).modify (fun _ => X) (cur ++ [Link.child]) =
      R1.modify (fun _ => .mk (d.updateBalance a) g s X) cur := by
  have hnn : R1.deref cur ≠ .null := by rw [h]; simp
  rw [Node.modify_append, Node.modify_modify _ _ _ _ hnn]
  apply Node.modify_congr
  rw [h]
  simp [Node.updateBalance, Node.modify]

theorem Node.modify_below_sibling (R1 : Node) (cur : NodePtr) (d : Account) (g : ℚ)
    (s c X : Node) (h : R1.deref cur = .mk d g s c) :
    R1.modify (fun _ => X) (cur ++ [Link.sibling]) = R1.modify (fun _ => .mk d g X c) cur := by
  rw [Node.modify_append]
  apply Node.modify_congr
  rw [h]
  simp [Node.modify]

theorem linkNewNode_searchLoop (acc : Account) (node : Node) :
    ∀ (R : Node) (b : NodePtr) (via : Link) (tracked : List NodePtr),
      R.deref (b ++ [via]) = node → R.deref b ≠ .null →
      (via = Link.child → node ≠ .null) →
      (∀ p ∈ tracked, ∃ q, q ≠ [] ∧ b ++ [via] = p ++ q) →
      ∃ flag, linkNewNode acc
          (updateTracked acc.balance
            (searchLoop acc.accountNumber node (b ++ [via]) (some b) tracked).2 R)
          (searchLoop acc.accountNumber node (b ++ [via]) (some b) tracked).1 =
        .ok (flag, (updateTracked acc.balance tracked R).modify
          (fun _ => insertInto acc via node) (b ++ [via])) := by
  induction node with
  | null =>
    intro R b via tracked _ hb hvia _
    have hb1 : (updateTracked acc.balance tracked R).deref b ≠ .null := by
      rw [Ne, deref_updateTracked_null_iff]; exact hb
    cases via with
    | child => exact absurd rfl (hvia rfl)
    | sibling =>
      refine ⟨true, ?_⟩
      simp only [searchLoop, linkNewNode, throughBehind_ok _ b _ hb1, Except.map, insertInto]
      rw [Node.modify_setSibling _ b _ hb1]
  | mk d g s c ih_s ih_c =>
    intro R b via tracked hnode hb _ htr
    have hR1 := deref_updateTracked_of_prefixes acc.balance tracked R (b ++ [via]) htr
    rw [hnode] at hR1
    have hR1nn : (updateTracked acc.balance tracked R).deref (b ++ [via]) ≠ .null := by
      rw [hR1]; simp
    have hb1 : (updateTracked acc.balance tracked R).deref b ≠ .null := by
      rw [Ne, deref_updateTracked_null_iff]; exact hb
    by_cases hcomp : d.compAccountNumber acc.accountNumber = true
    · by_cases heq : acc.accountNumber = d.accountNumber
      · refine ⟨false, ?_⟩
        have hs : searchLoop acc.accountNumber (.mk d g s c) (b ++ [via]) (some b) tracked =
            ((some (b ++ [via]), some b), tracked) := by
          rw [searchLoop, if_pos hcomp, if_pos heq]
        have hi : insertInto acc via (.mk d g s c) = .mk d g s c := by
          rw [insertInto, if_pos hcomp, if_pos heq]
        rw [hs, hi, Node.modify_self _ _ _ hR1.symm]
        simp only [linkNewNode, hR1, heq, if_true]
      · by_cases hc : c = .null
        · subst hc
          refine ⟨true, ?_⟩
          have hs : searchLoop acc.accountNumber (.mk d g s .null) (b ++ [via]) (some b) tracked =
              ((some (b ++ [via]), some b), tracked ++ [b ++ [via]]) := by
            rw [searchLoop, if_pos hcomp, if_neg heq, if_pos rfl]
          have hi : insertInto acc via (.mk d g s .null) =
              linkedAt acc via (d.updateBalance acc.balance) g s .null := by
            rw [insertInto, if_pos hcomp, if_neg heq, if_pos rfl]
          rw [hs, hi]
          simp only [updateTracked_append, updateTracked_cons, updateTracked_nil]
          have h2 : ((updateTracked acc.balance tracked R).modify
              (Node.updateBalance acc.balance) (b ++ [via])).deref (b ++ [via]) =
              .mk (d.updateBalance acc.balance) g s .null := by
            rw [Node.deref_modify_same _ _ _ hR1nn, hR1]; rfl
          have h3 : ((updateTracked acc.balance tracked R).modify
              (Node.updateBalance acc.balance) (b ++ [via])).deref b ≠ .null := by
            rw [Ne, Node.deref_updateBalance_null_iff]; exact hb1
          rw [linkNewNode_at acc _ b via _ g s .null h2 h3 heq,
            Node.modify_modify _ _ _ _ hR1nn]
        · have hs : searchLoop acc.accountNumber (.mk d g s c) (b ++ [via])
              (some b) tracked =
              searchLoop acc.accountNumber c ((b ++ [via]) ++ [Link.child])
                (some (b ++ [via])) (tracked ++ [b ++ [via]]) := by
            rw [searchLoop, if_pos hcomp, if_neg heq, if_neg hc]
          have hi : insertInto acc via (.mk d g s c) =
              .mk (d.updateBalance acc.balance) g s (insertInto acc Link.child c) := by
            rw [insertInto, if_pos hcomp, if_neg heq, if_neg hc]
          have hnode' : R.deref (b ++ [via]) ≠ .null := by rw [hnode]; simp
          obtain ⟨flag, hflag⟩ := ih_c R (b ++ [via]) Link.child (tracked ++ [b ++ [via]])
            (by rw [Node.deref_append, hnode]; simp [Node.deref]) hnode' (fun _ => hc)
            (by
              intro p hp
              rcases List.mem_append.1 hp with hp | hp
              · obtain ⟨q, hq, hq'⟩ := htr p hp
                exact ⟨q ++ [Link.child], by simp, by rw [hq', List.append_assoc]⟩
              · rw [List.mem_singleton.1 hp]
                exact ⟨[Link.child], by simp, rfl⟩)
          refine ⟨flag, ?_⟩
          rw [hs, hi, hflag]
          simp only [updateTracked_append, updateTracked_cons, updateTracked_nil]
          rw [Node.modify_below_child _ _ _ d g s _ _ hR1]
    · by_cases hlt : acc.accountNumber < d.accountNumber
      · refine ⟨true, ?_⟩
        have hs : searchLoop acc.accountNumber (.mk d g s c) (b ++ [via]) (some b) tracked =
            ((some (b ++ [via]), some b), tracked) := by
          rw [searchLoop, if_neg hcomp, if_pos hlt]
        have hi : insertInto acc via (.mk d g s c) = linkedAt acc via d g s c := by
          rw [insertInto, if_neg hcomp, if_pos hlt]
        rw [hs, hi]
        exact linkNewNode_at acc _ b via d g s c hR1 hb1 (ne_of_lt hlt)
      · have hs : searchLoop acc.accountNumber (.mk d g s c) (b ++ [via]) (some b) tracked =
            searchLoop acc.accountNumber s ((b ++ [via]) ++ [Link.sibling])
              (some (b ++ [via])) tracked := by
          rw [searchLoop, if_neg hcomp, if_neg hlt]
        have hi : insertInto acc via (.mk d g s c) =
            .mk d g (insertInto acc Link.sibling s) c := by
          rw [insertInto, if_neg hcomp, if_neg hlt]
        have hnode' : R.deref (b ++ [via]) ≠ .null := by rw [hnode]; simp
        obtain ⟨flag, hflag⟩ := ih_s R (b ++ [via]) Link.sibling tracked
          (by rw [Node.deref_append, hnode]; simp [Node.deref]) hnode' (fun h => by cases h)
          (by
            intro p hp
            obtain ⟨q, hq, hq'⟩ := htr p hp
            exact ⟨q ++ [Link.sibling], by simp, by rw [hq', List.append_assoc]⟩)
        refine ⟨flag, ?_⟩
        rw [hs, hi, hflag, Node.modify_below_sibling _ _ d g _ c _ hR1]

theorem searchLoop_root_eq_insertTop (acc : Account) (d : Account) (g : ℚ) (s c : Node)
    (hlt : ¬ acc.accountNumber < d.accountNumber) :
    ∃ flag, linkNewNode acc
        (updateTracked acc.balance
          (searchLoop acc.accountNumber (.mk d g s c) [] none []).2 (.mk d g s c))
        (searchLoop acc.accountNumber (.mk d g s c) [] none []).1 =
      .ok (flag, insertInto acc Link.sibling (.mk d g s c)) := by
  by_cases hcomp : d.compAccountNumber acc.accountNumber = true
  · by_cases heq : acc.accountNumber = d.accountNumber
    · refine ⟨false, ?_⟩
      rw [searchLoop, if_pos hcomp, if_pos heq, insertInto, if_pos hcomp, if_pos heq]
      simp [linkNewNode, updateTracked_nil, heq]
    · by_cases hc : c = .null
      · subst hc
        refine ⟨true, ?_⟩
        rw [searchLoop, if_pos hcomp, if_neg heq, if_pos rfl, insertInto, if_pos hcomp,
          if_neg heq, if_pos rfl]
        have hlt' : ¬ acc.accountNumber < (d.updateBalance acc.balance).accountNumber := hlt
        have heq' : ¬ acc.accountNumber = (d.updateBalance acc.balance).accountNumber := heq
        by_cases hlen : (to_string (d.updateBalance acc.balance).accountNumber).length <
            (to_string acc.accountNumber).length
        · simp [linkNewNode, linkedAt, updateTracked, Node.updateBalance, heq', hlen,
            Node.setChild]
        · simp [linkNewNode, linkedAt, updateTracked, Node.updateBalance, heq', hlen, hlt']
      · have hs : searchLoop acc.accountNumber (.mk d g s c) [] none [] =
            searchLoop acc.accountNumber c ([] ++ [Link.child]) (some []) ([] ++ [[]]) := by
          rw [searchLoop, if_pos hcomp, if_neg heq, if_neg hc]
        obtain ⟨flag, hflag⟩ := linkNewNode_searchLoop acc c (.mk d g s c) [] Link.child
          ([] ++ [[]]) (by simp [Node.deref]) (by simp) (fun _ => hc)
          (by
            intro p hp
            have hp' : p = [] := by simpa using hp
            exact ⟨[Link.child], by simp, by simp [hp']⟩)
        refine ⟨flag, ?_⟩
        rw [hs, hflag, insertInto, if_pos hcomp, if_neg heq, if_neg hc]
        simp [updateTracked, Node.modify, Node.updateBalance]
  · have hs : searchLoop acc.accountNumber (.mk d g s c) [] none [] =
        searchLoop acc.accountNumber s ([] ++ [Link.sibling]) (some []) [] := by
      rw [searchLoop, if_neg hcomp, if_neg hlt]
    obtain ⟨flag, hflag⟩ := linkNewNode_searchLoop acc s (.mk d g s c) [] Link.sibling []
      (by simp [Node.deref]) (by simp) (fun h => by cases h) (by simp)
    refine ⟨flag, ?_⟩
    rw [hs, hflag, insertInto, if_neg hcomp, if_neg hlt]
    simp [updateTracked, Node.modify]

/-- The tree `addAccount` leaves is the one computed by `insertTop`; in
particular `addAccount` never dereferences a null pointer. -/
theorem addAccount_eq_insertTop (t : ForestTree) (acc : Account) :
    ∃ flag, t.addAccount acc = .ok (flag, ⟨insertTop acc t.root⟩) := by
  unfold ForestTree.addAccount insertTop ForestTree.searchAccountWithTracking
  by_cases hchk : acc.accountNumber > 9 ∧
      (searchLoop (firstDigit acc.accountNumber) t.root [] none []).1.1 = none
  · exact ⟨false, by simp only [if_pos hchk]⟩
  · simp only [if_neg hchk]
    cases hroot : t.root with
    | null => exact ⟨true, rfl⟩
    | mk d g s c =>
      by_cases hlt : acc.accountNumber < d.accountNumber
      · exact ⟨true, by simp only [if_pos hlt]⟩
      · simp only [if_neg hlt]
        obtain ⟨flag, hflag⟩ := searchLoop_root_eq_insertTop acc d g s c hlt
        exact ⟨flag, by rw [hflag]; rfl⟩

theorem compAccountNumber_self (d : Account) : d.compAccountNumber d.accountNumber = true := by
  simp [Account.compAccountNumber]

theorem Node.headAbove_of_lt {k k1 : Int} (node : Node) (h : k1 < k) (hn : node.headAbove k) :
    node.headAbove k1 := by
  cases node with
  | null => trivial
  | mk d g s c => exact lt_trans h hn

theorem headAbove_wrapBefore (acc : Account) (via : Link) (d : Account) (g : ℚ) (s c : Node)
    (k : Int) (hk : k < acc.accountNumber) :
    (wrapBefore acc via d g s c).headAbove k := by
  cases via
  · unfold wrapBefore
    simp only
    split <;> exact hk
  · exact hk

theorem headAbove_linkedAt (acc : Account) (via : Link) (d : Account) (g : ℚ) (s c : Node)
    (k : Int) (hk : k < acc.accountNumber) (hd : k < d.accountNumber) :
    (linkedAt acc via d g s c).headAbove k := by
  unfold linkedAt
  split
  · exact hd
  · split
    · exact headAbove_wrapBefore acc via d g s c k hk
    · exact hd

theorem headAbove_insertInto (acc : Account) (via : Link) (node : Node) (k : Int)
    (hk : k < acc.accountNumber) (hn : node.headAbove k) :
    (insertInto acc via node).headAbove k := by
  cases node with
  | null => exact hk
  | mk d g s c =>
    rw [insertInto]
    split
    · split
      · exact hn
      · split
        · exact headAbove_linkedAt acc via _ g s .null k hk hn
        · exact hn
    · split
      · exact headAbove_linkedAt acc via d g s c k hk hn
      · exact hn

theorem ascending_ofAccount (acc : Account) : (Node.ofAccount acc).Ascending := by
  simp [Node.ofAccount, Node.Ascending, Node.headAbove]

theorem ascending_wrapBefore (acc : Account) (via : Link) (d : Account) (g : ℚ) (s c : Node)
    (h : (Node.mk d g s c).Ascending) (hlt : acc.accountNumber < d.accountNumber) :
    (wrapBefore acc via d g s c).Ascending := by
  obtain ⟨h1, h2, h3⟩ := h
  cases via
  · unfold wrapBefore
    simp only
    split
    · exact ⟨Node.headAbove_of_lt s hlt h1, h2, trivial, trivial, h3⟩
    · exact ⟨hlt, ⟨h1, h2, h3⟩, trivial⟩
  · exact ⟨hlt, ⟨h1, h2, h3⟩, trivial⟩

theorem ascending_linkedAt (acc : Account) (via : Link) (d : Account) (g : ℚ) (s c : Node)
    (h : (Node.mk d g s c).Ascending) : (linkedAt acc via d g s c).Ascending := by
  unfold linkedAt
  split
  · exact ⟨h.1, h.2.1, ascending_ofAccount acc⟩
  · split
    · rename_i hlt
      exact ascending_wrapBefore acc via d g s c h hlt
    · exact h

theorem ascending_insertInto (acc : Account) (via : Link) (node : Node)
    (h : node.Ascending) : (insertInto acc via node).Ascending := by
  induction node generalizing via with
  | null => exact ascending_ofAccount acc
  | mk d g s c ih_s ih_c =>
    rw [insertInto]
    split
    · split
      · exact h
      · split
        · rename_i hc
          subst hc
          exact ascending_linkedAt acc via _ g s .null h
        · exact ⟨h.1, h.2.1, ih_c Link.child h.2.2⟩
    · rename_i hcomp
      split
      · exact ascending_linkedAt acc via d g s c h
      · rename_i hlt
        have hne : d.accountNumber ≠ acc.accountNumber := by
          intro he
          rw [← he] at hcomp
          exact hcomp (compAccountNumber_self d)
        have hdn : d.accountNumber < acc.accountNumber :=
          lt_of_le_of_ne (not_lt.1 hlt) hne
        exact ⟨headAbove_insertInto acc Link.sibling s _ hdn h.1, ih_s Link.sibling h.2.1, h.2.2⟩

theorem ascending_insertTop (acc : Account) (root : Node) (h : root.Ascending) :
    (insertTop acc root).Ascending := by
  unfold insertTop
  split
  · exact h
  · cases root with
    | null => exact ascending_ofAccount acc
    | mk d g s c =>
      simp only
      split
      · rename_i hlt
        exact ⟨hlt, h, trivial⟩
      · exact ascending_insertInto acc Link.sibling _ h

theorem Node.mem_chain_above (node : Node) (k : Int) (hk : node.headAbove k)
    (hs : node.chain.Pairwise (· < ·)) : ∀ x ∈ node.chain, k < x := by
  cases node with
  | null => intro x hx; simp [Node.chain] at hx
  | mk d g s c =>
    intro x hx
    simp only [Node.chain, List.mem_cons] at hx
    simp only [Node.chain, List.pairwise_cons] at hs
    rcases hx with rfl | hx
    · exact hk
    · exact lt_trans hk (hs.1 x hx)

theorem Node.chain_pairwise (node : Node) (h : node.Ascending) :
    node.chain.Pairwise (· < ·) := by
  induction node with
  | null => simp [Node.chain]
  | mk d g s c ih_s _ =>
    simp only [Node.chain, List.pairwise_cons]
    exact ⟨Node.mem_chain_above s _ h.1 (ih_s h.2.1), ih_s h.2.1⟩

theorem Node.ascending_deref (root : Node) (p : NodePtr) (h : root.Ascending) :
    (root.deref p).Ascending := by
  induction p generalizing root with
  | nil => simpa using h
  | cons l p ih =>
    cases root with
    | null => simp [Node.Ascending]
    | mk d g s c =>
      cases l
      · simpa [Node.deref] using ih s h.2.1
      · simpa [Node.deref] using ih c h.2.2

theorem chainsAscending_of_ascending (root : Node) (h : root.Ascending) :
    ChainsAscending root := by
  refine ⟨Node.chain_pairwise root h, ?_⟩
  intro p d g s c hp
  have h1 := Node.ascending_deref root p h
  rw [hp] at h1
  exact Node.chain_pairwise c h1.2.2

theorem addAccounts_ascending (calls : List (Int × String × ℚ)) :
    ∀ t0 : ForestTree, t0.root.Ascending →
      ∃ t, t0.addAccounts calls = .ok t ∧ t.root.Ascending := by
  induction calls with
  | nil => intro t0 h; exact ⟨t0, rfl, h⟩
  | cons x rest ih =>
    intro t0 h
    obtain ⟨flag, hflag⟩ := addAccount_eq_insertTop t0 (Account.ofParts 0 x.1 x.2.1 x.2.2)
    have h1 := ascending_insertTop (Account.ofParts 0 x.1 x.2.1 x.2.2) t0.root h
    obtain ⟨t, ht, hasc⟩ := ih ⟨insertTop (Account.ofParts 0 x.1 x.2.1 x.2.2) t0.root⟩ h1
    refine ⟨t, ?_, hasc⟩
    rw [ForestTree.addAccounts, ForestTree.addAccount3, hflag]
    exact ht


/-! ## Sorting and searching the records of an account -/

theorem digitOf_bounds {id exp : Int} (hid : 0 ≤ id) (hexp : 0 < exp) :
    0 ≤ digitOf id exp ∧ digitOf id exp < 10 := by
  unfold digitOf
  exact ⟨Int.tmod_nonneg _ (Int.tdiv_nonneg hid (le_of_lt hexp)),
    Int.tmod_lt_of_pos _ (by decide)⟩

theorem digitIdx_lt {exp : Int} {t : Transaction} (hid : 0 ≤ t.id) (hexp : 0 < exp) :
    digitIdx exp t < 10 := by
  have h := digitOf_bounds hid hexp
  unfold digitIdx
  omega

theorem getD_set (l : List Nat) (i j v : Nat) (hi : i < l.length) :
    (l.set i v).getD j 0 = if j = i then v else l.getD j 0 := by
  simp only [List.getD_eq_getElem?_getD, List.getElem?_set]
  by_cases h : i = j
  · subst h; simp [hi]
  · simp [h, Ne.symm h]

theorem bucket_cons (exp : Int) (t : Transaction) (ts : List Transaction) (k : Nat) :
    (bucket exp (t :: ts) k).length =
      (bucket exp ts k).length + (if digitIdx exp t = k then 1 else 0) := by
  unfold bucket
  by_cases h : digitIdx exp t = k <;> simp [List.filter_cons, h]

theorem bucket_append (exp : Int) (l1 l2 : List Transaction) (k : Nat) :
    bucket exp (l1 ++ l2) k = bucket exp l1 k ++ bucket exp l2 k := by
  simp [bucket]

theorem countDigits_spec (exp : Int) (hexp : 0 < exp) (ts : List Transaction)
    (hids : ∀ t ∈ ts, 0 ≤ t.id) :
    ∀ c0 : List Nat, c0.length = 10 →
      ∃ c1, countDigits exp ts c0 = .ok c1 ∧ c1.length = 10 ∧
        ∀ k, k < 10 → c1.getD k 0 = c0.getD k 0 + (bucket exp ts k).length := by
  induction ts with
  | nil => intro c0 h0; exact ⟨c0, rfl, h0, fun k _ => by simp [bucket]⟩
  | cons t rest ih =>
    intro c0 h0
    have hb := digitOf_bounds (hids t (List.mem_cons_self _ _)) hexp
    have hlt : (digitOf t.id exp).toNat < 10 := by omega
    have hincr : countIncr c0 (digitOf t.id exp) =
        .ok (c0.set (digitOf t.id exp).toNat (c0.getD (digitOf t.id exp).toNat 0 + 1)) := by
      unfold countIncr
      rw [if_pos ⟨hb.1, by rw [h0]; exact hlt⟩]
    obtain ⟨c1, hc1, hlen, hget⟩ := ih (fun x hx => hids x (List.mem_cons_of_mem _ hx))
      (c0.set (digitOf t.id exp).toNat (c0.getD (digitOf t.id exp).toNat 0 + 1))
      (by simp [h0])
    refine ⟨c1, ?_, hlen, ?_⟩
    · rw [countDigits, hincr]; exact hc1
    · intro k hk
      rw [hget k hk, getD_set _ _ _ _ (by rw [h0]; exact hlt), bucket_cons]
      unfold digitIdx
      by_cases h : k = (digitOf t.id exp).toNat
      · subst h; simp; omega
      · simp [h, Ne.symm h]

theorem prefixSums_spec (S e : Nat → Nat) (hS : ∀ j, S (j + 1) = S j + e (j + 1)) :
    ∀ (fuel i : Nat) (c : List Nat), 1 ≤ i → i + fuel ≤ c.length →
      (∀ j, j < i → c.getD j 0 = S j) →
      (∀ j, i ≤ j → j < c.length → c.getD j 0 = e j) →
      (prefixSums fuel i c).length = c.length ∧
        (∀ j, j < i + fuel → (prefixSums fuel i c).getD j 0 = S j) ∧
        (∀ j, i + fuel ≤ j → j < c.length → (prefixSums fuel i c).getD j 0 = e j) := by
  intro fuel
  induction fuel with
  | zero => intro i c _ _ h1 h2; exact ⟨rfl, h1, h2⟩
  | succ fuel ih =>
    intro i c hi hlen h1 h2
    have hic : i < c.length := by omega
    obtain ⟨r1, r2, r3⟩ := ih (i + 1) (c.set i (c.getD i 0 + c.getD (i - 1) 0)) (by omega)
      (by simp; omega)
      (by
        intro j hj
        rw [getD_set _ _ _ _ hic]
        by_cases h : j = i
        · subst h
          rw [if_pos rfl, h2 j (le_refl _) hic, h1 (j - 1) (by omega)]
          have := hS (j - 1)
          rw [show j - 1 + 1 = j by omega] at this
          omega
        · rw [if_neg h]; exact h1 j (by omega))
      (by
        intro j hj hjl
        rw [getD_set _ _ _ _ hic, if_neg (by omega)]
        exact h2 j (by omega) (by simpa using hjl))
    rw [prefixSums]
    refine ⟨by simpa using r1, ?_, ?_⟩
    · intro j hj; exact r2 j (by omega)
    · intro j hj hjl; exact r3 j (by omega) (by simpa using hjl)

theorem bucketsUpTo_length_succ (exp : Int) (ts : List Transaction) (m : Nat) :
    (bucketsUpTo exp ts (m + 1)).length =
      (bucketsUpTo exp ts m).length + (bucket exp ts m).length := by
  simp [bucketsUpTo]

theorem bucketsUpTo_length_mono (exp : Int) (ts : List Transaction) {m n : Nat} (h : m ≤ n) :
    (bucketsUpTo exp ts m).length ≤ (bucketsUpTo exp ts n).length := by
  induction n with
  | zero => rw [Nat.le_zero.1 h]
  | succ n ih =>
    rcases Nat.lt_or_eq_of_le h with h1 | h1
    · have := ih (Nat.lt_succ_iff.1 h1)
      rw [bucketsUpTo_length_succ]; omega
    · rw [h1]

theorem filter_lt_succ_perm (exp : Int) (ts : List Transaction) (m : Nat) :
    (ts.filter (fun t => decide (digitIdx exp t < m + 1))).Perm
      (ts.filter (fun t => decide (digitIdx exp t < m)) ++ bucket exp ts m) := by
  induction ts with
  | nil => simp [bucket]
  | cons t rest ih =>
    unfold bucket at ih ⊢
    rcases Nat.lt_trichotomy (digitIdx exp t) m with h | h | h
    · have h1 : digitIdx exp t < m + 1 := by omega
      have h2 : digitIdx exp t ≠ m := by omega
      simp only [List.filter_cons, h, h1, h2, decide_True, decide_False, if_true,
        List.cons_append]
      exact List.Perm.cons _ ih
    · have h1 : digitIdx exp t < m + 1 := by omega
      have h2 : ¬ digitIdx exp t < m := by omega
      have h3 : decide (digitIdx exp t = m) = true := by simp [h]
      simp only [List.filter_cons, h1, h2, h3, decide_True, decide_False, if_true]
      exact (List.Perm.cons _ ih).trans List.perm_middle.symm
    · have h1 : ¬ digitIdx exp t < m + 1 := by omega
      have h2 : ¬ digitIdx exp t < m := by omega
      have h3 : digitIdx exp t ≠ m := by omega
      simp only [List.filter_cons, h1, h2, h3, decide_False]
      exact ih

theorem bucketsUpTo_perm_filter (exp : Int) (ts : List Transaction) (m : Nat) :
    (bucketsUpTo exp ts m).Perm (ts.filter (fun t => decide (digitIdx exp t < m))) := by
  induction m with
  | zero => simp [bucketsUpTo]
  | succ m ih =>
    rw [bucketsUpTo]
    exact (List.Perm.append_right _ ih).trans (filter_lt_succ_perm exp ts m).symm

theorem stableByDigit_perm (exp : Int) (hexp : 0 < exp) (ts : List Transaction)
    (hids : ∀ t ∈ ts, 0 ≤ t.id) : (stableByDigit exp ts).Perm ts := by
  have h := bucketsUpTo_perm_filter exp ts 10
  have hall : ts.filter (fun t => decide (digitIdx exp t < 10)) = ts := by
    rw [List.filter_eq_self]
    intro t ht
    simpa using digitIdx_lt (hids t ht) hexp
  rw [hall] at h
  exact h

theorem placeAll_spec (exp : Int) (hexp : 0 < exp) (ts : List Transaction)
    (hids : ∀ t ∈ ts, 0 ≤ t.id) (out0 : List Transaction) (cnt0 : List Nat)
    (hc0 : cnt0.length = 10) (ho0 : out0.length = ts.length)
    (hcnt0 : ∀ k, k < 10 → cnt0.getD k 0 =
      (bucketsUpTo exp ts k).length + (bucket exp ts k).length) :
    ∀ suf pre : List Transaction, ts = pre ++ suf →
      ∃ out cnt, placeAll exp suf (out0, cnt0) = .ok (out, cnt) ∧
        cnt.length = 10 ∧ out.length = ts.length ∧
        (∀ k, k < 10 → cnt.getD k 0 =
          (bucketsUpTo exp ts k).length + (bucket exp pre k).length) ∧
        (∀ k, k < 10 → ∀ j, j < (bucket exp suf k).length →
          out[cnt.getD k 0 + j]? = (bucket exp suf k)[j]?) := by
  intro suf
  induction suf with
  | nil =>
    intro pre hts
    have hpre : pre = ts := by simpa using hts.symm
    subst hpre
    exact ⟨out0, cnt0, rfl, hc0, ho0, hcnt0, fun k _ j hj => by simp [bucket] at hj⟩
  | cons t rest ih =>
    intro pre hts
    obtain ⟨out1, cnt1, hrun, hc1, ho1, hcnt1, hout1⟩ := ih (pre ++ [t]) (by simp [hts])
    have htmem : t ∈ ts := by rw [hts]; simp
    have hb := digitOf_bounds (hids t htmem) hexp
    have hd0 : digitIdx exp t < 10 := digitIdx_lt (hids t htmem) hexp
    -- the count of the digit of `t`
    have hc := hcnt1 (digitIdx exp t) hd0
    have hsplit : ∀ k, (bucket exp ts k).length =
        (bucket exp pre k).length + (if digitIdx exp t = k then 1 else 0) +
          (bucket exp rest k).length := by
      intro k
      rw [hts, bucket_append, List.length_append, bucket_cons]
      omega
    have hpre1 : ∀ k, (bucket exp (pre ++ [t]) k).length =
        (bucket exp pre k).length + (if digitIdx exp t = k then 1 else 0) := by
      intro k
      rw [bucket_append, List.length_append, bucket_cons]
      simp [bucket]
    have hL10 : (bucketsUpTo exp ts 10).length = ts.length :=
      (stableByDigit_perm exp hexp ts hids).length_eq
    have hLd : (bucketsUpTo exp ts (digitIdx exp t + 1)).length ≤ ts.length := by
      rw [← hL10]; exact bucketsUpTo_length_mono exp ts (by omega)
    rw [bucketsUpTo_length_succ, hsplit (digitIdx exp t), if_pos rfl] at hLd
    rw [hpre1 (digitIdx exp t), if_pos rfl] at hc
    have hplace : placeOne exp t (out1, cnt1) =
        .ok (out1.set (cnt1.getD (digitIdx exp t) 0 - 1) t,
          cnt1.set (digitIdx exp t) (cnt1.getD (digitIdx exp t) 0 - 1)) := by
      unfold placeOne
      simp only
      rw [if_pos ⟨hb.1, by rw [hc1]; exact hd0⟩]
      have : 1 ≤ cnt1.getD (digitOf t.id exp).toNat 0 ∧
          cnt1.getD (digitOf t.id exp).toNat 0 - 1 < out1.length := by
        unfold digitIdx at hc hLd
        rw [ho1]; omega
      rw [if_pos this]
      rfl
    refine ⟨_, _, by rw [placeAll, hrun]; exact hplace, by simpa using hc1,
      by simpa using ho1, ?_, ?_⟩
    · intro k hk
      rw [getD_set _ _ _ _ (by rw [hc1]; exact hd0)]
      by_cases h : k = digitIdx exp t
      · rw [if_pos h, hc, h]; omega
      · rw [if_neg h, hcnt1 k hk, hpre1 k, if_neg (Ne.symm h)]; omega
    · intro k hk j hj
      rw [getD_set _ _ _ _ (by rw [hc1]; exact hd0)]
      have hidx : cnt1.getD (digitIdx exp t) 0 - 1 < out1.length := by rw [ho1]; omega
      by_cases h : k = digitIdx exp t
      · subst h
        rw [if_pos rfl]
        have hbk : bucket exp (t :: rest) (digitIdx exp t) =
            t :: bucket exp rest (digitIdx exp t) := by
          simp [bucket, List.filter_cons]
        rw [hbk] at hj ⊢
        cases j with
        | zero =>
          rw [Nat.add_zero, List.getElem?_set_eq_of_lt _ hidx]
          simp
        | succ j =>
          have hj' : j < (bucket exp rest (digitIdx exp t)).length := by simpa using hj
          rw [List.getElem?_set_ne (by omega), List.getElem?_cons_succ,
            ← hout1 _ hd0 j hj']
          congr 1
          omega
      · rw [if_neg h]
        have hbk : bucket exp (t :: rest) k = bucket exp rest k := by
          simp [bucket, List.filter_cons, Ne.symm h]
        rw [hbk] at hj ⊢
        have hck := hcnt1 k hk
        rw [hpre1 k, if_neg (Ne.symm h)] at hck
        have hsk := hsplit k
        rw [if_neg (Ne.symm h)] at hsk
        have hne : cnt1.getD (digitIdx exp t) 0 - 1 ≠ cnt1.getD k 0 + j := by
          rcases Nat.lt_or_gt_of_ne h with hlt | hgt
          · have hm := bucketsUpTo_length_mono exp ts (show k + 1 ≤ digitIdx exp t by omega)
            rw [bucketsUpTo_length_succ] at hm
            omega
          · have hm := bucketsUpTo_length_mono exp ts (show digitIdx exp t + 1 ≤ k by omega)
            rw [bucketsUpTo_length_succ, hsplit (digitIdx exp t), if_pos rfl] at hm
            omega
        rw [List.getElem?_set_ne hne]
        exact hout1 k hk j hj

theorem getElem?_bucketsUpTo (exp : Int) (ts out : List Transaction)
    (hout : ∀ k, k < 10 → ∀ j, j < (bucket exp ts k).length →
      out[(bucketsUpTo exp ts k).length + j]? = (bucket exp ts k)[j]?) :
    ∀ m, m ≤ 10 → ∀ i, i < (bucketsUpTo exp ts m).length →
      out[i]? = (bucketsUpTo exp ts m)[i]? := by
  intro m
  induction m with
  | zero => intro _ i hi; simp [bucketsUpTo] at hi
  | succ m ih =>
    intro hm i hi
    rw [bucketsUpTo]
    by_cases h : i < (bucketsUpTo exp ts m).length
    · rw [List.getElem?_append_left h]
      exact ih (by omega) i h
    · rw [List.getElem?_append_right (by omega)]
      rw [bucketsUpTo_length_succ] at hi
      have := hout m (by omega) (i - (bucketsUpTo exp ts m).length) (by omega)
      rw [← this]
      congr 1
      omega

/-- On non-negative ids `countingSortByDigit` does not fault, and returns the
buckets of the digits 0 to 9 in turn. -/
theorem countingSortByDigit_eq (exp : Int) (hexp : 0 < exp) (ts : List Transaction)
    (hids : ∀ t ∈ ts, 0 ≤ t.id) :
    countingSortByDigit ts exp = .ok (stableByDigit exp ts) := by
  obtain ⟨c1, hc1, hlen1, hget1⟩ := countDigits_spec exp hexp ts hids (List.replicate 10 0)
    (by simp)
  have hget1' : ∀ k, k < 10 → c1.getD k 0 = (bucket exp ts k).length := by
    intro k hk
    rw [hget1 k hk, List.getD_eq_getElem?_getD, List.getElem?_getD_replicate_default_eq]
    omega
  obtain ⟨hlen2, hget2, _⟩ := prefixSums_spec
    (fun j => (bucketsUpTo exp ts (j + 1)).length) (fun j => (bucket exp ts j).length)
    (fun j => bucketsUpTo_length_succ exp ts (j + 1)) 9 1 c1 (le_refl 1) (by omega)
    (by
      intro j hj
      have hj0 : j = 0 := by omega
      subst hj0
      rw [hget1' 0 (by omega)]
      simp [bucketsUpTo])
    (by intro j _ hj2; exact hget1' j (by omega))
  obtain ⟨out, cnt, hrun, _, hlo, hcnt, hout⟩ := placeAll_spec exp hexp ts hids
    (List.replicate ts.length Transaction.default) (prefixSums 9 1 c1)
    (by rw [hlen2, hlen1]) (by simp)
    (by
      intro k hk
      rw [hget2 k (by omega)]
      exact bucketsUpTo_length_succ exp ts k)
    ts [] rfl
  have hL10 : (bucketsUpTo exp ts 10).length = ts.length :=
    (stableByDigit_perm exp hexp ts hids).length_eq
  have hout' : ∀ k, k < 10 → ∀ j, j < (bucket exp ts k).length →
      out[(bucketsUpTo exp ts k).length + j]? = (bucket exp ts k)[j]? := by
    intro k hk j hj
    have h1 := hcnt k hk
    have h2 := hout k hk j hj
    rw [h1] at h2
    simpa [bucket] using h2
  have hfinal : out = stableByDigit exp ts := by
    apply List.ext_getElem?
    intro i
    unfold stableByDigit
    by_cases hi : i < ts.length
    · exact getElem?_bucketsUpTo exp ts out hout' 10 (le_refl _) i (by rw [hL10]; exact hi)
    · rw [List.getElem?_eq_none (by omega), List.getElem?_eq_none (by omega)]
  unfold countingSortByDigit
  simp only [hc1, hrun, hfinal]

theorem maxIdOf_foldl_ge (ts : List Transaction) (m : Int) :
    m ≤ ts.foldl (fun m t => max m t.id) m := by
  induction ts generalizing m with
  | nil => exact le_refl _
  | cons t rest ih => exact le_trans (le_max_left _ _) (ih _)

theorem maxIdOf_nonneg (ts : List Transaction) : 0 ≤ maxIdOf ts :=
  maxIdOf_foldl_ge ts 0

/-- While a pass is made at `10 ^ i` and the largest id is below 1000000000, the
step `exp *= 10` stays in the range of `int`. -/
theorem exp_step_in_range (maxId : Int) (hmax : 0 ≤ maxId) (hM : maxId < 1000000000) (i : Nat)
    (hdiv : Int.tdiv maxId ((10 ^ i : Nat) : Int) > 0) :
    ¬ (((10 ^ i : Nat) : Int) * 10 < INT_MIN ∨ INT_MAX < ((10 ^ i : Nat) : Int) * 10) := by
  have hle : ((10 ^ i : Nat) : Int) ≤ maxId := by
    by_contra hlt
    have h0 : Int.tdiv maxId ((10 ^ i : Nat) : Int) = 0 :=
      Int.tdiv_eq_zero_of_lt hmax (not_le.1 hlt)
    rw [h0] at hdiv
    exact absurd hdiv (by decide)
  have hi : i < 9 := by
    by_contra hge
    have h1 : 10 ^ 9 ≤ 10 ^ i := Nat.pow_le_pow_right (by decide) (not_lt.1 hge)
    have h2 : ((10 ^ 9 : Nat) : Int) ≤ ((10 ^ i : Nat) : Int) := by exact_mod_cast h1
    norm_num at h2
    omega
  have h3 : 10 ^ i ≤ 10 ^ 8 := Nat.pow_le_pow_right (by decide) (by omega)
  have h4 : ((10 ^ i : Nat) : Int) ≤ ((10 ^ 8 : Nat) : Int) := by exact_mod_cast h3
  have h5 : (0 : Int) ≤ ((10 ^ i : Nat) : Int) := Int.ofNat_nonneg _
  norm_num at h4
  unfold INT_MIN INT_MAX
  omega

theorem radixLoop_spec (maxId : Int) (hmax : 0 ≤ maxId) (hM : maxId < 1000000000) :
    ∀ (fuel i : Nat) (ts : List Transaction),
      maxId < ((10 ^ i : Nat) : Int) * 10 ^ fuel → (∀ t ∈ ts, 0 ≤ t.id) →
      ∃ sorted, radixLoop maxId (fuel + 1) ((10 ^ i : Nat) : Int) ts = .ok sorted ∧
        sorted.Perm ts := by
  intro fuel
  induction fuel with
  | zero =>
    intro i ts hlt _
    refine ⟨ts, ?_, List.Perm.refl _⟩
    have h0 : Int.tdiv maxId ((10 ^ i : Nat) : Int) = 0 :=
      Int.tdiv_eq_zero_of_lt hmax (by simpa using hlt)
    rw [radixLoop, if_neg (by rw [h0]; decide)]
  | succ fuel ih =>
    intro i ts hlt hids
    have hexp : (0 : Int) < ((10 ^ i : Nat) : Int) := by
      exact_mod_cast Nat.pos_pow_of_pos i (by decide)
    by_cases hdiv : Int.tdiv maxId ((10 ^ i : Nat) : Int) > 0
    · have hsorted := countingSortByDigit_eq _ hexp ts hids
      have hperm := stableByDigit_perm _ hexp ts hids
      have hcast : ((10 ^ (i + 1) : Nat) : Int) = ((10 ^ i : Nat) : Int) * 10 := by
        rw [pow_succ]; push_cast; rfl
      obtain ⟨sorted, hrun, hp⟩ := ih (i + 1) (stableByDigit ((10 ^ i : Nat) : Int) ts)
        (by rw [hcast]; rw [pow_succ] at hlt; linarith)
        (fun t ht => hids t (hperm.subset ht))
      refine ⟨sorted, ?_, hp.trans hperm⟩
      rw [radixLoop, if_pos hdiv, hsorted]
      simp only
      rw [if_neg (exp_step_in_range maxId hmax hM i hdiv), ← hcast]
      exact hrun
    · exact ⟨ts, by rw [radixLoop, if_neg hdiv], List.Perm.refl _⟩

theorem maxIdOf_foldl_lt (B : Int) (ts : List Transaction) (hbig : ∀ t ∈ ts, t.id < B) :
    ∀ m : Int, m < B → ts.foldl (fun m t => max m t.id) m < B := by
  induction ts with
  | nil => intro m hm; exact hm
  | cons t rest ih =>
    intro m hm
    exact ih (fun x hx => hbig x (List.mem_cons_of_mem _ hx)) _
      (max_lt hm (hbig t (List.mem_cons_self _ _)))

/-- The largest id of records with ids below 1000000000 is below 1000000000. -/
theorem maxIdOf_lt (ts : List Transaction) (hbig : ∀ t ∈ ts, t.id < 1000000000) :
    maxIdOf ts < 1000000000 :=
  maxIdOf_foldl_lt 1000000000 ts hbig 0 (by decide)

/-- On ids from 0 to 999999999 `radixSortTransactions` does not fault and
permutes the collection. -/
theorem radixSortTransactions_perm (ts : List Transaction) (hids : ∀ t ∈ ts, 0 ≤ t.id)
    (hbig : ∀ t ∈ ts, t.id < 1000000000) :
    ∃ sorted, radixSortTransactions ts = .ok sorted ∧ sorted.Perm ts := by
  have hbig := maxIdOf_lt ts hbig
  unfold radixSortTransactions
  have h1 : (maxIdOf ts).toNat < 10 ^ (maxIdOf ts).toNat := Nat.lt_pow_self (by decide) _
  have h2 : ((maxIdOf ts).toNat : Int) = maxIdOf ts := Int.toNat_of_nonneg (maxIdOf_nonneg ts)
  have h3 : (((maxIdOf ts).toNat : Nat) : Int) < ((10 ^ (maxIdOf ts).toNat : Nat) : Int) := by
    exact_mod_cast h1
  rw [h2] at h3
  have h := radixLoop_spec (maxIdOf ts) (maxIdOf_nonneg ts) hbig (maxIdOf ts).toNat 0 ts
    (by simpa using h3) hids
  simpa using h

theorem binarySearch_absent (ts : List Transaction) (id : Int)
    (habs : ∀ t ∈ ts, t.id ≠ id) :
    ∀ (fuel : Nat) (left right : Int), 0 ≤ left → right < ts.length →
      (right - left + 1).toNat < fuel → binarySearch ts id fuel left right = .ok none := by
  intro fuel
  induction fuel with
  | zero => intro left right _ _ h; omega
  | succ fuel ih =>
    intro left right hl hr hf
    rw [binarySearch]
    by_cases hle : left ≤ right
    · have hdiv : Int.tdiv (right - left) 2 = (right - left) / 2 :=
        Int.tdiv_eq_ediv (by omega) (by decide)
      have hmid1 : 0 ≤ left + Int.tdiv (right - left) 2 := by rw [hdiv]; omega
      have hmid2 : (left + Int.tdiv (right - left) 2).toNat < ts.length := by
        rw [hdiv]; omega
      have hmem : ts.getD (left + Int.tdiv (right - left) 2).toNat Transaction.default ∈ ts := by
        rw [List.getD_eq_getElem _ _ hmid2]
        exact List.getElem_mem _
      simp only [if_pos hle, if_pos (And.intro hmid1 hmid2), if_neg (habs _ hmem)]
      split
      · exact ih _ _ (by omega) hr (by rw [hdiv]; omega)
      · exact ih _ _ hl (by rw [hdiv]; omega) (by rw [hdiv]; omega)
    · simp only [if_neg hle]

/-- The result of `findTransaction` for an id no stored record has, the stored
ids being from 0 to 999999999: no fault, `end()` is
returned and the records are permuted. -/
theorem findTransaction_absent (a : Account) (id : Int)
    (hids : ∀ t ∈ a.transactions, 0 ≤ t.id) (hbig : ∀ t ∈ a.transactions, t.id < 1000000000)
    (habs : ∀ t ∈ a.transactions, t.id ≠ id) :
    ∃ sorted, a.findTransaction id = .ok ({ a with transactions := sorted }, none) ∧
      sorted.Perm a.transactions := by
  obtain ⟨sorted, hs, hp⟩ := radixSortTransactions_perm a.transactions hids hbig
  refine ⟨sorted, ?_, hp⟩
  have hb := binarySearch_absent sorted id (fun t ht => habs t (hp.subset ht))
    (sorted.length + 1) 0 ((a.transactions.length : Int) - 1) (le_refl _)
    (by rw [hp.length_eq]; omega) (by rw [hp.length_eq]; omega)
  unfold Account.findTransaction
  simp only [hs, hb]

/-- The result of `addTransaction` of a record with a fresh id and kind `'D'` or `'C'`,
the stored ids being from 0 to 999999999. -/
theorem addTransaction_fresh (a : Account) (r : Transaction)
    (hids : ∀ t ∈ a.transactions, 0 ≤ t.id) (hbig : ∀ t ∈ a.transactions, t.id < 1000000000)
    (habs : ∀ t ∈ a.transactions, t.id ≠ r.id)
    (hkind : r.type = 'D' ∨ r.type = 'C') :
    ∃ a1, a.addTransaction r = .ok a1 ∧ a1.transactions.Perm (r :: a.transactions) ∧
      a1.balance = a.balance + signedAmount r ∧ a1.accountNumber = a.accountNumber ∧
      a1.description = a.description := by
  obtain ⟨sorted, hf, hp⟩ := findTransaction_absent a r.id hids hbig habs
  refine ⟨{ a with
      balance := a.balance + r.amount * (if r.type = 'C' then -1 else 1),
      transactions := sorted ++ [r] }, ?_, ?_, ?_, rfl, rfl⟩
  · unfold Account.addTransaction
    rw [hf]
    rfl
  · exact (List.perm_append_singleton r sorted).trans (List.Perm.cons r hp)
  · rcases hkind with h | h <;> simp [signedAmount, h]


/-! ## Radix sort puts the records in ascending order -/

theorem digitIdx_eq (e : Nat) (t : Transaction) (hid : 0 ≤ t.id) :
    digitIdx (e : Int) t = t.id.toNat / e % 10 := by
  unfold digitIdx digitOf
  have h : t.id = ((t.id.toNat : Nat) : Int) := (Int.toNat_of_nonneg hid).symm
  rw [h]
  simp only [Int.toNat_ofNat]
  rw [← Int.ofNat_tdiv, show (10 : Int) = ((10 : Nat) : Int) from rfl, ← Int.ofNat_tmod,
    Int.toNat_ofNat]

theorem mem_bucketsUpTo (exp : Int) (ts : List Transaction) (m : Nat) (a : Transaction) :
    a ∈ bucketsUpTo exp ts m ↔ a ∈ ts ∧ digitIdx exp a < m := by
  rw [(bucketsUpTo_perm_filter exp ts m).mem_iff]
  simp

theorem mem_bucket (exp : Int) (ts : List Transaction) (m : Nat) (a : Transaction) :
    a ∈ bucket exp ts m ↔ a ∈ ts ∧ digitIdx exp a = m := by
  simp [bucket]

theorem lowKey_le_of_digit_eq (e x y : Nat) (hd : x / e % 10 = y / e % 10)
    (h : x % e ≤ y % e) : x % (e * 10) ≤ y % (e * 10) := by
  rw [Nat.mod_mul, Nat.mod_mul, hd]
  omega

theorem lowKey_le_of_digit_lt (e x y : Nat) (he : 0 < e) (hd : x / e % 10 < y / e % 10) :
    x % (e * 10) ≤ y % (e * 10) := by
  rw [Nat.mod_mul, Nat.mod_mul]
  have h1 : x % e < e := Nat.mod_lt _ he
  have h2 : e * (x / e % 10 + 1) ≤ e * (y / e % 10) := Nat.mul_le_mul_left e hd
  rw [Nat.mul_add, Nat.mul_one] at h2
  omega

theorem bucketsUpTo_sortedLow (e : Nat) (he : 0 < e) (ts : List Transaction)
    (hids : ∀ t ∈ ts, 0 ≤ t.id)
    (hs : ts.Pairwise (fun a b => a.id.toNat % e ≤ b.id.toNat % e)) (m : Nat) :
    (bucketsUpTo (e : Int) ts m).Pairwise
      (fun a b => a.id.toNat % (e * 10) ≤ b.id.toNat % (e * 10)) := by
  induction m with
  | zero => simp [bucketsUpTo]
  | succ m ih =>
    rw [bucketsUpTo, List.pairwise_append]
    refine ⟨ih, ?_, ?_⟩
    · have hb : (bucket (e : Int) ts m).Pairwise
          (fun a b => a.id.toNat % e ≤ b.id.toNat % e) := hs.filter _
      refine hb.imp_of_mem ?_
      intro a b ha hb' hab
      rw [mem_bucket] at ha hb'
      apply lowKey_le_of_digit_eq e _ _ _ hab
      rw [← digitIdx_eq e a (hids a ha.1), ← digitIdx_eq e b (hids b hb'.1), ha.2, hb'.2]
    · intro a ha b hb
      rw [mem_bucketsUpTo] at ha
      rw [mem_bucket] at hb
      apply lowKey_le_of_digit_lt e _ _ he
      rw [← digitIdx_eq e a (hids a ha.1), ← digitIdx_eq e b (hids b hb.1), hb.2]
      exact ha.2

/-- One stable pass by the digit at `e` turns a collection sorted by the
digits below `e` into one sorted by the digits below `e * 10`. -/
theorem stableByDigit_sortedLow (e : Nat) (he : 0 < e) (ts : List Transaction)
    (hids : ∀ t ∈ ts, 0 ≤ t.id)
    (hs : ts.Pairwise (fun a b => a.id.toNat % e ≤ b.id.toNat % e)) :
    (stableByDigit (e : Int) ts).Pairwise
      (fun a b => a.id.toNat % (e * 10) ≤ b.id.toNat % (e * 10)) :=
  bucketsUpTo_sortedLow e he ts hids hs 10

theorem maxIdOf_foldl_le (ts : List Transaction) (m : Int) :
    ∀ t ∈ ts, t.id ≤ ts.foldl (fun m t => max m t.id) m := by
  induction ts generalizing m with
  | nil => intro t ht; simp at ht
  | cons x rest ih =>
    intro t ht
    rcases List.mem_cons.1 ht with rfl | ht
    · exact le_trans (le_max_right _ _) (maxIdOf_foldl_ge rest _)
    · exact ih _ t ht

theorem le_maxIdOf (ts : List Transaction) : ∀ t ∈ ts, t.id ≤ maxIdOf ts :=
  maxIdOf_foldl_le ts 0

theorem radixLoop_sorted (maxId : Int) (hmax : 0 ≤ maxId) (hM : maxId < 1000000000) :
    ∀ (fuel i : Nat) (ts : List Transaction),
      maxId < ((10 ^ i : Nat) : Int) * 10 ^ fuel → (∀ t ∈ ts, 0 ≤ t.id) →
      (∀ t ∈ ts, t.id ≤ maxId) →
      ts.Pairwise (fun a b => a.id.toNat % 10 ^ i ≤ b.id.toNat % 10 ^ i) →
      ∃ sorted, radixLoop maxId (fuel + 1) ((10 ^ i : Nat) : Int) ts = .ok sorted ∧
        sorted.Perm ts ∧ sorted.Pairwise (fun a b => a.id ≤ b.id) := by
  intro fuel
  induction fuel with
  | zero =>
    intro i ts hlt hids hle hs
    have hlt' : maxId < ((10 ^ i : Nat) : Int) := by simpa using hlt
    refine ⟨ts, ?_, List.Perm.refl _, ?_⟩
    · have h0 : Int.tdiv maxId ((10 ^ i : Nat) : Int) = 0 := Int.tdiv_eq_zero_of_lt hmax hlt'
      rw [radixLoop, if_neg (by rw [h0]; decide)]
    · refine hs.imp_of_mem ?_
      intro a b ha hb hab
      have ha1 := hids a ha
      have ha2 := hle a ha
      have hb1 := hids b hb
      have hb2 := hle b hb
      rw [Nat.mod_eq_of_lt (by omega), Nat.mod_eq_of_lt (by omega)] at hab
      omega
  | succ fuel ih =>
    intro i ts hlt hids hle hs
    have he : 0 < 10 ^ i := Nat.pos_pow_of_pos i (by decide)
    have hexp : (0 : Int) < ((10 ^ i : Nat) : Int) := by exact_mod_cast he
    by_cases hdiv : Int.tdiv maxId ((10 ^ i : Nat) : Int) > 0
    · have hsorted := countingSortByDigit_eq _ hexp ts hids
      have hperm := stableByDigit_perm _ hexp ts hids
      have hcast : ((10 ^ (i + 1) : Nat) : Int) = ((10 ^ i : Nat) : Int) * 10 := by
        rw [pow_succ]; push_cast; rfl
      obtain ⟨sorted, hrun, hp, hord⟩ := ih (i + 1) (stableByDigit ((10 ^ i : Nat) : Int) ts)
        (by rw [hcast]; rw [pow_succ] at hlt; linarith)
        (fun t ht => hids t (hperm.subset ht)) (fun t ht => hle t (hperm.subset ht))
        (by rw [pow_succ]; exact stableByDigit_sortedLow (10 ^ i) he ts hids hs)
      refine ⟨sorted, ?_, hp.trans hperm, hord⟩
      rw [radixLoop, if_pos hdiv, hsorted]
      simp only
      rw [if_neg (exp_step_in_range maxId hmax hM i hdiv), ← hcast]
      exact hrun
    · refine ⟨ts, by rw [radixLoop, if_neg hdiv], List.Perm.refl _, ?_⟩
      have hlt' : maxId < ((10 ^ i : Nat) : Int) := by
        by_contra hge
        apply hdiv
        have h1 : ((10 ^ i : Nat) : Int) ≤ maxId := not_lt.1 hge
        rw [Int.tdiv_eq_ediv hmax (le_of_lt hexp)]
        exact Int.le_ediv_of_mul_le hexp (by omega)
      refine hs.imp_of_mem ?_
      intro a b ha hb hab
      have ha1 := hids a ha
      have ha2 := hle a ha
      have hb1 := hids b hb
      have hb2 := hle b hb
      rw [Nat.mod_eq_of_lt (by omega), Nat.mod_eq_of_lt (by omega)] at hab
      omega

/-- On ids from 0 to 999999999 `radixSortTransactions` does not fault and
returns a permutation of the records in ascending order of id. -/
theorem radixSortTransactions_sorted (ts : List Transaction) (hids : ∀ t ∈ ts, 0 ≤ t.id)
    (hbig : ∀ t ∈ ts, t.id < 1000000000) :
    ∃ sorted, radixSortTransactions ts = .ok sorted ∧ sorted.Perm ts ∧
      sorted.Pairwise (fun a b => a.id ≤ b.id) := by
  unfold radixSortTransactions
  have h1 : (maxIdOf ts).toNat < 10 ^ (maxIdOf ts).toNat := Nat.lt_pow_self (by decide) _
  have h2 : ((maxIdOf ts).toNat : Int) = maxIdOf ts := Int.toNat_of_nonneg (maxIdOf_nonneg ts)
  have h3 : (((maxIdOf ts).toNat : Nat) : Int) < ((10 ^ (maxIdOf ts).toNat : Nat) : Int) := by
    exact_mod_cast h1
  rw [h2] at h3
  have h := radixLoop_sorted (maxIdOf ts) (maxIdOf_nonneg ts) (maxIdOf_lt ts hbig)
    (maxIdOf ts).toNat 0 ts (by simpa using h3) hids (le_maxIdOf ts)
    (List.pairwise_of_forall (fun _ _ => by simp [Nat.mod_one]))
  simpa using h

/-! ## What the operations of an account do on ids from 0 to 999999999 -/

theorem sorted_getD_le (ts : List Transaction)
    (hs : ts.Pairwise (fun a b => a.id ≤ b.id)) (i j : Nat) (hij : i ≤ j)
    (hj : j < ts.length) :
    (ts.getD i Transaction.default).id ≤ (ts.getD j Transaction.default).id := by
  rw [List.getD_eq_getElem _ _ hj, List.getD_eq_getElem _ _ (lt_of_le_of_lt hij hj)]
  rcases Nat.lt_or_eq_of_le hij with h | h
  · exact (List.pairwise_iff_getElem.1 hs) i j (lt_of_le_of_lt hij hj) hj h
  · subst h; exact le_refl _

theorem binarySearch_found (ts : List Transaction) (id : Int)
    (hs : ts.Pairwise (fun a b => a.id ≤ b.id)) :
    ∀ (fuel : Nat) (left right : Int), 0 ≤ left → right < ts.length →
      (right - left + 1).toNat < fuel →
      (∃ i : Nat, left ≤ i ∧ (i : Int) ≤ right ∧ (ts.getD i Transaction.default).id = id) →
      ∃ pos, binarySearch ts id fuel left right = .ok (some pos) ∧ pos < ts.length ∧
        (ts.getD pos Transaction.default).id = id := by
  intro fuel
  induction fuel with
  | zero => intro left right _ _ h; omega
  | succ fuel ih =>
    intro left right hl hr hf ⟨i, hi1, hi2, hi3⟩
    rw [binarySearch]
    have hle : left ≤ right := le_trans hi1 hi2
    have hdiv : Int.tdiv (right - left) 2 = (right - left) / 2 :=
      Int.tdiv_eq_ediv (by omega) (by decide)
    have hmid1 : 0 ≤ left + Int.tdiv (right - left) 2 := by rw [hdiv]; omega
    have hmid2 : (left + Int.tdiv (right - left) 2).toNat < ts.length := by
      rw [hdiv]; omega
    simp only [if_pos hle, if_pos (And.intro hmid1 hmid2)]
    by_cases heq : (ts.getD (left + Int.tdiv (right - left) 2).toNat Transaction.default).id = id
    · rw [if_pos heq]
      exact ⟨_, rfl, hmid2, heq⟩
    · rw [if_neg heq]
      have hilen : i < ts.length := by omega
      by_cases hlt : (ts.getD (left + Int.tdiv (right - left) 2).toNat Transaction.default).id < id
      · rw [if_pos hlt]
        refine ih _ _ (by omega) hr (by rw [hdiv]; omega) ⟨i, ?_, hi2, hi3⟩
        by_contra hcon
        have h1 : i ≤ (left + Int.tdiv (right - left) 2).toNat := by omega
        have h2 := sorted_getD_le ts hs i _ h1 hmid2
        rw [hi3] at h2
        omega
      · rw [if_neg hlt]
        refine ih _ _ hl (by rw [hdiv]; omega) (by rw [hdiv]; omega) ⟨i, hi1, ?_, hi3⟩
        by_contra hcon
        have h1 : (left + Int.tdiv (right - left) 2).toNat ≤ i := by omega
        have h2 := sorted_getD_le ts hs _ i h1 hilen
        rw [hi3] at h2
        omega

/-- The result of `findTransaction` on stored ids from 0 to 999999999: no fault; the
records are permuted into ascending order; a position is returned exactly when
a record with the id is stored, and it holds such a record. -/
theorem findTransaction_spec (a : Account) (id : Int)
    (hids : ∀ t ∈ a.transactions, 0 ≤ t.id)
    (hbig : ∀ t ∈ a.transactions, t.id < 1000000000) :
    ∃ sorted res, a.findTransaction id = .ok ({ a with transactions := sorted }, res) ∧
      sorted.Perm a.transactions ∧ sorted.Pairwise (fun x y => x.id ≤ y.id) ∧
      (∀ pos, res = some pos → ∃ it, sorted.get? pos = some it ∧ it.id = id) ∧
      (res = none → ∀ t ∈ a.transactions, t.id ≠ id) := by
  obtain ⟨sorted, hrun, hp, hord⟩ := radixSortTransactions_sorted a.transactions hids hbig
  by_cases hpres : ∃ t ∈ a.transactions, t.id = id
  · obtain ⟨t, ht, htid⟩ := hpres
    obtain ⟨i, hi, hit⟩ := List.mem_iff_getElem.1 (hp.mem_iff.2 ht)
    obtain ⟨pos, hb, hpos, hposid⟩ := binarySearch_found sorted id hord (sorted.length + 1) 0
      ((a.transactions.length : Int) - 1) (le_refl _) (by rw [hp.length_eq]; omega)
      (by rw [hp.length_eq]; omega)
      ⟨i, by omega, by rw [← hp.length_eq]; omega, by
        rw [List.getD_eq_getElem _ _ hi, hit]; exact htid⟩
    refine ⟨sorted, some pos, ?_, hp, hord, ?_, by simp⟩
    · unfold Account.findTransaction
      simp only [hrun, hb]
    · intro pos' hpos'
      injection hpos' with hpos'
      subst hpos'
      refine ⟨sorted.getD pos Transaction.default, ?_, hposid⟩
      rw [List.getD_eq_getElem _ _ hpos, List.get?_eq_getElem?, List.getElem?_eq_getElem hpos]
  · have habs : ∀ t ∈ a.transactions, t.id ≠ id := fun t ht h => hpres ⟨t, ht, h⟩
    have hb := binarySearch_absent sorted id (fun t ht => habs t (hp.subset ht))
      (sorted.length + 1) 0 ((a.transactions.length : Int) - 1) (le_refl _)
      (by rw [hp.length_eq]; omega) (by rw [hp.length_eq]; omega)
    refine ⟨sorted, none, ?_, hp, hord, by simp, fun _ => habs⟩
    unfold Account.findTransaction
    simp only [hrun, hb]

theorem perm_cons_eraseIdx (l : List Transaction) (pos : Nat) (it : Transaction)
    (h : l.get? pos = some it) : (it :: l.eraseIdx pos).Perm l := by
  induction l generalizing pos with
  | nil => simp at h
  | cons x rest ih =>
    cases pos with
    | zero =>
      simp at h
      subst h
      simp
    | succ pos =>
      simp at h
      have := ih pos (by simpa using h)
      simp only [List.eraseIdx_cons_succ]
      exact (List.Perm.swap x it _).trans (List.Perm.cons x this)

/-- What `addTransaction` does on stored ids from 0 to 999999999: no fault; either a record
with the id is stored and only the order of the records changes, or none is
stored and the record is added with its signed amount. -/
theorem addTransaction_spec (a : Account) (r : Transaction)
    (hids : ∀ t ∈ a.transactions, 0 ≤ t.id)
    (hbig : ∀ t ∈ a.transactions, t.id < 1000000000) :
    ∃ a1, a.addTransaction r = .ok a1 ∧ a1.accountNumber = a.accountNumber ∧
      a1.description = a.description ∧
      (((∃ t ∈ a.transactions, t.id = r.id) ∧ a1.transactions.Perm a.transactions ∧
          a1.balance = a.balance) ∨
        ((∀ t ∈ a.transactions, t.id ≠ r.id) ∧ a1.transactions.Perm (r :: a.transactions) ∧
          a1.balance = a.balance + r.amount * (if r.type = 'C' then -1 else 1))) := by
  obtain ⟨sorted, res, hf, hp, _, hsome, hnone⟩ := findTransaction_spec a r.id hids hbig
  cases res with
  | some pos =>
    obtain ⟨it, hit, hid⟩ := hsome pos rfl
    refine ⟨{ a with transactions := sorted }, ?_, rfl, rfl, Or.inl ⟨?_, hp, rfl⟩⟩
    · unfold Account.addTransaction
      rw [hf]
    · exact ⟨it, hp.subset (List.get?_mem hit), hid⟩
  | none =>
    refine ⟨{ a with
        balance := a.balance + r.amount * (if r.type = 'C' then -1 else 1),
        transactions := sorted ++ [r] }, ?_, rfl, rfl, Or.inr ⟨hnone rfl, ?_, rfl⟩⟩
    · unfold Account.addTransaction
      rw [hf]
      rfl
    · exact (List.perm_append_singleton r sorted).trans (List.Perm.cons r hp)

/-- What `removeTransaction` does on stored ids from 0 to 999999999: no fault; either no
record with the id is stored, `Transaction(-1)` is returned and only the order
of the records changes, or a stored record with the id is taken out and
returned, and its signed amount is taken off the balance. -/
theorem removeTransaction_spec (a : Account) (id : Int)
    (hids : ∀ t ∈ a.transactions, 0 ≤ t.id)
    (hbig : ∀ t ∈ a.transactions, t.id < 1000000000) :
    ∃ a1 it, a.removeTransaction id = .ok (a1, it) ∧ a1.accountNumber = a.accountNumber ∧
      a1.description = a.description ∧
      (((∀ t ∈ a.transactions, t.id ≠ id) ∧ it = Transaction.ofId (-1) ∧
          a1.transactions.Perm a.transactions ∧ a1.balance = a.balance) ∨
        (it.id = id ∧ (it :: a1.transactions).Perm a.transactions ∧
          a1.balance = a.balance + it.amount * (if it.type = 'D' then -1 else 1))) := by
  obtain ⟨sorted, res, hf, hp, _, hsome, hnone⟩ := findTransaction_spec a id hids hbig
  cases res with
  | some pos =>
    obtain ⟨it, hit, hid⟩ := hsome pos rfl
    refine ⟨{ a with
        balance := a.balance + it.amount * (if it.type = 'D' then -1 else 1),
        transactions := sorted.eraseIdx pos }, it, ?_, rfl, rfl,
      Or.inr ⟨hid, (perm_cons_eraseIdx sorted pos it hit).trans hp, rfl⟩⟩
    unfold Account.removeTransaction
    rw [hf]
    simp only [hit]
    rfl
  | none =>
    refine ⟨{ a with transactions := sorted }, Transaction.ofId (-1), ?_, rfl, rfl,
      Or.inl ⟨hnone rfl, rfl, hp, rfl⟩⟩
    unfold Account.removeTransaction
    rw [hf]

/-! ## Invariants of an account under runs of calls -/

theorem signedSum_perm {l1 l2 : List Transaction} (h : l1.Perm l2) :
    signedSum l1 = signedSum l2 :=
  (h.map signedAmount).sum_eq

theorem signedSum_cons (t : Transaction) (l : List Transaction) :
    signedSum (t :: l) = signedAmount t + signedSum l := by
  simp [signedSum]

theorem signedAmount_add (r : Transaction) (h : r.type = 'D' ∨ r.type = 'C') :
    r.amount * (if r.type = 'C' then -1 else 1) = signedAmount r := by
  rcases h with h | h <;> simp [signedAmount, h]

theorem signedAmount_remove (r : Transaction) (h : r.type = 'D' ∨ r.type = 'C') :
    r.amount * (if r.type = 'D' then -1 else 1) = - signedAmount r := by
  rcases h with h | h <;> simp [signedAmount, h]

/-- The balance invariant of an account is kept by every valid call that adds
an id below 1000000000. -/
theorem calls_balance (cs : List AccountCall) (hv : ∀ c ∈ cs, c.Valid)
    (hsm : ∀ c ∈ cs, c.IdSmall) (s : ℚ) :
    ∀ a : Account,
      (∀ t ∈ a.transactions, 0 ≤ t.id ∧ (t.type = 'D' ∨ t.type = 'C')) →
      (∀ t ∈ a.transactions, t.id < 1000000000) →
      a.balance = s + signedSum a.transactions →
      ∃ a1, a.calls cs = .ok a1 ∧
        (∀ t ∈ a1.transactions, 0 ≤ t.id ∧ (t.type = 'D' ∨ t.type = 'C')) ∧
        a1.balance = s + signedSum a1.transactions := by
  induction cs with
  | nil => intro a h1 _ h2; exact ⟨a, rfl, h1, h2⟩
  | cons c rest ih =>
    intro a h1 h0 h2
    have hvc := hv c (List.mem_cons_self _ _)
    have hsc := hsm c (List.mem_cons_self _ _)
    have hvr : ∀ c ∈ rest, c.Valid := fun x hx => hv x (List.mem_cons_of_mem _ hx)
    have hsr : ∀ c ∈ rest, c.IdSmall := fun x hx => hsm x (List.mem_cons_of_mem _ hx)
    cases c with
    | addTransaction r =>
      obtain ⟨a1, hadd, _, _, hcase⟩ := addTransaction_spec a r (fun t ht => (h1 t ht).1) h0
      have hstep : (∀ t ∈ a1.transactions, 0 ≤ t.id ∧ (t.type = 'D' ∨ t.type = 'C')) ∧
          (∀ t ∈ a1.transactions, t.id < 1000000000) ∧
          a1.balance = s + signedSum a1.transactions := by
        rcases hcase with ⟨_, hp, hb⟩ | ⟨_, hp, hb⟩
        · exact ⟨fun t ht => h1 t (hp.subset ht), fun t ht => h0 t (hp.subset ht),
            by rw [hb, h2, signedSum_perm hp]⟩
        · refine ⟨?_, ?_, ?_⟩
          · intro t ht
            rcases List.mem_cons.1 (hp.subset ht) with rfl | ht'
            · exact ⟨by have := hvc.1; omega, hvc.2⟩
            · exact h1 t ht'
          · intro t ht
            rcases List.mem_cons.1 (hp.subset ht) with rfl | ht'
            · exact hsc
            · exact h0 t ht'
          · rw [hb, h2, signedSum_perm hp, signedSum_cons, signedAmount_add r hvc.2]
            ring
      obtain ⟨a2, hrun, h3, h4⟩ := ih hvr hsr a1 hstep.1 hstep.2.1 hstep.2.2
      exact ⟨a2, by rw [Account.calls, Account.call, hadd]; exact hrun, h3, h4⟩
    | removeTransaction id =>
      obtain ⟨a1, it, hrem, _, _, hcase⟩ :=
        removeTransaction_spec a id (fun t ht => (h1 t ht).1) h0
      have hstep : (∀ t ∈ a1.transactions, 0 ≤ t.id ∧ (t.type = 'D' ∨ t.type = 'C')) ∧
          (∀ t ∈ a1.transactions, t.id < 1000000000) ∧
          a1.balance = s + signedSum a1.transactions := by
        rcases hcase with ⟨_, _, hp, hb⟩ | ⟨_, hp, hb⟩
        · exact ⟨fun t ht => h1 t (hp.subset ht), fun t ht => h0 t (hp.subset ht),
            by rw [hb, h2, signedSum_perm hp]⟩
        · have hit := h1 it (hp.subset (List.mem_cons_self _ _))
          refine ⟨fun t ht => h1 t (hp.subset (List.mem_cons_of_mem _ ht)),
            fun t ht => h0 t (hp.subset (List.mem_cons_of_mem _ ht)), ?_⟩
          rw [hb, h2, ← signedSum_perm hp, signedSum_cons, signedAmount_remove it hit.2]
          ring
      obtain ⟨a2, hrun, h3, h4⟩ := ih hvr hsr a1 hstep.1 hstep.2.1 hstep.2.2
      exact ⟨a2, by rw [Account.calls, Account.call, hrem]; exact hrun, h3, h4⟩

/-- While every added id is below 1000000000, the stored ids of an account stay
non-negative and pairwise distinct, and are the ids added and not removed
since. -/
theorem calls_live (cs : List AccountCall) (hv : ∀ c ∈ cs, c.IdPositive)
    (hsm : ∀ c ∈ cs, c.IdSmall) :
    ∀ a : Account, (∀ t ∈ a.transactions, 0 ≤ t.id) →
      (∀ t ∈ a.transactions, t.id < 1000000000) →
      a.transactions.Pairwise (fun x y => x.id ≠ y.id) →
      ∃ a1, a.calls cs = .ok a1 ∧ (∀ t ∈ a1.transactions, 0 ≤ t.id) ∧
        (∀ t ∈ a1.transactions, t.id < 1000000000) ∧
        a1.transactions.Pairwise (fun x y => x.id ≠ y.id) ∧
        ∀ (id : Int) (b : Bool), (b = true ↔ ∃ t ∈ a.transactions, t.id = id) →
          (liveAfter id b cs = true ↔ ∃ t ∈ a1.transactions, t.id = id) := by
  induction cs with
  | nil => intro a h1 h0 h2; exact ⟨a, rfl, h1, h0, h2, fun id b hb => hb⟩
  | cons c rest ih =>
    intro a h1 h0 h2
    have hvc := hv c (List.mem_cons_self _ _)
    have hsc := hsm c (List.mem_cons_self _ _)
    have hvr : ∀ c ∈ rest, c.IdPositive := fun x hx => hv x (List.mem_cons_of_mem _ hx)
    have hsr : ∀ c ∈ rest, c.IdSmall := fun x hx => hsm x (List.mem_cons_of_mem _ hx)
    cases c with
    | addTransaction r =>
      obtain ⟨a1, hadd, _, _, hcase⟩ := addTransaction_spec a r h1 h0
      have hstep : ((∀ t ∈ a1.transactions, 0 ≤ t.id) ∧
            ∀ t ∈ a1.transactions, t.id < 1000000000) ∧
          a1.transactions.Pairwise (fun x y => x.id ≠ y.id) ∧
          ∀ (id : Int) (b : Bool), (b = true ↔ ∃ t ∈ a.transactions, t.id = id) →
            ((if r.id = id then true else b) = true ↔ ∃ t ∈ a1.transactions, t.id = id) := by
        rcases hcase with ⟨hpres, hp, _⟩ | ⟨habs, hp, _⟩
        · refine ⟨⟨fun t ht => h1 t (hp.subset ht), fun t ht => h0 t (hp.subset ht)⟩,
            h2.perm hp.symm (fun h => Ne.symm h), ?_⟩
          intro id b hb
          have hmem : (∃ t ∈ a1.transactions, t.id = id) ↔ ∃ t ∈ a.transactions, t.id = id :=
            ⟨fun ⟨t, ht, h⟩ => ⟨t, hp.subset ht, h⟩, fun ⟨t, ht, h⟩ => ⟨t, hp.symm.subset ht, h⟩⟩
          rw [hmem]
          by_cases h : r.id = id
          · rw [if_pos h, ← h]; simpa using hpres
          · rw [if_neg h]; exact hb
        · have hpw : (r :: a.transactions).Pairwise (fun x y => x.id ≠ y.id) :=
            List.pairwise_cons.2 ⟨fun t ht h => habs t ht h.symm, h2⟩
          refine ⟨⟨?_, ?_⟩, hpw.perm hp.symm (fun h => Ne.symm h), ?_⟩
          · intro t ht
            rcases List.mem_cons.1 (hp.subset ht) with rfl | ht'
            · have : 1 ≤ t.id := hvc
              omega
            · exact h1 t ht'
          · intro t ht
            rcases List.mem_cons.1 (hp.subset ht) with rfl | ht'
            · exact hsc
            · exact h0 t ht'
          · intro id b hb
            have hmem : (∃ t ∈ a1.transactions, t.id = id) ↔
                (r.id = id ∨ ∃ t ∈ a.transactions, t.id = id) := by
              constructor
              · rintro ⟨t, ht, h⟩
                rcases List.mem_cons.1 (hp.subset ht) with rfl | ht'
                · exact Or.inl h
                · exact Or.inr ⟨t, ht', h⟩
              · rintro (h | ⟨t, ht, h⟩)
                · exact ⟨r, hp.symm.subset (List.mem_cons_self _ _), h⟩
                · exact ⟨t, hp.symm.subset (List.mem_cons_of_mem _ ht), h⟩
            rw [hmem]
            by_cases h : r.id = id
            · simp [h]
            · rw [if_neg h]; simp [h, hb]
      obtain ⟨a2, hrun, h3, h3b, h4, h5⟩ := ih hvr hsr a1 hstep.1.1 hstep.1.2 hstep.2.1
      refine ⟨a2, by rw [Account.calls, Account.call, hadd]; exact hrun, h3, h3b, h4, ?_⟩
      intro id b hb
      rw [liveAfter]
      exact h5 id _ (hstep.2.2 id b hb)
    | removeTransaction i =>
      obtain ⟨a1, it, hrem, _, _, hcase⟩ := removeTransaction_spec a i h1 h0
      have hstep : ((∀ t ∈ a1.transactions, 0 ≤ t.id) ∧
            ∀ t ∈ a1.transactions, t.id < 1000000000) ∧
          a1.transactions.Pairwise (fun x y => x.id ≠ y.id) ∧
          ∀ (id : Int) (b : Bool), (b = true ↔ ∃ t ∈ a.transactions, t.id = id) →
            ((if i = id then false else b) = true ↔ ∃ t ∈ a1.transactions, t.id = id) := by
        rcases hcase with ⟨habs, _, hp, _⟩ | ⟨hid, hp, _⟩
        · refine ⟨⟨fun t ht => h1 t (hp.subset ht), fun t ht => h0 t (hp.subset ht)⟩,
            h2.perm hp.symm (fun h => Ne.symm h), ?_⟩
          intro id b hb
          have hmem : (∃ t ∈ a1.transactions, t.id = id) ↔ ∃ t ∈ a.transactions, t.id = id :=
            ⟨fun ⟨t, ht, h⟩ => ⟨t, hp.subset ht, h⟩, fun ⟨t, ht, h⟩ => ⟨t, hp.symm.subset ht, h⟩⟩
          rw [hmem]
          by_cases h : i = id
          · rw [if_pos h]
            constructor
            · intro hf; cases hf
            · rintro ⟨t, ht, htid⟩
              exact absurd (htid.trans h.symm) (habs t ht)
          · rw [if_neg h]; exact hb
        · have hpw : (it :: a1.transactions).Pairwise (fun x y => x.id ≠ y.id) :=
            h2.perm hp.symm (fun h => Ne.symm h)
          rw [List.pairwise_cons] at hpw
          refine ⟨⟨fun t ht => h1 t (hp.subset (List.mem_cons_of_mem _ ht)),
            fun t ht => h0 t (hp.subset (List.mem_cons_of_mem _ ht))⟩, hpw.2, ?_⟩
          intro id b hb
          by_cases h : i = id
          · rw [if_pos h]
            constructor
            · intro hf; cases hf
            · rintro ⟨t, ht, htid⟩
              exact absurd (hid.trans (h.trans htid.symm)) (hpw.1 t ht)
          · rw [if_neg h, hb]
            constructor
            · rintro ⟨t, ht, htid⟩
              rcases List.mem_cons.1 (hp.symm.subset ht) with rfl | ht'
              · exact absurd (hid.symm.trans htid) h
              · exact ⟨t, ht', htid⟩
            · rintro ⟨t, ht, htid⟩
              exact ⟨t, hp.subset (List.mem_cons_of_mem _ ht), htid⟩
      obtain ⟨a2, hrun, h3, h3b, h4, h5⟩ := ih hvr hsr a1 hstep.1.1 hstep.1.2 hstep.2.1
      refine ⟨a2, ?_, h3, h3b, h4, ?_⟩
      · rw [Account.calls, Account.call, hrem]; exact hrun
      · intro id b hb
        rw [liveAfter]
        exact h5 id _ (hstep.2.2 id b hb)

/-! ## The account operations while every id is below 1000000000 -/

/-- For an account whose records have ids from 0 to 999999999,
`Account::addTransaction` of a record whose id is already stored does not
fault, leaves the balance unchanged and leaves the same records stored, as a
multiset (their order may change; number and description stay). -/
theorem addTransaction_stored_id (a : Account) (r : Transaction)
    (hids : ∀ t ∈ a.transactions, 0 ≤ t.id)
    (hbig : ∀ t ∈ a.transactions, t.id < 1000000000)
    (hpres : ∃ t ∈ a.transactions, t.id = r.id) :
    ∃ a1, a.addTransaction r = .ok a1 ∧ a1.balance = a.balance ∧
      a1.transactions.Perm a.transactions ∧ a1.accountNumber = a.accountNumber ∧
      a1.description = a.description := by
  obtain ⟨a1, hadd, hnum, hdesc, hcase⟩ := addTransaction_spec a r hids hbig
  rcases hcase with ⟨_, hp, hb⟩ | ⟨habs, _, _⟩
  · exact ⟨a1, hadd, hb, hp, hnum, hdesc⟩
  · obtain ⟨t, ht, htid⟩ := hpres
    exact absurd htid (habs t ht)

/-- For an account whose records have ids from 0 to 999999999 and an id none
of them has, `Account::removeTransaction` does not fault, returns a record whose
id is -1, and leaves the balance and the stored records (as a multiset)
unchanged. -/
theorem removeTransaction_absent_id (a : Account) (id : Int)
    (hids : ∀ t ∈ a.transactions, 0 ≤ t.id)
    (hbig : ∀ t ∈ a.transactions, t.id < 1000000000)
    (habs : ∀ t ∈ a.transactions, t.id ≠ id) :
    ∃ a1 it, a.removeTransaction id = .ok (a1, it) ∧ it.id = -1 ∧
      a1.balance = a.balance ∧ a1.transactions.Perm a.transactions ∧
      a1.accountNumber = a.accountNumber ∧ a1.description = a.description := by
  obtain ⟨a1, it, hrem, hnum, hdesc, hcase⟩ := removeTransaction_spec a id hids hbig
  rcases hcase with ⟨_, hit, hp, hb⟩ | ⟨hid, hp, _⟩
  · exact ⟨a1, it, hrem, by rw [hit]; rfl, hb, hp, hnum, hdesc⟩
  · exact absurd hid (habs it (hp.subset (List.mem_cons_self _ _)))

/-- For an account whose records have pairwise distinct ids from 0 to
999999999 and an id one of them has, `Account::removeTransaction` does not fault and
returns the stored record with that id; afterwards the stored records are the
old ones without the returned record, none of them has that id, every record
with another id is still stored, and the balance has changed by `-amount` for
a record of kind `'D'` and by `+amount` for one of kind `'C'`. -/
theorem removeTransaction_stored_id (a : Account) (id : Int)
    (hids : ∀ t ∈ a.transactions, 0 ≤ t.id)
    (hbig : ∀ t ∈ a.transactions, t.id < 1000000000)
    (hdistinct : a.transactions.Pairwise (fun x y => x.id ≠ y.id))
    (hpres : ∃ t ∈ a.transactions, t.id = id) :
    ∃ a1 it, a.removeTransaction id = .ok (a1, it) ∧ it ∈ a.transactions ∧ it.id = id ∧
      (∀ x ∈ a.transactions, x.id = id → x = it) ∧
      (it :: a1.transactions).Perm a.transactions ∧
      (∀ x ∈ a1.transactions, x.id ≠ id) ∧
      (∀ x ∈ a.transactions, x.id ≠ id → x ∈ a1.transactions) ∧
      (it.type = 'D' → a1.balance = a.balance - it.amount) ∧
      (it.type = 'C' → a1.balance = a.balance + it.amount) := by
  obtain ⟨a1, it, hrem, _, _, hcase⟩ := removeTransaction_spec a id hids hbig
  rcases hcase with ⟨habs, _, _, _⟩ | ⟨hid, hp, hb⟩
  · obtain ⟨t, ht, htid⟩ := hpres
    exact absurd htid (habs t ht)
  · have hpw : (it :: a1.transactions).Pairwise (fun x y => x.id ≠ y.id) :=
      hdistinct.perm hp.symm (fun h => Ne.symm h)
    rw [List.pairwise_cons] at hpw
    refine ⟨a1, it, hrem, hp.subset (List.mem_cons_self _ _), hid, ?_, hp, ?_, ?_, ?_, ?_⟩
    · intro x hx hxid
      rcases List.mem_cons.1 (hp.symm.subset hx) with h | h
      · exact h
      · exact absurd (hid.trans hxid.symm) (hpw.1 x h)
    · intro x hx hxid
      exact hpw.1 x hx (hid.trans hxid.symm)
    · intro x hx hxid
      rcases List.mem_cons.1 (hp.symm.subset hx) with h | h
      · rw [h] at hxid; exact absurd hid hxid
      · exact h
    · intro hD
      rw [hb, if_pos hD]; ring
    · intro hC
      have hD : ¬ it.type = 'D' := by rw [hC]; decide
      rw [hb, if_neg hD]; ring

/-- An account that starts without records keeps, through any sequence of
`addTransaction` and `removeTransaction` calls with ids at least 1, added ids
below 1000000000 and records of kind `'D'` or `'C'`, none of which faults, its balance equal to the
starting balance plus the signed sum of the records stored. -/
theorem calls_balance_invariant (a0 : Account) (cs : List AccountCall)
    (h0 : a0.transactions = []) (hv : ∀ c ∈ cs, c.Valid)
    (hsm : ∀ c ∈ cs, c.IdSmall) :
    ∃ a, a0.calls cs = .ok a ∧ a.balance = a0.balance + signedSum a.transactions := by
  obtain ⟨a, hrun, _, hbal⟩ := calls_balance cs hv hsm a0.balance a0
    (by rw [h0]; intro t ht; simp at ht) (by rw [h0]; intro t ht; simp at ht)
    (by rw [h0]; simp [signedSum])
  exact ⟨a, hrun, hbal⟩

/-- After any sequence of `addTransaction` and `removeTransaction` calls with
ids at least 1 and added ids below 1000000000 on an account that starts
without records, no call faulting, `findTransaction(id)` returns a position holding a record with that
id if a record with that id has been added and not removed since, and `end()`
otherwise. -/
theorem calls_lookup_round_trip (a0 : Account) (cs : List AccountCall)
    (h0 : a0.transactions = []) (hv : ∀ c ∈ cs, c.IdPositive)
    (hsm : ∀ c ∈ cs, c.IdSmall) (id : Int) :
    ∃ a, a0.calls cs = .ok a ∧ ∃ a1 res, a.findTransaction id = .ok (a1, res) ∧
      (liveAfter id false cs = true →
        ∃ pos it, res = some pos ∧ a1.transactions.get? pos = some it ∧ it.id = id) ∧
      (liveAfter id false cs = false → res = none) := by
  obtain ⟨a, hrun, hids, hbig, _, hlive⟩ := calls_live cs hv hsm a0
    (by rw [h0]; intro t ht; simp at ht) (by rw [h0]; intro t ht; simp at ht)
    (by rw [h0]; simp)
  have hl := hlive id false (by rw [h0]; simp)
  obtain ⟨sorted, res, hf, hp, _, hsome, hnone⟩ := findTransaction_spec a id hids hbig
  refine ⟨a, hrun, _, res, hf, ?_, ?_⟩
  · intro h
    obtain ⟨t, ht, htid⟩ := hl.1 h
    cases res with
    | none => exact absurd htid (hnone rfl t ht)
    | some pos =>
      obtain ⟨it, hit, hid⟩ := hsome pos rfl
      exact ⟨pos, it, rfl, hit, hid⟩
  · intro h
    cases res with
    | none => rfl
    | some pos =>
      obtain ⟨it, hit, hid⟩ := hsome pos rfl
      have : liveAfter id false cs = true :=
        hl.2 ⟨it, hp.subset (List.get?_mem hit), hid⟩
      rw [h] at this
      cases this

/-- For a collection of records with ids from 0 to 999999999,
`radixSortTransactions` does not fault and leaves a permutation of the records
in ascending order of id; so after `findTransaction`, for any id, the stored
records are the old ones in ascending order of id. -/
theorem radixSort_correct (ts : List Transaction) (hids : ∀ t ∈ ts, 0 ≤ t.id)
    (hbig : ∀ t ∈ ts, t.id < 1000000000) :
    (∃ sorted, radixSortTransactions ts = .ok sorted ∧ sorted.Perm ts ∧
      sorted.Pairwise (fun x y => x.id ≤ y.id)) ∧
    ∀ (a : Account) (id : Int), a.transactions = ts →
      ∃ a1 res, a.findTransaction id = .ok (a1, res) ∧ a1.transactions.Perm ts ∧
        a1.transactions.Pairwise (fun x y => x.id ≤ y.id) := by
  refine ⟨radixSortTransactions_sorted ts hids hbig, ?_⟩
  intro a id ha
  subst ha
  obtain ⟨sorted, res, hf, hp, hord, _, _⟩ := findTransaction_spec a id hids hbig
  exact ⟨_, res, hf, hp, hord⟩

/-- An account that starts without records has, after any sequence of
`addTransaction` and `removeTransaction` calls with ids at least 1 and added
ids below 1000000000, none of which faults, records with pairwise distinct ids. -/
theorem calls_ids_unique (a0 : Account) (cs : List AccountCall)
    (h0 : a0.transactions = []) (hv : ∀ c ∈ cs, c.IdPositive)
    (hsm : ∀ c ∈ cs, c.IdSmall) :
    ∃ a, a0.calls cs = .ok a ∧ a.transactions.Pairwise (fun x y => x.id ≠ y.id) := by
  obtain ⟨a, hrun, _, _, hdistinct, _⟩ := calls_live cs hv hsm a0
    (by rw [h0]; intro t ht; simp at ht) (by rw [h0]; intro t ht; simp at ht)
    (by rw [h0]; simp)
  exact ⟨a, hrun, hdistinct⟩

/-! ## Balance updates along the tracked path -/

theorem Node.updateBalance_eq_mapData (a : ℚ) :
    Node.updateBalance a = Node.mapData (fun d => d.updateBalance a) := by
  funext n
  cases n <;> rfl

theorem Node.deref_mapData_null_iff (h : Account → Account) (R : Node) (p q : NodePtr) :
    (R.modify (Node.mapData h) p).deref q = .null ↔ R.deref q = .null := by
  induction q generalizing R p with
  | nil =>
    cases p with
    | nil => cases R <;> simp [Node.mapData]
    | cons l1 p => cases R <;> cases l1 <;> simp [Node.modify]
  | cons l q ih =>
    cases p with
    | nil => cases R <;> cases l <;> simp [Node.mapData, Node.deref]
    | cons l1 p =>
      cases R with
      | null => simp [Node.modify]
      | mk d g s c => cases l1 <;> cases l <;> simp [Node.modify, Node.deref, ih]

theorem Node.account_deref_mapData (h : Account → Account) (R : Node) (p q : NodePtr) :
    ((R.modify (Node.mapData h) p).deref q).account? =
      if q = p then ((R.deref q).account?).map h else (R.deref q).account? := by
  induction p generalizing R q with
  | nil =>
    cases q with
    | nil => cases R <;> simp [Node.mapData, Node.account?]
    | cons l q => cases R <;> cases l <;> simp [Node.mapData, Node.deref]
  | cons l1 p ih =>
    cases R with
    | null => simp [Node.modify, Node.account?]
    | mk d g s c =>
      cases q with
      | nil => cases l1 <;> simp [Node.modify, Node.account?]
      | cons l q => cases l1 <;> cases l <;> simp [Node.modify, Node.deref, ih]

theorem account_deref_updateTracked (a : ℚ) (tracked : List NodePtr) (hnd : tracked.Nodup)
    (R : Node) (q : NodePtr) :
    ((updateTracked a tracked R).deref q).account? =
      if q ∈ tracked then ((R.deref q).account?).map (fun d => d.updateBalance a)
      else (R.deref q).account? := by
  induction tracked generalizing R with
  | nil => simp [updateTracked_nil]
  | cons p l ih =>
    rw [updateTracked_cons, ih (List.nodup_cons.1 hnd).2, Node.updateBalance_eq_mapData,
      Node.account_deref_mapData]
    by_cases hqp : q = p
    · subst hqp
      simp [(List.nodup_cons.1 hnd).1]
    · simp [hqp]

theorem searchLoop_tracked (n : Int) (R : Node) (node : Node) :
    ∀ (cur : NodePtr) (behind : Option NodePtr) (tracked0 : List NodePtr),
      R.deref cur = node →
      ∃ new, (searchLoop n node cur behind tracked0).2 = tracked0 ++ new ∧
        new.Pairwise (fun a b => a.length < b.length) ∧
        ∀ p ∈ new, cur.length ≤ p.length ∧
          ∃ d g s c, R.deref p = .mk d g s c ∧ d.accountNumber ≠ n := by
  induction node with
  | null => intro cur behind tracked0 _; exact ⟨[], by simp [searchLoop], by simp, by simp⟩
  | mk d g s c ih_s ih_c =>
    intro cur behind tracked0 hcur
    rw [searchLoop]
    by_cases hcomp : d.compAccountNumber n = true
    · rw [if_pos hcomp]
      by_cases heq : n = d.accountNumber
      · rw [if_pos heq]; exact ⟨[], by simp, by simp, by simp⟩
      · rw [if_neg heq]
        by_cases hc : c = .null
        · rw [if_pos hc]
          exact ⟨[cur], rfl, by simp, by
            intro p hp
            rw [List.mem_singleton.1 hp]
            exact ⟨le_refl _, d, g, s, c, hcur, fun h => heq h.symm⟩⟩
        · rw [if_neg hc]
          obtain ⟨new, h1, h2, h3⟩ := ih_c (cur ++ [Link.child]) (some cur) (tracked0 ++ [cur])
            (by rw [Node.deref_append, hcur]; simp [Node.deref])
          refine ⟨cur :: new, by rw [h1]; simp, ?_, ?_⟩
          · rw [List.pairwise_cons]
            refine ⟨fun p hp => ?_, h2⟩
            have := (h3 p hp).1
            simp at this
            omega
          · intro p hp
            rcases List.mem_cons.1 hp with rfl | hp
            · exact ⟨le_refl _, d, g, s, c, hcur, fun h => heq h.symm⟩
            · have := (h3 p hp).1
              simp at this
              exact ⟨by omega, (h3 p hp).2⟩
    · rw [if_neg hcomp]
      by_cases hlt : n < d.accountNumber
      · rw [if_pos hlt]; exact ⟨[], by simp, by simp, by simp⟩
      · rw [if_neg hlt]
        obtain ⟨new, h1, h2, h3⟩ := ih_s (cur ++ [Link.sibling]) (some cur) tracked0
          (by rw [Node.deref_append, hcur]; simp [Node.deref])
        refine ⟨new, h1, h2, ?_⟩
        intro p hp
        have := (h3 p hp).1
        simp at this
        exact ⟨by omega, (h3 p hp).2⟩

/-- The ledgers tracked by a search are distinct nodes of the tree, none of
them numbered like the target. -/
theorem tracked_spec (t : ForestTree) (n : Int) :
    (t.searchAccountWithTracking n).2.Nodup ∧
      ∀ p ∈ (t.searchAccountWithTracking n).2,
        ∃ d g s c, t.root.deref p = .mk d g s c ∧ d.accountNumber ≠ n := by
  obtain ⟨new, h1, h2, h3⟩ := searchLoop_tracked n t.root t.root [] none [] (by simp)
  unfold ForestTree.searchAccountWithTracking
  rw [h1]
  refine ⟨?_, fun p hp => (h3 p (by simpa using hp)).2⟩
  simp only [List.nil_append]
  exact h2.imp (fun {a b} hab heq => by rw [heq] at hab; exact lt_irrefl _ hab)

/-! ## Adding a record and removing it again -/

/-- Adding a record with a fresh id and removing that id again gives back the
balance and the records of the account, all ids being from 0 to 999999999. -/
theorem add_then_remove (d : Account) (r : Transaction)
    (hids : ∀ t ∈ d.transactions, 0 ≤ t.id) (hbig : ∀ t ∈ d.transactions, t.id < 1000000000)
    (hfresh : ∀ t ∈ d.transactions, t.id ≠ r.id)
    (hrid : 0 ≤ r.id) (hrbig : r.id < 1000000000) (hkind : r.type = 'D' ∨ r.type = 'C') :
    ∃ d1 d2, d.addTransaction r = .ok d1 ∧ d1.accountNumber = d.accountNumber ∧
      d1.removeTransaction r.id = .ok (d2, r) ∧ d2.accountNumber = d.accountNumber ∧
      d2.description = d.description ∧ d2.balance = d.balance ∧
      d2.transactions.Perm d.transactions := by
  obtain ⟨d1, hadd, hnum1, hdesc1, hcase1⟩ := addTransaction_spec d r hids hbig
  rcases hcase1 with ⟨⟨t, ht, htid⟩, _, _⟩ | ⟨_, hp1, hb1⟩
  · exact absurd htid (hfresh t ht)
  · have hids1 : ∀ t ∈ d1.transactions, 0 ≤ t.id := by
      intro t ht
      rcases List.mem_cons.1 (hp1.subset ht) with rfl | ht'
      · exact hrid
      · exact hids t ht'
    have hbig1 : ∀ t ∈ d1.transactions, t.id < 1000000000 := by
      intro t ht
      rcases List.mem_cons.1 (hp1.subset ht) with rfl | ht'
      · exact hrbig
      · exact hbig t ht'
    obtain ⟨d2, it, hrem, hnum2, hdesc2, hcase2⟩ :=
      removeTransaction_spec d1 r.id hids1 hbig1
    rcases hcase2 with ⟨habs, _, _, _⟩ | ⟨hid, hp2, hb2⟩
    · exact absurd rfl (habs r (hp1.symm.subset (List.mem_cons_self _ _)))
    · have hit : it = r := by
        rcases List.mem_cons.1 (hp1.subset (hp2.subset (List.mem_cons_self _ _))) with h | h
        · exact h
        · exact absurd hid (hfresh it h)
      subst hit
      refine ⟨d1, d2, hadd, hnum1, hrem, by rw [hnum2, hnum1], by rw [hdesc2, hdesc1], ?_,
        (hp2.trans hp1).cons_inv⟩
      rw [hb2, hb1, signedAmount_add it hkind, signedAmount_remove it hkind]
      ring

theorem compAccountNumber_congr (a b : Account) (h : a.accountNumber = b.accountNumber)
    (n : Int) : a.compAccountNumber n = b.compAccountNumber n := by
  unfold Account.compAccountNumber
  rw [h]

theorem Node.modify_mapData_eq_null (h : Account → Account) (R : Node) (p : NodePtr) :
    R.modify (Node.mapData h) p = .null ↔ R = .null := by
  have := Node.deref_mapData_null_iff h R p []
  simpa using this

/-- The search does not look at balances or records: changing the account of
one node without changing its number leaves the result of the search as it was. -/
theorem searchLoop_mapData (h : Account → Account)
    (hnum : ∀ a, (h a).accountNumber = a.accountNumber) (n : Int) (node : Node) :
    ∀ (p cur : NodePtr) (behind : Option NodePtr) (tracked : List NodePtr),
      searchLoop n (node.modify (Node.mapData h) p) cur behind tracked =
        searchLoop n node cur behind tracked := by
  induction node with
  | null => intro p cur behind tracked; cases p <;> simp [Node.modify, Node.mapData]
  | mk d g s c ih_s ih_c =>
    intro p cur behind tracked
    cases p with
    | nil =>
      simp only [Node.modify_nil, Node.mapData]
      rw [searchLoop, searchLoop, compAccountNumber_congr _ _ (hnum d), hnum d]
    | cons l p =>
      cases l with
      | sibling =>
        simp only [Node.modify]
        rw [searchLoop, searchLoop, ih_s]
      | child =>
        simp only [Node.modify]
        rw [searchLoop, searchLoop, ih_c]
        by_cases hc : c = .null
        · have : c.modify (Node.mapData h) p = .null :=
            (Node.modify_mapData_eq_null h c p).2 hc
          rw [if_pos hc, if_pos this]
        · have : ¬ c.modify (Node.mapData h) p = .null :=
            fun hm => hc ((Node.modify_mapData_eq_null h c p).1 hm)
          rw [if_neg hc, if_neg this]

theorem searchLoop_updateTracked (a : ℚ) (n : Int) (l : List NodePtr) :
    ∀ (R : Node) (cur : NodePtr) (behind : Option NodePtr) (tracked : List NodePtr),
      searchLoop n (updateTracked a l R) cur behind tracked =
        searchLoop n R cur behind tracked := by
  induction l with
  | nil => intro R cur behind tracked; rfl
  | cons p l ih =>
    intro R cur behind tracked
    rw [updateTracked_cons, ih, Node.updateBalance_eq_mapData]
    exact searchLoop_mapData (fun d => d.updateBalance a) (fun _ => rfl) n R p cur behind tracked

theorem modify_const_eq_mapData (R : Node) (p : NodePtr) (d d1 : Account) (g : ℚ)
    (s c : Node) (h : R.deref p = .mk d g s c) (hnum : d1.accountNumber = d.accountNumber) :
    R.modify (fun _ => Node.mk d1 g s c) p =
      R.modify (Node.mapData (fun a => { d1 with accountNumber := a.accountNumber })) p := by
  apply Node.modify_congr
  rw [h]
  simp only [Node.mapData]
  rw [← hnum]

theorem updateBalance_cancel (a : Account) (x y : ℚ) (h : x + y = 0) :
    (a.updateBalance x).updateBalance y = a := by
  cases a
  simp only [Account.updateBalance, Account.mk.injEq, true_and, and_true]
  linarith

theorem account_some_deref (R : Node) (p : NodePtr) (a : Account)
    (h : (R.deref p).account? = some a) : ∃ g s c, R.deref p = .mk a g s c := by
  cases hd : R.deref p with
  | null => rw [hd] at h; cases h
  | mk d g s c =>
    rw [hd] at h
    injection h with h
    exact ⟨g, s, c, by rw [h]⟩

theorem addAcountTransaction_eq (t : ForestTree) (n : Int) (r : Transaction)
    (found : NodePtr) (d d1 : Account) (g : ℚ) (s c : Node)
    (hfound : (t.searchAccountWithTracking n).1.1 = some found)
    (hnode : t.root.deref found = .mk d g s c) (hexact : d.accountNumber = n)
    (hadd : d.addTransaction r = .ok d1) :
    t.addAcountTransaction n r =
      .ok ⟨updateTracked (r.amount * (if r.type = 'D' then 1 else -1))
        (t.searchAccountWithTracking n).2 (t.root.modify (fun _ => .mk d1 g s c) found)⟩ := by
  unfold ForestTree.addAcountTransaction
  simp only [hfound, hnode, hexact, ne_eq, not_true_eq_false, if_false, hadd]

theorem removeAccountTransaction_eq (t : ForestTree) (n id : Int) (found : NodePtr)
    (d d1 : Account) (it : Transaction) (g : ℚ) (s c : Node)
    (hfound : (t.searchAccountWithTracking n).1.1 = some found)
    (hnode : t.root.deref found = .mk d g s c) (hexact : d.accountNumber = n)
    (hrem : d.removeTransaction id = .ok (d1, it)) (hit : ¬ it.id = -1) :
    t.removeAccountTransaction n id =
      .ok ⟨updateTracked (it.amount * (if it.type = 'C' then 1 else -1))
        (t.searchAccountWithTracking n).2 (t.root.modify (fun _ => .mk d1 g s c) found)⟩ := by
  unfold ForestTree.removeAccountTransaction
  simp only [hfound, hnode, hexact, ne_eq, not_true_eq_false, if_false, hrem, hit]

/-! ## The tracked path and the structural ancestors -/

theorem ancestorPtrs_shift_sibling (cur rel : NodePtr) :
    (ancestorPtrs (Link.sibling :: rel)).map (fun q => cur ++ q) =
      (ancestorPtrs rel).map (fun q => (cur ++ [Link.sibling]) ++ q) := by
  simp [ancestorPtrs, List.map_map, Function.comp_def]

theorem ancestorPtrs_shift_child (cur rel : NodePtr) :
    (ancestorPtrs (Link.child :: rel)).map (fun q => cur ++ q) =
      cur :: (ancestorPtrs rel).map (fun q => (cur ++ [Link.child]) ++ q) := by
  simp [ancestorPtrs, List.map_map, Function.comp_def]

/-- When the search ends in an exact match, the ledgers it has tracked are the
structural ancestors of the node found. -/
theorem searchLoop_exact (n : Int) (R : Node) (node : Node) :
    ∀ (cur : NodePtr) (behind : Option NodePtr) (tracked0 : List NodePtr) (f : NodePtr),
      R.deref cur = node →
      (searchLoop n node cur behind tracked0).1.1 = some f →
      (∃ d g s c, R.deref f = .mk d g s c ∧ d.accountNumber = n) →
      ∃ rel, f = cur ++ rel ∧
        (searchLoop n node cur behind tracked0).2 =
          tracked0 ++ (ancestorPtrs rel).map (fun q => cur ++ q) := by
  induction node with
  | null => intro cur behind tracked0 f _ hf _; simp [searchLoop] at hf
  | mk d g s c ih_s ih_c =>
    intro cur behind tracked0 f hcur hf hex
    rw [searchLoop] at hf ⊢
    by_cases hcomp : d.compAccountNumber n = true
    · rw [if_pos hcomp] at hf ⊢
      by_cases heq : n = d.accountNumber
      · rw [if_pos heq] at hf ⊢
        simp only [Option.some.injEq] at hf
        exact ⟨[], by simp [hf], by simp [ancestorPtrs]⟩
      · rw [if_neg heq] at hf ⊢
        by_cases hc : c = .null
        · rw [if_pos hc] at hf
          simp only [Option.some.injEq] at hf
          obtain ⟨d', g', s', c', hd', hn⟩ := hex
          rw [← hf, hcur] at hd'
          injection hd' with h1
          exact absurd (by rw [h1, hn]) heq
        · rw [if_neg hc] at hf ⊢
          obtain ⟨rel, h1, h2⟩ := ih_c (cur ++ [Link.child]) (some cur) (tracked0 ++ [cur]) f
            (by rw [Node.deref_append, hcur]; simp [Node.deref]) hf hex
          refine ⟨Link.child :: rel, by rw [h1]; simp, ?_⟩
          rw [h2, ancestorPtrs_shift_child]
          simp
    · rw [if_neg hcomp] at hf ⊢
      by_cases hlt : n < d.accountNumber
      · rw [if_pos hlt] at hf
        simp only [Option.some.injEq] at hf
        obtain ⟨d', g', s', c', hd', hn⟩ := hex
        rw [← hf, hcur] at hd'
        injection hd' with h1
        rw [← h1] at hn
        omega
      · rw [if_neg hlt] at hf ⊢
        obtain ⟨rel, h1, h2⟩ := ih_s (cur ++ [Link.sibling]) (some cur) tracked0 f
          (by rw [Node.deref_append, hcur]; simp [Node.deref]) hf hex
        refine ⟨Link.sibling :: rel, by rw [h1]; simp, ?_⟩
        rw [h2, ancestorPtrs_shift_sibling]

theorem searchLoop_tracked_comp (n : Int) (R : Node) (node : Node) :
    ∀ (cur : NodePtr) (behind : Option NodePtr) (tracked0 : List NodePtr),
      R.deref cur = node →
      ∃ new, (searchLoop n node cur behind tracked0).2 = tracked0 ++ new ∧
        ∀ p ∈ new, ∃ d g s c, R.deref p = .mk d g s c ∧ d.compAccountNumber n = true := by
  induction node with
  | null => intro cur behind tracked0 _; exact ⟨[], by simp [searchLoop], by simp⟩
  | mk d g s c ih_s ih_c =>
    intro cur behind tracked0 hcur
    rw [searchLoop]
    by_cases hcomp : d.compAccountNumber n = true
    · rw [if_pos hcomp]
      by_cases heq : n = d.accountNumber
      · rw [if_pos heq]; exact ⟨[], by simp, by simp⟩
      · rw [if_neg heq]
        by_cases hc : c = .null
        · rw [if_pos hc]
          exact ⟨[cur], rfl, by
            intro p hp
            rw [List.mem_singleton.1 hp]
            exact ⟨d, g, s, c, hcur, hcomp⟩⟩
        · rw [if_neg hc]
          obtain ⟨new, h1, h2⟩ := ih_c (cur ++ [Link.child]) (some cur) (tracked0 ++ [cur])
            (by rw [Node.deref_append, hcur]; simp [Node.deref])
          refine ⟨cur :: new, by rw [h1]; simp, ?_⟩
          intro p hp
          rcases List.mem_cons.1 hp with rfl | hp
          · exact ⟨d, g, s, c, hcur, hcomp⟩
          · exact h2 p hp
    · rw [if_neg hcomp]
      by_cases hlt : n < d.accountNumber
      · rw [if_pos hlt]; exact ⟨[], by simp, by simp⟩
      · rw [if_neg hlt]
        exact ih_s (cur ++ [Link.sibling]) (some cur) tracked0
          (by rw [Node.deref_append, hcur]; simp [Node.deref])

theorem Node.ancestors_eq_filterMap (R : Node) (p : NodePtr) (h : R.deref p ≠ .null) :
    R.ancestors p =
      (ancestorPtrs p).filterMap
        (fun q => ((R.deref q).account?).map (fun a => a.accountNumber)) := by
  induction p generalizing R with
  | nil => cases R <;> simp [Node.ancestors, ancestorPtrs]
  | cons l p ih =>
    cases R with
    | null => simp at h
    | mk d g s c =>
      cases l with
      | sibling =>
        simp only [Node.deref] at h
        simp only [Node.ancestors, ancestorPtrs, List.filterMap_map, Function.comp_def,
          Node.deref]
        exact ih s h
      | child =>
        simp only [Node.deref] at h
        rw [Node.ancestors, ih c h]
        simp [ancestorPtrs, List.filterMap_map, Function.comp_def, Node.deref, Node.account?]


/-! ## Decimal strings -/

theorem toDigitsCore_append (b : Nat) : ∀ (fuel n : Nat) (ds : List Char),
    Nat.toDigitsCore b fuel n ds = Nat.toDigitsCore b fuel n [] ++ ds := by
  intro fuel
  induction fuel with
  | zero => intro n ds; simp [Nat.toDigitsCore]
  | succ f ih =>
    intro n ds
    simp only [Nat.toDigitsCore]
    by_cases h : n / b = 0
    · simp [h]
    · simp only [h, if_false]
      rw [ih (n / b) (Nat.digitChar (n % b) :: ds), ih (n / b) [Nat.digitChar (n % b)]]
      simp

theorem toDigitsCore_fuel : ∀ (fuel n : Nat), n < fuel →
    Nat.toDigitsCore 10 fuel n [] = Nat.toDigitsCore 10 (n + 1) n [] := by
  intro fuel
  induction fuel using Nat.strong_induction_on with
  | _ fuel ih =>
    intro n hn
    cases fuel with
    | zero => omega
    | succ f =>
      simp only [Nat.toDigitsCore]
      by_cases h : n / 10 = 0
      · simp [h]
      · simp only [h, if_false]
        have h1 : n / 10 < n := Nat.div_lt_self (by omega) (by decide)
        rw [toDigitsCore_append 10 f, toDigitsCore_append 10 n,
          ih f (by omega) (n / 10) (by omega), ih n (by omega) (n / 10) h1]

theorem toDigits_small (n : Nat) (h : n < 10) : Nat.toDigits 10 n = [Nat.digitChar n] := by
  have h0 : n / 10 = 0 := Nat.div_eq_of_lt h
  simp [Nat.toDigits, Nat.toDigitsCore, h0, Nat.mod_eq_of_lt h]

theorem toDigits_step (n : Nat) (h : 10 ≤ n) :
    Nat.toDigits 10 n = Nat.toDigits 10 (n / 10) ++ [Nat.digitChar (n % 10)] := by
  have h0 : ¬ n / 10 = 0 := by omega
  have h1 : n / 10 < n := Nat.div_lt_self (by omega) (by decide)
  unfold Nat.toDigits
  conv_lhs => rw [Nat.toDigitsCore]
  simp only [h0, if_false]
  rw [toDigitsCore_append 10 n, toDigitsCore_fuel n (n / 10) h1]

theorem toDigits_length_pos (n : Nat) : 0 < (Nat.toDigits 10 n).length := by
  by_cases h : n < 10
  · rw [toDigits_small n h]; simp
  · rw [toDigits_step n (by omega)]; simp

theorem toDigits_length_mono : ∀ (m n : Nat), n ≤ m →
    (Nat.toDigits 10 n).length ≤ (Nat.toDigits 10 m).length := by
  intro m
  induction m using Nat.strong_induction_on with
  | _ m ih =>
    intro n hnm
    by_cases hn : n < 10
    · rw [toDigits_small n hn]
      exact toDigits_length_pos m
    · rw [toDigits_step n (by omega), toDigits_step m (by omega)]
      simp only [List.length_append, List.length_singleton]
      have := ih (m / 10) (Nat.div_lt_self (by omega) (by decide)) (n / 10)
        (Nat.div_le_div_right hnm)
      omega

theorem digitChar_inj (a b : Nat) (ha : a < 10) (hb : b < 10)
    (h : Nat.digitChar a = Nat.digitChar b) : a = b := by
  interval_cases a <;> interval_cases b <;> first | rfl | (exact absurd h (by decide))

theorem digitChar_ne_minus (a : Nat) (ha : a < 10) : Nat.digitChar a ≠ '-' := by
  interval_cases a <;> decide

theorem toDigits_inj : ∀ (m n : Nat), Nat.toDigits 10 m = Nat.toDigits 10 n → m = n := by
  intro m
  induction m using Nat.strong_induction_on with
  | _ m ih =>
    intro n h
    by_cases hm : m < 10
    · by_cases hn : n < 10
      · rw [toDigits_small m hm, toDigits_small n hn] at h
        exact digitChar_inj m n hm hn (by simpa using h)
      · rw [toDigits_small m hm, toDigits_step n (by omega)] at h
        have := congrArg List.length h
        have hp := toDigits_length_pos (n / 10)
        simp only [List.length_append, List.length_singleton] at this
        omega
    · by_cases hn : n < 10
      · rw [toDigits_small n hn, toDigits_step m (by omega)] at h
        have := congrArg List.length h
        have hp := toDigits_length_pos (m / 10)
        simp only [List.length_append, List.length_singleton] at this
        omega
      · rw [toDigits_step m (by omega), toDigits_step n (by omega)] at h
        obtain ⟨h1, h2⟩ := List.append_inj' h rfl
        have h3 := ih (m / 10) (Nat.div_lt_self (by omega) (by decide)) (n / 10) h1
        have h4 := digitChar_inj (m % 10) (n % 10) (Nat.mod_lt _ (by decide))
          (Nat.mod_lt _ (by decide)) (by simpa using h2)
        omega

theorem toDigits_no_minus : ∀ (m : Nat), '-' ∉ Nat.toDigits 10 m := by
  intro m
  induction m using Nat.strong_induction_on with
  | _ m ih =>
    by_cases hm : m < 10
    · rw [toDigits_small m hm]
      simp only [List.mem_singleton]
      exact fun h => digitChar_ne_minus m hm h.symm
    · rw [toDigits_step m (by omega)]
      simp only [List.mem_append, List.mem_singleton, not_or]
      exact ⟨ih (m / 10) (Nat.div_lt_self (by omega) (by decide)),
        fun h => digitChar_ne_minus (m % 10) (Nat.mod_lt _ (by decide)) h.symm⟩

theorem to_string_inj (a b : Int) (h : to_string a = to_string b) : a = b := by
  cases a with
  | ofNat m =>
    cases b with
    | ofNat n => simp only [to_string] at h; rw [toDigits_inj m n h]
    | negSucc n =>
      simp only [to_string] at h
      exact absurd (h ▸ List.mem_cons_self _ _) (toDigits_no_minus m)
  | negSucc m =>
    cases b with
    | ofNat n =>
      simp only [to_string] at h
      exact absurd (h ▸ List.mem_cons_self _ _) (toDigits_no_minus n)
    | negSucc n =>
      simp only [to_string, List.cons.injEq, true_and] at h
      have := toDigits_inj _ _ h
      simp only [Nat.add_right_cancel_iff] at this
      rw [this]

/-- A ledger that passes `compAccountNumber` for another number has the
shorter decimal string. -/
theorem length_lt_of_comp (d : Account) (n : Int) (hcomp : d.compAccountNumber n = true)
    (hne : n ≠ d.accountNumber) :
    (to_string d.accountNumber).length < (to_string n).length := by
  have hp : to_string d.accountNumber <+: to_string n := by
    simpa [Account.compAccountNumber] using hcomp
  rcases Nat.lt_or_ge (to_string d.accountNumber).length (to_string n).length with h | h
  · exact h
  · exact absurd (to_string_inj _ _ (hp.eq_of_length (le_antisymm hp.length_le h))).symm hne

/-- Among positive numbers the smaller one has no longer decimal string. -/
theorem length_le_of_lt (n m : Int) (hn : 0 < n) (hnm : n < m) :
    (to_string n).length ≤ (to_string m).length := by
  cases n with
  | negSucc a => exact absurd hn (by simp)
  | ofNat a =>
    cases m with
    | negSucc b => exact absurd (lt_trans hn hnm) (by simp)
    | ofNat b =>
      simp only [to_string]
      exact toDigits_length_mono b a (by
        have : (a : Int) < (b : Int) := hnm
        omega)


/-! ## The ledgers before and after an insertion -/

theorem mem_ancestorPtrs_cons (l l1 : Link) (q p : NodePtr) :
    l :: q ∈ ancestorPtrs (l1 :: p) ↔ l = l1 ∧ q ∈ ancestorPtrs p := by
  cases l1 <;> cases l <;> simp [ancestorPtrs]

theorem nil_mem_ancestorPtrs_child (p : NodePtr) : [] ∈ ancestorPtrs (Link.child :: p) := by
  simp [ancestorPtrs]

theorem nil_not_mem_ancestorPtrs_sibling (p : NodePtr) :
    [] ∉ ancestorPtrs (Link.sibling :: p) := by
  simp [ancestorPtrs]

theorem filter_ledgers_same (l : Link) (p : NodePtr) (L : List (NodePtr × Account)) :
    (L.map (fun x => (l :: x.1, x.2))).filter (fun x => decide (x.1 ≠ l :: p)) =
      (L.filter (fun x => decide (x.1 ≠ p))).map (fun x => (l :: x.1, x.2)) := by
  rw [List.filter_map]
  congr 1
  apply List.filter_congr
  intro x _
  simp

theorem filter_ledgers_other (l : Link) (p : NodePtr) (L : List (NodePtr × Account))
    (h : ∀ q, l :: q ≠ p) :
    (L.map (fun x => (l :: x.1, x.2))).filter (fun x => decide (x.1 ≠ p)) =
      L.map (fun x => (l :: x.1, x.2)) := by
  rw [List.filter_eq_self]
  intro x hx
  obtain ⟨y, _, rfl⟩ := List.mem_map.1 hx
  simpa using h y.1

/-- Ledgers that are moved without being changed, none of them above the new node. -/
theorem forall₂_credited_of_map_eq (b : ℚ) (pNew : NodePtr)
    (L L1 : List (NodePtr × Account)) (hmap : L.map Prod.snd = L1.map Prod.snd)
    (hno : ∀ x ∈ L1, x.1 ∉ ancestorPtrs pNew) :
    List.Forall₂ (Credited b pNew) L L1 := by
  induction L generalizing L1 with
  | nil =>
    cases L1 with
    | nil => exact List.Forall₂.nil
    | cons y L1 => simp at hmap
  | cons x L ih =>
    cases L1 with
    | nil => simp at hmap
    | cons y L1 =>
      simp only [List.map_cons, List.cons.injEq] at hmap
      refine List.Forall₂.cons ?_ (ih L1 hmap.2 (fun z hz => hno z (List.mem_cons_of_mem _ hz)))
      unfold Credited
      rw [if_neg (hno y (List.mem_cons_self _ _)), hmap.1]

theorem forall₂_credited_lift (b : ℚ) (l : Link) (p : NodePtr)
    (L L1 : List (NodePtr × Account)) (h : List.Forall₂ (Credited b p) L L1) :
    List.Forall₂ (Credited b (l :: p)) (L.map (fun x => (l :: x.1, x.2)))
      (L1.map (fun x => (l :: x.1, x.2))) := by
  rw [List.forall₂_map_left_iff, List.forall₂_map_right_iff]
  refine h.imp ?_
  intro x y hxy
  unfold Credited at hxy ⊢
  simp only [mem_ancestorPtrs_cons, true_and]
  exact hxy

theorem map_snd_ledgers_lift (l : Link) (L : List (NodePtr × Account)) :
    (L.map (fun x => (l :: x.1, x.2))).map Prod.snd = L.map Prod.snd := by
  simp [List.map_map, Function.comp_def]

/-- The new node put in front of a chain: the ledgers of the chain stay. -/
theorem credited_in_front (acc : Account) (g : ℚ) (node : Node) (L : List (NodePtr × Account))
    (hL : L.map Prod.snd = node.ledgers.map Prod.snd)
    (N : Node) (hN : N.ledgers = ([], acc) :: L) (hacc : (N.deref []).account? = some acc)
    (hne : ∀ x ∈ L, x.1 ≠ []) :
    ∃ pNew, (N.deref pNew).account? = some acc ∧
      List.Forall₂ (Credited g pNew) node.ledgers
        (N.ledgers.filter (fun x => decide (x.1 ≠ pNew))) := by
  refine ⟨[], hacc, ?_⟩
  rw [hN, List.filter_cons]
  simp only [ne_eq, not_true_eq_false, decide_False, Bool.false_eq_true, if_false]
  rw [List.filter_eq_self.2 (fun x hx => by simpa using hne x hx)]
  exact forall₂_credited_of_map_eq g [] _ _ hL.symm (fun x _ => by simp [ancestorPtrs])

theorem insertInto_ledgers (acc : Account) (hpos : 0 < acc.accountNumber) (node : Node) :
    ∀ (via : Link), hitsExact acc.accountNumber node = false →
      ∃ pNew, ((insertInto acc via node).deref pNew).account? = some acc ∧
        List.Forall₂ (Credited acc.balance pNew) node.ledgers
          ((insertInto acc via node).ledgers.filter (fun x => decide (x.1 ≠ pNew))) := by
  induction node with
  | null =>
    intro via _
    refine ⟨[], by simp [insertInto, Node.ofAccount, Node.account?], ?_⟩
    simp [insertInto, Node.ofAccount, Node.ledgers]
  | mk d g s c ih_s ih_c =>
    intro via hhit
    rw [hitsExact] at hhit
    rw [insertInto]
    by_cases hcomp : d.compAccountNumber acc.accountNumber = true
    · rw [if_pos hcomp] at hhit ⊢
      by_cases heq : acc.accountNumber = d.accountNumber
      · rw [if_pos heq] at hhit; cases hhit
      · rw [if_neg heq] at hhit ⊢
        have hlen := length_lt_of_comp d acc.accountNumber hcomp heq
        by_cases hc : c = .null
        · subst hc
          rw [if_pos rfl]
          have hlen1 : (to_string (d.updateBalance acc.balance).accountNumber).length <
              (to_string acc.accountNumber).length := hlen
          rw [linkedAt, if_pos hlen1]
          refine ⟨[Link.child], by simp [Node.deref, Node.ofAccount, Node.account?], ?_⟩
          simp only [Node.ledgers, Node.ofAccount, List.map_nil, List.nil_append,
            List.map_cons, List.cons_append, List.filter_cons]
          simp only [ne_eq, not_true_eq_false, decide_False, Bool.false_eq_true, if_false,
            List.cons_ne_self, not_false_eq_true, decide_True, if_true,
            (by simp : ¬ ([] : NodePtr) = [Link.child])]
          rw [filter_ledgers_other Link.sibling [Link.child] _ (by simp)]
          refine List.Forall₂.cons ?_ ?_
          · simp [Credited, ancestorPtrs]
          · exact forall₂_credited_of_map_eq _ _ _ _ rfl
              (fun x hx => by
                obtain ⟨y, _, rfl⟩ := List.mem_map.1 hx
                simp [ancestorPtrs])
        · rw [if_neg hc] at hhit ⊢
          obtain ⟨p, hp1, hp2⟩ := ih_c Link.child hhit
          refine ⟨Link.child :: p, by simpa [Node.deref] using hp1, ?_⟩
          simp only [Node.ledgers, List.filter_cons, List.filter_append]
          simp only [ne_eq, (by simp : ¬ ([] : NodePtr) = Link.child :: p),
            not_false_eq_true, decide_True, if_true]
          have h1 := filter_ledgers_same Link.child p (insertInto acc Link.child c).ledgers
          have h2 := filter_ledgers_other Link.sibling (Link.child :: p) s.ledgers (by simp)
          simp only [ne_eq] at h1 h2
          rw [h1, h2]
          refine List.Forall₂.cons ?_ (List.rel_append ?_ ?_)
          · simp [Credited, ancestorPtrs]
          · exact forall₂_credited_lift _ _ _ _ _ hp2
          · exact forall₂_credited_of_map_eq _ _ _ _ rfl
              (fun x hx => by
                obtain ⟨y, _, rfl⟩ := List.mem_map.1 hx
                simp [ancestorPtrs])
    · rw [if_neg hcomp] at hhit ⊢
      by_cases hlt : acc.accountNumber < d.accountNumber
      · rw [if_pos hlt]
        have hlen : ¬ (to_string d.accountNumber).length < (to_string acc.accountNumber).length :=
          not_lt.2 (length_le_of_lt _ _ hpos hlt)
        rw [linkedAt, if_neg hlen, if_pos hlt]
        have hfront : ∃ pNew,
            ((Node.mk acc acc.balance (.mk d g s c) .null).deref pNew).account? = some acc ∧
            List.Forall₂ (Credited acc.balance pNew) (Node.mk d g s c).ledgers
              ((Node.mk acc acc.balance (.mk d g s c) .null).ledgers.filter
                (fun x => decide (x.1 ≠ pNew))) :=
          credited_in_front acc acc.balance (.mk d g s c)
            ((Node.mk d g s c).ledgers.map (fun x => (Link.sibling :: x.1, x.2)))
            (map_snd_ledgers_lift _ _) _ (by simp [Node.ledgers]) (by simp [Node.account?])
            (fun x hx => by
              obtain ⟨y, _, rfl⟩ := List.mem_map.1 hx
              simp)
        cases via with
        | child => exact hfront
        | sibling =>
          simp only [wrapBefore]
          by_cases hl2 : (to_string d.accountNumber).length > (to_string acc.accountNumber).length
          · rw [if_pos hl2]
            exact credited_in_front acc acc.balance (.mk d g s c)
              ((Node.mk d g .null c).ledgers.map (fun x => (Link.child :: x.1, x.2)) ++
                s.ledgers.map (fun x => (Link.sibling :: x.1, x.2)))
              (by simp [Node.ledgers, List.map_map, Function.comp_def]) _
              (by simp [Node.ledgers, Node.ofAccount, Node.setSibling, Node.setChild])
              (by simp [Node.ofAccount, Node.setSibling, Node.setChild, Node.account?])
              (fun x hx => by
                rcases List.mem_append.1 hx with h | h
                · obtain ⟨y, _, rfl⟩ := List.mem_map.1 h
                  simp
                · obtain ⟨y, _, rfl⟩ := List.mem_map.1 h
                  simp)
          · rw [if_neg hl2]
            exact hfront
      · rw [if_neg hlt] at hhit ⊢
        obtain ⟨p, hp1, hp2⟩ := ih_s Link.sibling hhit
        refine ⟨Link.sibling :: p, by simpa [Node.deref] using hp1, ?_⟩
        simp only [Node.ledgers, List.filter_cons, List.filter_append]
        simp only [ne_eq, (by simp : ¬ ([] : NodePtr) = Link.sibling :: p),
          not_false_eq_true, decide_True, if_true]
        have h1 := filter_ledgers_same Link.sibling p (insertInto acc Link.sibling s).ledgers
        have h2 := filter_ledgers_other Link.child (Link.sibling :: p) c.ledgers (by simp)
        simp only [ne_eq] at h1 h2
        rw [h1, h2]
        refine List.Forall₂.cons ?_ (List.rel_append ?_ ?_)
        · simp [Credited, ancestorPtrs]
        · exact forall₂_credited_of_map_eq _ _ _ _ rfl
            (fun x hx => by
              obtain ⟨y, _, rfl⟩ := List.mem_map.1 hx
              simp [ancestorPtrs])
        · exact forall₂_credited_lift _ _ _ _ _ hp2

theorem searchLoop_hitsExact (n : Int) (R : Node) (node : Node) :
    ∀ (cur : NodePtr) (behind : Option NodePtr) (tracked0 : List NodePtr),
      R.deref cur = node → hitsExact n node = true →
      ∃ f d g s c, (searchLoop n node cur behind tracked0).1.1 = some f ∧
        R.deref f = .mk d g s c ∧ d.accountNumber = n := by
  induction node with
  | null => intro cur behind tracked0 _ h; simp [hitsExact] at h
  | mk d g s c ih_s ih_c =>
    intro cur behind tracked0 hcur hhit
    rw [hitsExact] at hhit
    rw [searchLoop]
    by_cases hcomp : d.compAccountNumber n = true
    · rw [if_pos hcomp] at hhit ⊢
      by_cases heq : n = d.accountNumber
      · rw [if_pos heq]
        exact ⟨cur, d, g, s, c, rfl, hcur, heq.symm⟩
      · rw [if_neg heq] at hhit ⊢
        by_cases hc : c = .null
        · rw [if_pos hc] at hhit; cases hhit
        · rw [if_neg hc] at hhit ⊢
          exact ih_c (cur ++ [Link.child]) (some cur) (tracked0 ++ [cur])
            (by rw [Node.deref_append, hcur]; simp [Node.deref]) hhit
    · rw [if_neg hcomp] at hhit ⊢
      by_cases hlt : n < d.accountNumber
      · rw [if_pos hlt] at hhit; cases hhit
      · rw [if_neg hlt] at hhit ⊢
        exact ih_s (cur ++ [Link.sibling]) (some cur) tracked0
          (by rw [Node.deref_append, hcur]; simp [Node.deref]) hhit

/-- When `addAccount` returns true, the guard on the main account has passed
and, if the tree was searched, the search has not ended in an exact match. -/
theorem addAccount_true (t : ForestTree) (acc : Account) (t1 : ForestTree)
    (hadd : t.addAccount acc = .ok (true, t1)) :
    t1 = ⟨insertTop acc t.root⟩ ∧
    ¬ (acc.accountNumber > 9 ∧
      (searchLoop (firstDigit acc.accountNumber) t.root [] none []).1.1 = none) ∧
    ∀ d g s c, t.root = .mk d g s c → ¬ acc.accountNumber < d.accountNumber →
      hitsExact acc.accountNumber t.root = false := by
  obtain ⟨flag, hflag⟩ := addAccount_eq_insertTop t acc
  rw [hflag] at hadd
  injection hadd with hadd
  injection hadd with hf ht
  subst hf
  refine ⟨ht.symm, ?_, ?_⟩
  · intro hg
    unfold ForestTree.addAccount ForestTree.searchAccountWithTracking at hflag
    simp only [if_pos hg] at hflag
    injection hflag with hflag
    injection hflag with h1 _
    cases h1
  · intro d g s c hroot hlt
    by_contra hhit
    rw [Bool.not_eq_false] at hhit
    obtain ⟨f, d1, g1, s1, c1, hf1, hf2, hf3⟩ :=
      searchLoop_hitsExact acc.accountNumber t.root t.root [] none [] (by simp) hhit
    obtain ⟨hnd, htr⟩ := tracked_spec t acc.accountNumber
    have hnotin : f ∉ (t.searchAccountWithTracking acc.accountNumber).2 := by
      intro hin
      obtain ⟨d2, g2, s2, c2, hd2, hne⟩ := htr f hin
      rw [hf2] at hd2
      injection hd2 with h1
      exact hne (h1 ▸ hf3)
    have hacc : ((updateTracked acc.balance (t.searchAccountWithTracking acc.accountNumber).2
        t.root).deref f).account? = some d1 := by
      rw [account_deref_updateTracked _ _ hnd, if_neg hnotin, hf2]
      rfl
    obtain ⟨g3, s3, c3, h3⟩ := account_some_deref _ _ _ hacc
    have hfound : (t.searchAccountWithTracking acc.accountNumber).1.1 = some f := hf1
    unfold ForestTree.addAccount at hflag
    by_cases hg : acc.accountNumber > 9 ∧
        (t.searchAccountWithTracking (firstDigit acc.accountNumber)).1.1 = none
    · simp only [if_pos hg] at hflag
      injection hflag with hflag
      injection hflag with h1 _
      cases h1
    · simp only [if_neg hg, hroot, if_neg hlt] at hflag
      rw [← hroot] at hflag
      simp only [linkNewNode, hfound, h3, hf3, if_true, Except.map] at hflag
      injection hflag with hflag
      injection hflag with h1 _
      cases h1


/-! ## Prefixes of decimal strings -/

theorem toDigits_prefix_of_div (a : Nat) (ha : 0 < a) : ∀ (k c : Nat), c / 10 ^ k = a →
    Nat.toDigits 10 a <+: Nat.toDigits 10 c := by
  intro k
  induction k with
  | zero => intro c h; simp at h; rw [h]
  | succ k ih =>
    intro c h
    have hc : 10 ≤ c := by
      by_contra hlt
      have : c / 10 ^ (k + 1) = 0 := Nat.div_eq_of_lt (by
        calc c < 10 := by omega
          _ = 10 ^ 1 := by norm_num
          _ ≤ 10 ^ (k + 1) := Nat.pow_le_pow_right (by decide) (by omega))
      omega
    have h1 : c / 10 / 10 ^ k = a := by
      rw [Nat.div_div_eq_div_mul, ← pow_succ']
      exact h
    rw [toDigits_step c hc]
    exact (ih (c / 10) h1).trans (List.prefix_append _ _)

theorem div_of_toDigits_prefix (a : Nat) : ∀ (c : Nat),
    Nat.toDigits 10 a <+: Nat.toDigits 10 c → ∃ k, c / 10 ^ k = a := by
  intro c
  induction c using Nat.strong_induction_on with
  | _ c ih =>
    intro h
    rcases Nat.lt_or_ge (Nat.toDigits 10 a).length (Nat.toDigits 10 c).length with hl | hl
    · have hc : 10 ≤ c := by
        by_contra hlt
        rw [toDigits_small c (by omega)] at hl
        have := toDigits_length_pos a
        simp only [List.length_singleton] at hl
        omega
      rw [toDigits_step c hc] at h hl
      have h1 : Nat.toDigits 10 a <+: Nat.toDigits 10 (c / 10) := by
        refine List.prefix_of_prefix_length_le h (List.prefix_append _ _) ?_
        simp only [List.length_append, List.length_singleton] at hl
        omega
      obtain ⟨k, hk⟩ := ih (c / 10) (Nat.div_lt_self (by omega) (by decide)) h1
      refine ⟨k + 1, ?_⟩
      rw [pow_succ', ← Nat.div_div_eq_div_mul]
      exact hk
    · have := toDigits_inj a c (h.eq_of_length (le_antisymm h.length_le hl))
      exact ⟨0, by simp [this]⟩

/-- Among positive numbers, the decimal string of `a` starts the decimal
string of `c` exactly when `c` without some of its last digits is `a`. -/
theorem to_string_prefix_iff (a c : Int) (ha : 0 < a) (hc : 0 < c) :
    to_string a <+: to_string c ↔ ∃ k : Nat, c / 10 ^ k = a := by
  cases a with
  | negSucc m => exact absurd ha (by simp)
  | ofNat m =>
    cases c with
    | negSucc n => exact absurd hc (by simp)
    | ofNat n =>
      have hm : 0 < m := by
        have : (0 : Int) < (m : Int) := ha
        omega
      simp only [to_string, Int.ofNat_eq_coe]
      constructor
      · intro h
        obtain ⟨k, hk⟩ := div_of_toDigits_prefix m n h
        exact ⟨k, by rw [← hk]; push_cast; rfl⟩
      · rintro ⟨k, hk⟩
        refine toDigits_prefix_of_div m hm k n ?_
        have : ((n / 10 ^ k : Nat) : Int) = (m : Int) := by rw [← hk]; push_cast; rfl
        exact_mod_cast this


/-! ## Calls on an account that is not found -/

theorem searchLoop_found_ne_null (n : Int) (R : Node) (node : Node) :
    ∀ (cur : NodePtr) (behind : Option NodePtr) (tracked0 : List NodePtr) (f : NodePtr),
      R.deref cur = node → (searchLoop n node cur behind tracked0).1.1 = some f →
      ∃ d g s c, R.deref f = .mk d g s c := by
  induction node with
  | null => intro cur behind tracked0 f _ hf; simp [searchLoop] at hf
  | mk d g s c ih_s ih_c =>
    intro cur behind tracked0 f hcur hf
    rw [searchLoop] at hf
    by_cases hcomp : d.compAccountNumber n = true
    · rw [if_pos hcomp] at hf
      by_cases heq : n = d.accountNumber
      · rw [if_pos heq] at hf
        simp only [Option.some.injEq] at hf
        exact ⟨d, g, s, c, by rw [← hf]; exact hcur⟩
      · rw [if_neg heq] at hf
        by_cases hc : c = .null
        · rw [if_pos hc] at hf
          simp only [Option.some.injEq] at hf
          exact ⟨d, g, s, c, by rw [← hf]; exact hcur⟩
        · rw [if_neg hc] at hf
          exact ih_c (cur ++ [Link.child]) (some cur) (tracked0 ++ [cur]) f
            (by rw [Node.deref_append, hcur]; simp [Node.deref]) hf
    · rw [if_neg hcomp] at hf
      by_cases hlt : n < d.accountNumber
      · rw [if_pos hlt] at hf
        simp only [Option.some.injEq] at hf
        exact ⟨d, g, s, c, by rw [← hf]; exact hcur⟩
      · rw [if_neg hlt] at hf
        exact ih_s (cur ++ [Link.sibling]) (some cur) tracked0 f
          (by rw [Node.deref_append, hcur]; simp [Node.deref]) hf

/-- Without an exact match, `addAcountTransaction` and
`removeAccountTransaction` return at their first test. -/
theorem not_exactMatch_cases (t : ForestTree) (n : Int) (h : t.exactMatch n = false) :
    (t.searchAccountWithTracking n).1.1 = none ∨
    ∃ f d g s c, (t.searchAccountWithTracking n).1.1 = some f ∧
      t.root.deref f = .mk d g s c ∧ d.accountNumber ≠ n := by
  cases hf : (t.searchAccountWithTracking n).1.1 with
  | none => exact Or.inl rfl
  | some f =>
    obtain ⟨d, g, s, c, hd⟩ := searchLoop_found_ne_null n t.root t.root [] none [] f (by simp) hf
    refine Or.inr ⟨f, d, g, s, c, rfl, hd, ?_⟩
    unfold ForestTree.exactMatch at h
    simp only [hf, hd, decide_eq_false_iff_not] at h
    exact h

theorem ledgersKept_refl (t : ForestTree) : LedgersKept t t :=
  ⟨fun _ => Iff.rfl, fun _ a h => ⟨a, h, rfl, List.Perm.refl _, rfl, rfl⟩⟩


/-! ## The kind setter -/

theorem toLower_eq_iff (c l u : Char) (hu : u.toLower = l) (hl : l.toLower = l)
    (hu1 : 65 ≤ u.toNat ∧ u.toNat ≤ 90) :
    c.toLower = l ↔ c = u ∨ c = l := by
  constructor
  · intro h
    by_cases hr : c.toNat ≥ 65 ∧ c.toNat ≤ 90
    · left
      have h1 : (c.toLower).toNat = c.toNat + 32 := by
        generalize hn : c.toNat = n at hr
        have hc : c = Char.ofNat n := by rw [← hn, Char.ofNat_toNat]
        subst hc
        obtain ⟨h65, h90⟩ := hr
        interval_cases n <;> rfl
      have h2 : (u.toLower).toNat = u.toNat + 32 := by
        generalize hn : u.toNat = n at hu1
        have hc : u = Char.ofNat n := by rw [← hn, Char.ofNat_toNat]
        subst hc
        obtain ⟨h65, h90⟩ := hu1
        interval_cases n <;> rfl
      rw [h] at h1
      rw [hu] at h2
      have h3 : c.toNat = u.toNat := by omega
      rw [← Char.ofNat_toNat c, ← Char.ofNat_toNat u, h3]
    · right
      unfold Char.toLower at h
      rw [if_neg hr] at h
      exact h
  · rintro (h | h)
    · rw [h, hu]
    · rw [h, hl]

/-- What `setType` does, character by character. -/
theorem setType_spec (t : Transaction) (c : Char) :
    t.setType c =
      if c = 'D' ∨ c = 'd' then (true, { t with type := 'D' })
      else if c = 'C' ∨ c = 'c' then (true, { t with type := 'C' })
      else (false, t) := by
  have hd := toLower_eq_iff c 'd' 'D' (by decide) (by decide) (by decide)
  have hc := toLower_eq_iff c 'c' 'C' (by decide) (by decide) (by decide)
  unfold Transaction.setType
  simp only [hd, hc]
  by_cases h1 : c = 'D'
  · subst h1; simp
  · by_cases h2 : c = 'd'
    · subst h2; simp
    · by_cases h3 : c = 'C'
      · subst h3; simp
      · by_cases h4 : c = 'c'
        · subst h4; simp
        · simp [h1, h2, h3, h4]


/-! ## The order of the reports -/

theorem mem_ledgers_iff (node : Node) : ∀ (q : NodePtr) (a : Account),
    (q, a) ∈ node.ledgers ↔ (node.deref q).account? = some a := by
  induction node with
  | null => intro q a; simp [Node.ledgers, Node.account?]
  | mk d g s c ih_s ih_c =>
    intro q a
    cases q with
    | nil => simp [Node.ledgers, Node.account?, eq_comm]
    | cons l r =>
      cases l with
      | sibling => simp [Node.ledgers, Node.deref, ← ih_s]
      | child => simp [Node.ledgers, Node.deref, ← ih_c]

theorem ledgers_pairwise (node : Node) :
    (node.ledgers.map Prod.fst).Pairwise PreorderBefore := by
  induction node with
  | null => simp [Node.ledgers]
  | mk d g s c ih_s ih_c =>
    simp only [Node.ledgers, List.map_cons, List.map_append, List.map_map, Function.comp_def]
    rw [List.pairwise_cons, List.pairwise_append]
    refine ⟨?_, ?_, ?_, ?_⟩
    · intro q hq
      rcases List.mem_append.1 hq with h | h
      · obtain ⟨x, _, rfl⟩ := List.mem_map.1 h
        exact List.Lex.nil
      · obtain ⟨x, _, rfl⟩ := List.mem_map.1 h
        exact List.Lex.nil
    · have := (List.pairwise_map (f := fun q => Link.child :: q)
        (R := PreorderBefore) (l := c.ledgers.map Prod.fst)).2
        (ih_c.imp (fun h => List.Lex.cons h))
      simpa [List.map_map, Function.comp_def] using this
    · have := (List.pairwise_map (f := fun q => Link.sibling :: q)
        (R := PreorderBefore) (l := s.ledgers.map Prod.fst)).2
        (ih_s.imp (fun h => List.Lex.cons h))
      simpa [List.map_map, Function.comp_def] using this
    · intro p hp q hq
      obtain ⟨x, _, rfl⟩ := List.mem_map.1 hp
      obtain ⟨y, _, rfl⟩ := List.mem_map.1 hq
      exact List.Lex.rel ⟨rfl, rfl⟩

theorem preorderBefore_irrefl (p : NodePtr) : ¬ PreorderBefore p p := by
  induction p with
  | nil => intro h; cases h
  | cons l p ih =>
    intro h
    cases h with
    | cons h => exact ih h
    | rel h => cases l <;> simp at h

theorem ledgers_nodup (node : Node) : (node.ledgers.map Prod.fst).Nodup := by
  refine (ledgers_pairwise node).imp ?_
  intro a b h hab
  subst hab
  exact preorderBefore_irrefl _ h

theorem preorderBefore_append (p : NodePtr) (l : Link) (r : NodePtr) :
    PreorderBefore p (p ++ l :: r) := by
  induction p with
  | nil => exact List.Lex.nil
  | cons x p ih => exact List.Lex.cons ih

theorem preorderBefore_child_sibling (p r r1 : NodePtr) :
    PreorderBefore (p ++ Link.child :: r) (p ++ Link.sibling :: r1) := by
  induction p with
  | nil => exact List.Lex.rel ⟨rfl, rfl⟩
  | cons x p ih => exact List.Lex.cons ih

theorem printTree_eq (node : Node) : ∀ (k : Nat),
    printTree node k = node.ledgers.map (fun x =>
      ⟨k + depthOf x.1, x.2.accountNumber, x.2.description, x.2.balance, x.2.transactions⟩) := by
  induction node with
  | null => intro k; rfl
  | mk d g s c ih_s ih_c =>
    intro k
    simp only [printTree, Node.ledgers, List.map_cons, List.map_append, List.map_map,
      Function.comp_def, ih_s, ih_c, depthOf, List.count_nil, Nat.add_zero,
      List.count_cons_self, List.count_cons_of_ne (by decide : Link.child ≠ Link.sibling)]
    simp only [Nat.add_assoc, Nat.add_comm 1]

theorem printAccountRecursive_eq (node : Node) : ∀ (k : Nat), k ≠ 0 →
    printAccountRecursive node k = node.ledgers.map (fun x =>
      ⟨k + depthOf x.1, x.2.accountNumber, shownDescription x.2.description, x.2.balance,
        x.2.transactions⟩) := by
  induction node with
  | null => intro k _; rfl
  | mk d g s c ih_s ih_c =>
    intro k hk
    simp only [printAccountRecursive, Node.ledgers, List.map_cons, List.map_append,
      List.map_map, Function.comp_def, ih_s k hk, ih_c (k + 1) (by omega), depthOf,
      List.count_nil, Nat.add_zero, List.count_cons_self, if_pos hk,
      List.count_cons_of_ne (by decide : Link.child ≠ Link.sibling)]
    simp only [Nat.add_assoc, Nat.add_comm 1]

theorem printTreeRecursive_eq (written : ℚ → ℚ) (node : Node) :
    printTreeRecursive written node =
      node.ledgers.map
        (fun x => (x.2.accountNumber, x.2.description, written x.2.balance)) := by
  induction node with
  | null => rfl
  | mk d g s c ih_s ih_c =>
    simp only [printTreeRecursive, Node.ledgers, List.map_cons, List.map_append, List.map_map,
      Function.comp_def, ih_s, ih_c]


/-! ## Inserting the lines of a dump -/

theorem le_of_comp (d : Account) (y : Int) (hd : 0 < d.accountNumber) (hy : 0 < y)
    (h : d.compAccountNumber y = true) : d.accountNumber ≤ y := by
  have hp : to_string d.accountNumber <+: to_string y := by
    simpa [Account.compAccountNumber] using h
  obtain ⟨k, hk⟩ := (to_string_prefix_iff _ _ hd hy).1 hp
  rw [← hk]
  exact Int.ediv_le_self _ (le_of_lt hy)

theorem routes_deref_null (x : Int) (X : Node) : ∀ (p : NodePtr), Routes x X p →
    X.deref p = .null := by
  induction X with
  | null => intro p _; simp
  | mk d g s c ih_s ih_c =>
    intro p h
    cases p with
    | nil => simp [Routes] at h
    | cons l p =>
      cases l with
      | sibling => exact ih_s p h.2.2
      | child => exact ih_c p h.2.2.2

theorem graft_ne_null (N : Node) (b : ℚ) (p : NodePtr) (d : Account) (g : ℚ) (s c : Node) :
    graft N b p (.mk d g s c) ≠ .null := by
  cases p with
  | nil => simp [graft]
  | cons l p => cases l <;> simp [graft]

/-- An insertion whose search runs along `p` puts the new node at `p` and
credits the ledgers above it. -/
theorem insertInto_graft (acc : Account) (X : Node) : ∀ (p : NodePtr) (via : Link),
    Routes acc.accountNumber X p →
    insertInto acc via X = graft (Node.ofAccount acc) acc.balance p X := by
  induction X with
  | null =>
    intro p via h
    cases p with
    | nil => rfl
    | cons l p => simp [Routes] at h
  | mk d g s c ih_s ih_c =>
    intro p via h
    cases p with
    | nil => simp [Routes] at h
    | cons l p =>
      cases l with
      | sibling =>
        obtain ⟨h1, h2, h3⟩ := h
        rw [insertInto, if_neg (by rw [h1]; simp), if_neg h2, graft, ih_s p Link.sibling h3]
      | child =>
        obtain ⟨h1, h2, _, h4⟩ := h
        rw [insertInto, if_pos h1, if_neg h2, graft]
        by_cases hc : c = .null
        · subst hc
          rw [if_pos rfl]
          have hp : p = [] := by
            cases p with
            | nil => rfl
            | cons l p => simp [Routes] at h4
          subst hp
          have hlen : (to_string (d.updateBalance acc.balance).accountNumber).length <
              (to_string acc.accountNumber).length := length_lt_of_comp d _ h1 h2
          rw [linkedAt, if_pos hlen]
          rfl
        · rw [if_neg hc, ih_c p Link.child h4]

theorem compAccountNumber_updateBalance (d : Account) (b : ℚ) (x : Int) :
    (d.updateBalance b).compAccountNumber x = d.compAccountNumber x := rfl

/-- After the nodes `N` are put at `p`, a search that ran along `p` goes on
into `N`. -/
theorem routes_graft (x : Int) (N : Node) (b : ℚ) (q : NodePtr) (hN : Routes x N q) (X : Node) :
    ∀ (p : NodePtr), Routes x X p → Routes x (graft N b p X) (p ++ q) := by
  induction X with
  | null =>
    intro p h
    cases p with
    | nil => simpa [graft] using hN
    | cons l p => simp [Routes] at h
  | mk d g s c ih_s ih_c =>
    intro p h
    cases p with
    | nil => simp [Routes] at h
    | cons l p =>
      cases l with
      | sibling => exact ⟨h.1, h.2.1, ih_s p h.2.2⟩
      | child => exact ⟨h.1, h.2.1, h.2.2.1, ih_c p h.2.2.2⟩

/-- A number found exactly is still found exactly after nodes are put at a
null pointer. -/
theorem hitsExact_graft (k : Int) (N : Node) (b : ℚ) (X : Node) : ∀ (p : NodePtr),
    hitsExact k X = true → hitsExact k (graft N b p X) = true := by
  induction X with
  | null => intro p h; simp [hitsExact] at h
  | mk d g s c ih_s ih_c =>
    intro p h
    cases p with
    | nil => simpa [graft] using h
    | cons l p =>
      rw [hitsExact] at h
      cases l with
      | sibling =>
        rw [graft, hitsExact]
        by_cases hcomp : d.compAccountNumber k = true
        · rw [if_pos hcomp] at h ⊢
          exact h
        · rw [if_neg hcomp] at h ⊢
          by_cases hlt : k < d.accountNumber
          · rw [if_pos hlt] at h; cases h
          · rw [if_neg hlt] at h ⊢
            exact ih_s p h
      | child =>
        rw [graft, hitsExact, compAccountNumber_updateBalance]
        by_cases hcomp : d.compAccountNumber k = true
        · rw [if_pos hcomp] at h ⊢
          by_cases heq : k = d.accountNumber
          · rw [if_pos (show k = (d.updateBalance b).accountNumber from heq)]
          · rw [if_neg heq] at h
            rw [if_neg (show ¬ k = (d.updateBalance b).accountNumber from heq)]
            by_cases hc : c = .null
            · rw [if_pos hc] at h; cases h
            · rw [if_neg hc] at h
              have hg : graft N b p c ≠ .null := by
                cases c with
                | null => exact absurd rfl hc
                | mk d1 g1 s1 c1 => exact graft_ne_null _ _ _ _ _ _ _
              rw [if_neg hg]
              exact ih_c p h
        · rw [if_neg hcomp] at h ⊢
          exact h

/-- The number of the nodes put at the end of its own search is found exactly. -/
theorem hitsExact_graft_routes (k : Int) (N : Node) (b : ℚ) (hN : hitsExact k N = true)
    (X : Node) : ∀ (p : NodePtr), Routes k X p → hitsExact k (graft N b p X) = true := by
  induction X with
  | null =>
    intro p h
    cases p with
    | nil => simpa [graft] using hN
    | cons l p => simp [Routes] at h
  | mk d g s c ih_s ih_c =>
    intro p h
    cases p with
    | nil => simp [Routes] at h
    | cons l p =>
      cases l with
      | sibling =>
        obtain ⟨h1, h2, h3⟩ := h
        rw [graft, hitsExact, if_neg (by rw [h1]; simp), if_neg h2]
        exact ih_s p h3
      | child =>
        obtain ⟨h1, h2, _, h4⟩ := h
        have hg : graft N b p c ≠ .null := by
          cases c with
          | null =>
            cases p with
            | nil =>
              intro h0
              simp only [graft] at h0
              rw [h0] at hN
              simp [hitsExact] at hN
            | cons l p => simp [Routes] at h4
          | mk d1 g1 s1 c1 => exact graft_ne_null _ _ _ _ _ _ _
        rw [graft, hitsExact, compAccountNumber_updateBalance, if_pos h1,
          if_neg (show ¬ k = (d.updateBalance b).accountNumber from h2), if_neg hg]
        exact ih_c p h4

theorem updateBalance_zero (d : Account) : d.updateBalance 0 = d := by
  cases d
  simp [Account.updateBalance]

theorem updateBalance_updateBalance (d : Account) (b1 b2 : ℚ) :
    (d.updateBalance b1).updateBalance b2 = d.updateBalance (b1 + b2) := by
  cases d
  simp [Account.updateBalance, add_assoc]

theorem graft_null_zero (X : Node) : ∀ (p : NodePtr), graft .null 0 p X = X := by
  induction X with
  | null =>
    intro p
    cases p with
    | nil => rfl
    | cons l p => cases l <;> rfl
  | mk d g s c ih_s ih_c =>
    intro p
    cases p with
    | nil => rfl
    | cons l p =>
      cases l with
      | sibling => rw [graft, ih_s p]
      | child => rw [graft, ih_c p, updateBalance_zero]

theorem graft_graft_child (N2 : Node) (b1 b2 : ℚ) (d : Account) (g : ℚ) (s : Node) (X : Node) :
    ∀ (p : NodePtr), X.deref p = .null →
      graft N2 b2 (p ++ [Link.child]) (graft (.mk d g s .null) b1 p X) =
        graft (.mk (d.updateBalance b2) g s N2) (b1 + b2) p X := by
  induction X with
  | null =>
    intro p _
    cases p with
    | nil => rfl
    | cons l p => cases l <;> rfl
  | mk d1 g1 s1 c1 ih_s ih_c =>
    intro p h
    cases p with
    | nil => simp at h
    | cons l p =>
      cases l with
      | sibling =>
        simp only [Node.deref] at h
        rw [List.cons_append]
        simp only [graft]
        rw [ih_s p h]
      | child =>
        simp only [Node.deref] at h
        rw [List.cons_append]
        simp only [graft]
        rw [ih_c p h, updateBalance_updateBalance]

theorem graft_graft_sibling (N2 : Node) (b1 b2 : ℚ) (d : Account) (g : ℚ) (c : Node)
    (X : Node) : ∀ (p : NodePtr), X.deref p = .null →
      graft N2 b2 (p ++ [Link.sibling]) (graft (.mk d g .null c) b1 p X) =
        graft (.mk d g N2 c) (b1 + b2) p X := by
  induction X with
  | null =>
    intro p _
    cases p with
    | nil => rfl
    | cons l p => cases l <;> rfl
  | mk d1 g1 s1 c1 ih_s ih_c =>
    intro p h
    cases p with
    | nil => simp at h
    | cons l p =>
      cases l with
      | sibling =>
        simp only [Node.deref] at h
        rw [List.cons_append]
        simp only [graft]
        rw [ih_s p h]
      | child =>
        simp only [Node.deref] at h
        rw [List.cons_append]
        simp only [graft]
        rw [ih_c p h, updateBalance_updateBalance]

theorem total_null (w : ℚ → ℚ) : Node.null.total w = 0 := rfl

theorem total_mk (w : ℚ → ℚ) (d : Account) (g : ℚ) (s c : Node) :
    (Node.mk d g s c).total w = w d.balance + c.total w + s.total w := by
  simp [Node.total, Node.ledgers, List.map_map, Function.comp_def, add_assoc]

theorem orderly_pos (F : Node) : F.Orderly → ∀ y ∈ F.numbers, 0 < y := by
  induction F with
  | null => intro _ y hy; simp [Node.numbers] at hy
  | mk d g s c ih_s ih_c =>
    intro h y hy
    obtain ⟨h1, _, _, h5, h6⟩ := h
    simp only [Node.numbers, List.mem_cons, List.mem_append] at hy
    rcases hy with rfl | hy | hy
    · exact h1
    · exact ih_c h6 y hy
    · exact ih_s h5 y hy

theorem firstDigitsKnown_append (A B : List Int) : ∀ (S : List Int),
    firstDigitsKnown S (A ++ B) ↔ firstDigitsKnown S A ∧ firstDigitsKnown (A.reverse ++ S) B := by
  induction A with
  | nil => intro S; simp [firstDigitsKnown]
  | cons a A ih =>
    intro S
    rw [List.cons_append, firstDigitsKnown, firstDigitsKnown, ih (a :: S), List.reverse_cons,
      List.append_assoc, List.singleton_append, and_assoc]

/-- An insertion through `insertTop` whose search runs along `p`, the guard on
the main account passing. -/
theorem insertTop_graft (acc : Account) (X : Node) (p : NodePtr)
    (hr : Routes acc.accountNumber X p)
    (hg : acc.accountNumber ≤ 9 ∨ hitsExact (firstDigit acc.accountNumber) X = true) :
    insertTop acc X = graft (Node.ofAccount acc) acc.balance p X := by
  have hguard : ¬ (acc.accountNumber > 9 ∧
      (searchLoop (firstDigit acc.accountNumber) X [] none []).1.1 = none) := by
    rintro ⟨h9, hnone⟩
    rcases hg with h | h
    · omega
    · obtain ⟨f, _, _, _, _, hf, _⟩ :=
        searchLoop_hitsExact (firstDigit acc.accountNumber) X X [] none [] (by simp) h
      rw [hf] at hnone
      cases hnone
  unfold insertTop
  rw [if_neg hguard]
  cases X with
  | null =>
    cases p with
    | nil => rfl
    | cons l p => simp [Routes] at hr
  | mk d g s c =>
    have hlt : ¬ acc.accountNumber < d.accountNumber := by
      cases p with
      | nil => simp [Routes] at hr
      | cons l p =>
        cases l with
        | sibling => exact hr.2.1
        | child => exact hr.2.2.1
    simp only [if_neg hlt]
    exact insertInto_graft acc _ p Link.sibling hr

/-- The calls `addAccount(number, description, balance)` with positive numbers
leave the tree computed by `insertTop`, call after call. -/
theorem addAccounts_eq_foldl (L : List (Int × String × ℚ)) : ∀ (t : ForestTree),
    (∀ x ∈ L, 0 < x.1) →
    t.addAccounts L =
      .ok ⟨L.foldl (fun r x => insertTop ⟨x.1, x.2.1, x.2.2, []⟩ r) t.root⟩ := by
  induction L with
  | nil => intro t _; rfl
  | cons x L ih =>
    intro t h
    have hx : 0 < x.1 := h x (List.mem_cons_self _ _)
    have hacc : Account.ofParts 0 x.1 x.2.1 x.2.2 = ⟨x.1, x.2.1, x.2.2, []⟩ := by
      unfold Account.ofParts Account.setAccountNumber
      rw [if_neg (by omega)]
    obtain ⟨flag, hflag⟩ := addAccount_eq_insertTop t ⟨x.1, x.2.1, x.2.2, []⟩
    rw [ForestTree.addAccounts, ForestTree.addAccount3, hacc, hflag]
    simp only
    rw [ih _ (fun y hy => h y (List.mem_cons_of_mem _ hy))]
    rfl

/-- Inserting the lines of the dump of an orderly chain `F`, one after the
other, into a tree in which the search for every number of `F` runs along `p`:
the chain is regrown at `p`, and every number of `F` is found exactly
afterwards. -/
theorem foldl_insertTop_dump (w : ℚ → ℚ) (F : Node) : F.Orderly →
    ∀ (X : Node) (p : NodePtr) (S : List Int),
      (∀ y ∈ F.numbers, Routes y X p) → (∀ k ∈ S, hitsExact k X = true) →
      firstDigitsKnown S F.numbers →
      (printTreeRecursive w F).foldl (fun r x => insertTop ⟨x.1, x.2.1, x.2.2, []⟩ r) X =
          graft (Node.regrown w F) (F.total w) p X ∧
        ∀ y ∈ F.numbers, hitsExact y (graft (Node.regrown w F) (F.total w) p X) = true := by
  induction F with
  | null =>
    intro _ X p S _ _ _
    refine ⟨?_, fun y hy => by simp [Node.numbers] at hy⟩
    rw [Node.regrown, total_null, graft_null_zero]
    rfl
  | mk d g s c ih_s ih_c =>
    intro hord X p S hroutes hS hfd
    obtain ⟨hpos, hbelow, hlater, hs, hc⟩ := hord
    have hrd : Routes d.accountNumber X p := hroutes _ (by simp [Node.numbers])
    have hnull : X.deref p = .null := routes_deref_null _ X p hrd
    simp only [Node.numbers] at hfd
    rw [firstDigitsKnown, firstDigitsKnown_append] at hfd
    obtain ⟨hg, hfc, hfs⟩ := hfd
    -- the node itself
    have h1 : insertTop ⟨d.accountNumber, d.description, (w d.balance), []⟩ X =
        graft (.mk ⟨d.accountNumber, d.description, (w d.balance), []⟩ (w d.balance) .null .null)
          (w d.balance) p X :=
      insertTop_graft ⟨d.accountNumber, d.description, (w d.balance), []⟩ X p hrd
        (hg.imp id (fun h => hS _ h))
    have hd1 : hitsExact d.accountNumber
        (graft (.mk ⟨d.accountNumber, d.description, (w d.balance), []⟩ (w d.balance) .null .null)
          (w d.balance) p X) = true :=
      hitsExact_graft_routes _ _ _ (by simp [hitsExact, Account.compAccountNumber]) X p hrd
    -- the ledgers below it
    obtain ⟨h2, hc2⟩ := ih_c hc
      (graft (.mk ⟨d.accountNumber, d.description, (w d.balance), []⟩ (w d.balance) .null .null)
        (w d.balance) p X) (p ++ [Link.child]) (d.accountNumber :: S)
      (fun y hy => routes_graft y
        (.mk ⟨d.accountNumber, d.description, (w d.balance), []⟩ (w d.balance) .null .null) _
        [Link.child]
        (show Routes y (.mk ⟨d.accountNumber, d.description, (w d.balance), []⟩ (w d.balance)
            .null .null) [Link.child] from
          ⟨(hbelow y hy).1, (hbelow y hy).2,
            not_lt.2 (le_of_comp d y hpos (orderly_pos c hc y hy) (hbelow y hy).1), trivial⟩)
        X p (hroutes y (by simp [Node.numbers, hy])))
      (fun k hk => by
        rcases List.mem_cons.1 hk with rfl | hk
        · exact hd1
        · exact hitsExact_graft k _ _ X p (hS k hk))
      hfc
    -- the later siblings
    have hX2 : graft (Node.regrown w c) (c.total w) (p ++ [Link.child])
        (graft (.mk ⟨d.accountNumber, d.description, (w d.balance), []⟩ (w d.balance) .null .null)
          (w d.balance) p X) =
        graft (.mk ⟨d.accountNumber, d.description, (w d.balance) + (c.total w), []⟩ (w d.balance)
          .null (Node.regrown w c)) ((w d.balance) + (c.total w)) p X :=
      graft_graft_child (Node.regrown w c) (w d.balance) (c.total w) _ (w d.balance) .null X p hnull
    obtain ⟨h3, hs3⟩ := ih_s hs
      (graft (.mk ⟨d.accountNumber, d.description, (w d.balance) + (c.total w), []⟩ (w d.balance)
        .null (Node.regrown w c)) ((w d.balance) + (c.total w)) p X) (p ++ [Link.sibling])
      (c.numbers.reverse ++ d.accountNumber :: S)
      (fun y hy => routes_graft y
        (.mk ⟨d.accountNumber, d.description, (w d.balance) + (c.total w), []⟩ (w d.balance)
          .null (Node.regrown w c)) _ [Link.sibling]
        (show Routes y (.mk ⟨d.accountNumber, d.description, (w d.balance) + (c.total w), []⟩
            (w d.balance) .null (Node.regrown w c)) [Link.sibling] from
          ⟨(hlater y hy).1, not_lt.2 (le_of_lt (hlater y hy).2), trivial⟩)
        X p (hroutes y (by simp [Node.numbers, hy])))
      (fun k hk => by
        rw [← hX2]
        rcases List.mem_append.1 hk with hk | hk
        · exact hc2 k (List.mem_reverse.1 hk)
        · rcases List.mem_cons.1 hk with rfl | hk
          · exact hitsExact_graft _ _ _ _ _ hd1
          · exact hitsExact_graft _ _ _ _ _ (hitsExact_graft k _ _ X p (hS k hk)))
      hfs
    have hX3 : graft (Node.regrown w s) (s.total w) (p ++ [Link.sibling])
        (graft (.mk ⟨d.accountNumber, d.description, (w d.balance) + (c.total w), []⟩ (w d.balance)
          .null (Node.regrown w c)) ((w d.balance) + (c.total w)) p X) =
        graft (Node.regrown w (Node.mk d g s c)) ((Node.mk d g s c).total w) p X := by
      rw [graft_graft_sibling (Node.regrown w s) ((w d.balance) + (c.total w)) (s.total w) _
        (w d.balance) (Node.regrown w c) X p hnull, total_mk]
      rfl
    refine ⟨?_, ?_⟩
    · rw [printTreeRecursive, List.foldl_cons, List.foldl_append]
      simp only
      rw [h1, h2, hX2, h3, hX3]
    · intro y hy
      rw [← hX3]
      simp only [Node.numbers, List.mem_cons, List.mem_append] at hy
      rcases hy with rfl | hy | hy
      · apply hitsExact_graft
        rw [← hX2]
        exact hitsExact_graft _ _ _ _ _ hd1
      · apply hitsExact_graft
        rw [← hX2]
        exact hc2 y hy
      · exact hs3 y hy

theorem deref_regrown (w : ℚ → ℚ) (X : Node) :
    ∀ (q : NodePtr), (Node.regrown w X).deref q = Node.regrown w (X.deref q) := by
  induction X with
  | null => intro q; simp [Node.regrown]
  | mk d g s c ih_s ih_c =>
    intro q
    cases q with
    | nil => rfl
    | cons l q =>
      cases l with
      | sibling => simp only [Node.regrown, Node.deref]; exact ih_s q
      | child => simp only [Node.regrown, Node.deref]; exact ih_c q

theorem printTreeRecursive_numbers (w : ℚ → ℚ) (F : Node) :
    (printTreeRecursive w F).map (fun x => x.1) = F.numbers := by
  induction F with
  | null => rfl
  | mk d g s c ih_s ih_c =>
    simp only [printTreeRecursive, Node.numbers, List.map_cons, List.map_append, ih_s, ih_c]

theorem regrown_eq_null_iff (w : ℚ → ℚ) (X : Node) : (Node.regrown w X) = .null ↔ X = .null := by
  cases X <;> simp [Node.regrown]


/-! ## One counting pass is a stable sort by digit -/

theorem bucketsUpTo_pairwise_digit (exp : Int) (ts : List Transaction) (m : Nat) :
    (bucketsUpTo exp ts m).Pairwise (fun a b => digitIdx exp a ≤ digitIdx exp b) := by
  induction m with
  | zero => simp [bucketsUpTo]
  | succ m ih =>
    rw [bucketsUpTo, List.pairwise_append]
    refine ⟨ih, ?_, ?_⟩
    · refine List.pairwise_of_forall_mem_list ?_
      intro a ha b hb
      rw [((mem_bucket exp ts m a).1 ha).2, ((mem_bucket exp ts m b).1 hb).2]
    · intro a ha b hb
      have h1 := ((mem_bucketsUpTo exp ts m a).1 ha).2
      have h2 := ((mem_bucket exp ts m b).1 hb).2
      omega

theorem filter_bucketsUpTo (exp : Int) (ts : List Transaction) (P : Transaction → Bool)
    (j : Nat) (hP : ∀ t ∈ ts, P t = true → digitIdx exp t = j) (m : Nat) :
    (bucketsUpTo exp ts m).filter P = if j < m then ts.filter P else [] := by
  induction m with
  | zero => simp [bucketsUpTo]
  | succ m ih =>
    rw [bucketsUpTo, List.filter_append, ih, bucket, List.filter_filter]
    by_cases hjm : j < m
    · rw [if_pos hjm, if_pos (by omega)]
      have : ts.filter (fun t => P t && decide (digitIdx exp t = m)) = [] := by
        rw [List.filter_eq_nil_iff]
        intro t ht
        simp only [Bool.and_eq_true, decide_eq_true_eq, not_and]
        intro hp
        have := hP t ht hp
        omega
      rw [this, List.append_nil]
    · rw [if_neg hjm, List.nil_append]
      by_cases hj : j = m
      · rw [if_pos (by omega)]
        apply List.filter_congr
        intro t ht
        by_cases hp : P t = true
        · simp [hp, hP t ht hp, hj]
        · simp [hp]
      · rw [if_neg (by omega), List.filter_eq_nil_iff]
        intro t ht
        simp only [Bool.and_eq_true, decide_eq_true_eq, not_and]
        intro hp
        have := hP t ht hp
        omega


/-! ## The passes of the radix loop -/

theorem pos_div_pow_iff : ∀ (i m : Nat), 1 ≤ m →
    (0 < m / 10 ^ i ↔ i < (Nat.toDigits 10 m).length) := by
  intro i
  induction i with
  | zero =>
    intro m hm
    simp only [pow_zero, Nat.div_one]
    exact ⟨fun _ => toDigits_length_pos m, fun _ => by omega⟩
  | succ i ih =>
    intro m hm
    rw [pow_succ', ← Nat.div_div_eq_div_mul]
    by_cases h10 : m < 10
    · rw [Nat.div_eq_of_lt h10, Nat.zero_div, toDigits_small m h10]
      simp
    · rw [toDigits_step m (by omega), ih (m / 10) (by omega)]
      simp

theorem step_overflows_iff (i : Nat) (hi : i ≤ 9) :
    (((10 ^ i : Nat) : Int) * 10 < INT_MIN ∨ INT_MAX < ((10 ^ i : Nat) : Int) * 10) ↔ i = 9 := by
  unfold INT_MIN INT_MAX
  interval_cases i <;> norm_num

/-- The number of passes of the radix loop for the largest id `M`, and what
the loop made in `int` returns: the same records while `M` is below 1000000000,
and a fault from there on. -/
theorem radixLoopTrace_spec (M : Nat) :
    ∀ (fuel i : Nat) (ts : List Transaction), M < 10 ^ (i + fuel) → (∀ t ∈ ts, 0 ≤ t.id) →
      ∃ last sorted,
        radixLoopTrace (M : Int) (fuel + 1) ((10 ^ i : Nat) : Int) ts =
          .ok ((List.range' i ((if M = 0 then 0 else (Nat.toDigits 10 M).length) - i)).map
            (fun j => (10 : Int) ^ j), last, sorted) ∧
        (M < 1000000000 →
          radixLoop (M : Int) (fuel + 1) ((10 ^ i : Nat) : Int) ts = .ok sorted) ∧
        (1000000000 ≤ M → i ≤ 9 →
          radixLoop (M : Int) (fuel + 1) ((10 ^ i : Nat) : Int) ts =
            .error .signedOverflow) := by
  intro fuel
  induction fuel with
  | zero =>
    intro i ts hlt _
    have h0 : M / 10 ^ i = 0 := Nat.div_eq_of_lt (by simpa using hlt)
    have hD : (if M = 0 then 0 else (Nat.toDigits 10 M).length) - i = 0 := by
      by_cases hM : M = 0
      · simp [hM]
      · rw [if_neg hM]
        have := (pos_div_pow_iff i M (by omega)).not.1 (by omega)
        omega
    have hcond : ¬ Int.tdiv (M : Int) ((10 ^ i : Nat) : Int) > 0 := by
      rw [← Int.ofNat_tdiv, h0]
      decide
    refine ⟨((10 ^ i : Nat) : Int), ts, ?_, ?_, ?_⟩
    · rw [radixLoopTrace, if_neg hcond, hD]
      rfl
    · intro _
      rw [radixLoop, if_neg hcond]
    · intro hbig hi
      have h1 : 10 ^ i ≤ 10 ^ 9 := Nat.pow_le_pow_right (by decide) hi
      have h2 : M < 10 ^ i := by simpa using hlt
      omega
  | succ fuel ih =>
    intro i ts hlt hids
    by_cases hpass : 0 < M / 10 ^ i
    · have hM : ¬ M = 0 := by
        intro h
        rw [h, Nat.zero_div] at hpass
        exact absurd hpass (by decide)
      have hiD : i < (Nat.toDigits 10 M).length := (pos_div_pow_iff i M (by omega)).1 hpass
      have hcond : Int.tdiv (M : Int) ((10 ^ i : Nat) : Int) > 0 := by
        rw [← Int.ofNat_tdiv]
        exact_mod_cast hpass
      have hexp : (0 : Int) < ((10 ^ i : Nat) : Int) := by
        have : 0 < 10 ^ i := Nat.pos_pow_of_pos i (by decide)
        exact_mod_cast this
      have hsort := countingSortByDigit_eq _ hexp ts hids
      have hnext : ((10 ^ i : Nat) : Int) * 10 = ((10 ^ (i + 1) : Nat) : Int) := by
        push_cast
        rw [pow_succ]
      obtain ⟨last, sorted, h1, h2, h3⟩ := ih (i + 1) (stableByDigit _ ts)
        (by rw [show i + 1 + fuel = i + (fuel + 1) by omega]; exact hlt)
        (fun t ht => hids t ((stableByDigit_perm _ hexp ts hids).subset ht))
      refine ⟨last, sorted, ?_, ?_, ?_⟩
      · rw [radixLoopTrace, if_pos hcond, hsort]
        simp only
        rw [hnext, h1]
        simp only [Except.map, if_neg hM, Prod.mk.injEq, and_true, Except.ok.injEq]
        have hsplit : (Nat.toDigits 10 M).length - i =
            ((Nat.toDigits 10 M).length - (i + 1)) + 1 := by omega
        rw [hsplit, List.range'_succ, List.map_cons]
        push_cast
        rfl
      · intro hsmall
        rw [radixLoop, if_pos hcond, hsort]
        simp only
        rw [if_neg (exp_step_in_range (M : Int) (Int.ofNat_nonneg M) (by exact_mod_cast hsmall)
          i hcond), hnext, h2 hsmall]
      · intro hbig hi
        rw [radixLoop, if_pos hcond, hsort]
        simp only
        by_cases h9 : i = 9
        · rw [if_pos ((step_overflows_iff i hi).2 h9)]
        · rw [if_neg (fun h => h9 ((step_overflows_iff i hi).1 h)), hnext,
            h3 hbig (by omega)]
    · have hD : (if M = 0 then 0 else (Nat.toDigits 10 M).length) - i = 0 := by
        by_cases hM : M = 0
        · simp [hM]
        · rw [if_neg hM]
          have := (pos_div_pow_iff i M (by omega)).not.1 hpass
          omega
      have hcond : ¬ Int.tdiv (M : Int) ((10 ^ i : Nat) : Int) > 0 := by
        rw [← Int.ofNat_tdiv]
        intro h
        exact hpass (by exact_mod_cast h)
      refine ⟨((10 ^ i : Nat) : Int), ts, ?_, ?_, ?_⟩
      · rw [radixLoopTrace, if_neg hcond, hD]
        rfl
      · intro _
        rw [radixLoop, if_neg hcond]
      · intro hbig hi
        have h1 : 10 ^ i ≤ 10 ^ 9 := Nat.pow_le_pow_right (by decide) hi
        have h2 : 0 < 10 ^ i := Nat.pos_pow_of_pos i (by decide)
        exact absurd (Nat.div_pos (by omega) h2) hpass

theorem foldl_max_mem (ts : List Transaction) : ∀ (m : Int),
    ts.foldl (fun m t => max m t.id) m = m ∨
      ∃ t ∈ ts, t.id = ts.foldl (fun m t => max m t.id) m := by
  induction ts with
  | nil => intro m; exact Or.inl rfl
  | cons x rest ih =>
    intro m
    rw [List.foldl_cons]
    rcases ih (max m x.id) with h | ⟨t, ht, hid⟩
    · rw [h]
      rcases max_cases m x.id with ⟨h1, _⟩ | ⟨h1, _⟩
      · exact Or.inl h1
      · exact Or.inr ⟨x, List.mem_cons_self _ _, h1.symm⟩
    · exact Or.inr ⟨t, List.mem_cons_of_mem _ ht, hid⟩

/-- For records with non-negative ids, `maxId` is the largest id present. -/
theorem maxIdOf_mem (ts : List Transaction) (hids : ∀ t ∈ ts, 0 ≤ t.id) (hne : ts ≠ []) :
    ∃ t ∈ ts, t.id = maxIdOf ts := by
  rcases foldl_max_mem ts 0 with h | h
  · cases ts with
    | nil => exact absurd rfl hne
    | cons x rest =>
      refine ⟨x, List.mem_cons_self _ _, ?_⟩
      have h1 := le_maxIdOf (x :: rest) x (List.mem_cons_self _ _)
      have h2 := hids x (List.mem_cons_self _ _)
      have h3 : maxIdOf (x :: rest) = 0 := h
      omega
  · exact h


/-! ## The preceding node of the search -/

/-- The pointer `behind` returned by the search loop: it is the one the loop
was entered with only if the loop ended at its first node (or had no node);
otherwise it points to a node. -/
theorem searchLoop_behind (n : Int) (R : Node) (node : Node) :
    ∀ (cur : NodePtr) (behind : Option NodePtr) (tracked0 : List NodePtr),
      R.deref cur = node →
      ((searchLoop n node cur behind tracked0).1.2 = behind ∧
          (node = .null ∨ (searchLoop n node cur behind tracked0).1.1 = some cur)) ∨
        ∃ b, (searchLoop n node cur behind tracked0).1.2 = some b ∧ R.deref b ≠ .null := by
  induction node with
  | null => intro cur behind tracked0 _; exact Or.inl ⟨rfl, Or.inl rfl⟩
  | mk d g s c ih_s ih_c =>
    intro cur behind tracked0 hcur
    have hcur1 : R.deref cur ≠ .null := by rw [hcur]; simp
    rw [searchLoop]
    by_cases hcomp : d.compAccountNumber n = true
    · rw [if_pos hcomp]
      by_cases heq : n = d.accountNumber
      · rw [if_pos heq]; exact Or.inl ⟨rfl, Or.inr rfl⟩
      · rw [if_neg heq]
        by_cases hc : c = .null
        · rw [if_pos hc]; exact Or.inl ⟨rfl, Or.inr rfl⟩
        · rw [if_neg hc]
          rcases ih_c (cur ++ [Link.child]) (some cur) (tracked0 ++ [cur])
            (by rw [Node.deref_append, hcur]; simp [Node.deref]) with ⟨h, _⟩ | h
          · exact Or.inr ⟨cur, h, hcur1⟩
          · exact Or.inr h
    · rw [if_neg hcomp]
      by_cases hlt : n < d.accountNumber
      · rw [if_pos hlt]; exact Or.inl ⟨rfl, Or.inr rfl⟩
      · rw [if_neg hlt]
        rcases ih_s (cur ++ [Link.sibling]) (some cur) tracked0
          (by rw [Node.deref_append, hcur]; simp [Node.deref]) with ⟨h, _⟩ | h
        · exact Or.inr ⟨cur, h, hcur1⟩
        · exact Or.inr h


/-! ## The nodes before and after an insertion -/

theorem seedPropagated_of_true (t : ForestTree) (acc : Account) (t1 : ForestTree)
    (hpos : 0 < acc.accountNumber) (hadd : t.addAccount acc = .ok (true, t1)) :
    SeedPropagated t acc t1 := by
  obtain ⟨ht, hguard, hhit⟩ := addAccount_true t acc t1 hadd
  subst ht
  unfold SeedPropagated
  simp only
  unfold insertTop
  rw [if_neg hguard]
  cases hroot : t.root with
  | null =>
    refine ⟨[], by simp [Node.ofAccount, Node.account?], ?_⟩
    simp [Node.ofAccount, Node.ledgers]
  | mk d g s c =>
    simp only
    by_cases hlt : acc.accountNumber < d.accountNumber
    · rw [if_pos hlt]
      exact credited_in_front acc acc.balance (.mk d g s c)
        ((Node.mk d g s c).ledgers.map (fun x => (Link.sibling :: x.1, x.2)))
        (map_snd_ledgers_lift _ _) _
        (by simp [Node.ledgers, Node.ofAccount, Node.setSibling])
        (by simp [Node.ofAccount, Node.setSibling, Node.account?])
        (fun x hx => by
          obtain ⟨y, _, rfl⟩ := List.mem_map.1 hx
          simp)
    · rw [if_neg hlt]
      exact insertInto_ledgers acc hpos (.mk d g s c) Link.sibling
        (by rw [← hroot]; exact hhit d g s c hroot hlt)

theorem sameIdentity_of_credited (b : ℚ) (pNew : NodePtr) (old new : NodePtr × Account)
    (h : Credited b pNew old new) : SameIdentity old new := by
  unfold Credited at h
  unfold SameIdentity
  rw [h]
  split <;> simp [Account.updateBalance]

/-- The ledgers after a change of the account at one address. -/
theorem ledgers_modify_mapData (h : Account → Account) (R : Node) : ∀ (p : NodePtr),
    (R.modify (Node.mapData h) p).ledgers =
      R.ledgers.map (fun x => (x.1, if x.1 = p then h x.2 else x.2)) := by
  induction R with
  | null =>
    intro p
    cases p with
    | nil => rfl
    | cons l p => rfl
  | mk d g s c ih_s ih_c =>
    intro p
    cases p with
    | nil =>
      simp [Node.modify, Node.mapData, Node.ledgers, List.map_map, Function.comp_def]
    | cons l p =>
      cases l with
      | sibling =>
        simp [Node.modify, Node.ledgers, List.map_map, Function.comp_def, ih_s p]
      | child =>
        simp [Node.modify, Node.ledgers, List.map_map, Function.comp_def, ih_c p]

theorem forall₂_sameIdentity_trans {L1 L2 : List (NodePtr × Account)}
    (h1 : List.Forall₂ SameIdentity L1 L2) :
    ∀ {L3 : List (NodePtr × Account)}, List.Forall₂ SameIdentity L2 L3 →
      List.Forall₂ SameIdentity L1 L3 := by
  induction h1 with
  | nil => intro L3 h2; cases h2; exact List.Forall₂.nil
  | cons hab _ ih =>
    intro L3 h2
    cases h2 with
    | cons hbc hrest =>
      exact List.Forall₂.cons
        ⟨hbc.1.trans hab.1, hbc.2.1.trans hab.2.1, hbc.2.2.trans hab.2.2⟩ (ih hrest)

theorem sameNodes_trans (t t1 t2 : ForestTree) (h1 : SameNodes t t1) (h2 : SameNodes t1 t2) :
    SameNodes t t2 :=
  ⟨h2.1.trans h1.1, forall₂_sameIdentity_trans h1.2 h2.2⟩

theorem sameNodes_updateTracked (b : ℚ) (tracked : List NodePtr) : ∀ (R : Node),
    SameNodes ⟨R⟩ ⟨updateTracked b tracked R⟩ := by
  induction tracked with
  | nil =>
    intro R
    exact ⟨rfl, List.forall₂_same.2 (fun x _ => ⟨rfl, rfl, rfl⟩)⟩
  | cons p l ih =>
    intro R
    rw [updateTracked_cons]
    refine sameNodes_trans _ ⟨R.modify (Node.updateBalance b) p⟩ _ ?_ (ih _)
    rw [Node.updateBalance_eq_mapData]
    constructor
    · simp only [ledgers_modify_mapData, List.map_map, Function.comp_def]
    · simp only [ledgers_modify_mapData]
      rw [List.forall₂_map_right_iff]
      refine List.forall₂_same.2 (fun x _ => ?_)
      unfold SameIdentity
      simp only
      split <;> simp [Account.updateBalance]

theorem map_true_ne_false (x : Except Fault Node) (r : Node) :
    x.map (fun r => (true, r)) ≠ .ok (false, r) := by
  cases x <;> simp [Except.map]

theorem linkNewNode_false (acc : Account) (root1 : Node)
    (res : Option NodePtr × Option NodePtr) (r : Node)
    (h : linkNewNode acc root1 res = .ok (false, r)) : r = root1 := by
  unfold linkNewNode at h
  simp only at h
  split at h
  · split at h
    · cases h
    · split at h
      · injection h with h
        injection h with _ h
        exact h.symm
      · split at h
        · injection h with h
          injection h with h _
          cases h
        · split at h
          · split at h
            · cases h
            · split at h
              · exact absurd h (map_true_ne_false _ _)
              · split at h
                · exact absurd h (map_true_ne_false _ _)
                · exact absurd h (map_true_ne_false _ _)
          · injection h with h
            injection h with h _
            cases h
  · exact absurd h (map_true_ne_false _ _)

/-- When `addAccount` returns false, the tree is the one before, or the one
before with the balance of `acc` added along the tracked path. -/
theorem addAccount_false (t : ForestTree) (acc : Account) (t1 : ForestTree)
    (h : t.addAccount acc = .ok (false, t1)) :
    t1 = t ∨ t1 = ⟨updateTracked acc.balance
      (t.searchAccountWithTracking acc.accountNumber).2 t.root⟩ := by
  unfold ForestTree.addAccount at h
  simp only at h
  split at h
  · injection h with h
    injection h with _ h
    exact Or.inl h.symm
  · split at h
    · injection h with h
      injection h with h _
      cases h
    · split at h
      · injection h with h
        injection h with h _
        cases h
      · right
        cases hl : linkNewNode acc (updateTracked acc.balance
            (t.searchAccountWithTracking acc.accountNumber).2 t.root)
            (t.searchAccountWithTracking acc.accountNumber).1 with
        | error e => rw [hl] at h; simp [Except.map] at h
        | ok r =>
          rw [hl] at h
          simp only [Except.map, Except.ok.injEq, Prod.mk.injEq] at h
          obtain ⟨hflag, ht1⟩ := h
          have hr : linkNewNode acc (updateTracked acc.balance
              (t.searchAccountWithTracking acc.accountNumber).2 t.root)
              (t.searchAccountWithTracking acc.accountNumber).1 = .ok (false, r.2) := by
            rw [hl, ← hflag]
          rw [← ht1, linkNewNode_false _ _ _ _ hr]


/-! ## The claims -/

set_option maxRecDepth 10000

/-- C1, the code at a failing input: `addAccount(1, "Assets", 1000)`,
`addAccount(10, "Cash", 500)` and a second, refused `addAccount(10, "Cash", 500)`
leave account 1 with balance 2000, while its seed 1000 plus the seed 500 of its
only descendant is 1500: the hierarchy reached is not balance consistent. -/
theorem C1_balance_inconsistent_after_refused_insert :
    (∀ c ∈ [Call.addAccount 1 "Assets" 1000, Call.addAccount 10 "Cash" 500,
        Call.addAccount 10 "Cash" 500], c.Admissible) ∧
    ∃ t, ForestTree.empty.calls [Call.addAccount 1 "Assets" 1000,
        Call.addAccount 10 "Cash" 500, Call.addAccount 10 "Cash" 500] = .ok t ∧
      t.root.account? = some ⟨1, "Assets", 2000, []⟩ ∧ ¬ BalanceConsistent t.root := by
  refine ⟨by simp [Call.Admissible], ?_⟩
  refine ⟨⟨.mk ⟨1, "Assets", 2000, []⟩ 1000 .null (leaf 10 "Cash" 500 500)⟩, ?_, rfl, ?_⟩
  · with_unfolding_all decide
  · intro h
    have h1 := h [] _ _ _ _ rfl
    revert h1
    with_unfolding_all decide

/-- C2, the code at a failing input: after `addAccount` of 1, 123, 12 and 123
again, all with positive numbers, the hierarchy stores two nodes numbered 123
(the last call returns true). -/
theorem C2_number_stored_twice :
    ∃ t1 t2, ForestTree.empty.addAccounts [(1, "a", 0), (123, "b", 0), (12, "c", 0)] = .ok t1 ∧
      t1.addAccount3 123 "d" 0 = .ok (true, t2) ∧
      t2.root.numbers = [1, 12, 123, 123] ∧ ¬ t2.root.numbers.Nodup := by
  refine ⟨⟨.mk ⟨1, "a", 0, []⟩ 0 .null
      (.mk ⟨12, "c", 0, []⟩ 0 (leaf 123 "b" 0 0) .null)⟩,
    ⟨.mk ⟨1, "a", 0, []⟩ 0 .null
      (.mk ⟨12, "c", 0, []⟩ 0 (leaf 123 "b" 0 0) (leaf 123 "d" 0 0))⟩, ?_, ?_, ?_, ?_⟩
  · with_unfolding_all decide
  · with_unfolding_all decide
  · rfl
  · decide

/-- C3, the code at a failing input: in the hierarchy 1 → 10 (balances 1500
and 500) tracked search finds 10 exactly, and `addAccount(10, "Cash", 500)`
returns false, yet the balance of the ancestor 1 has gone from 1500 to 2000. -/
theorem C3_refused_insert_changes_ancestor_balance :
    (ForestTree.mk (.mk ⟨1, "Assets", 1500, []⟩ 1000 .null (leaf 10 "Cash" 500 500))).exactMatch 10
        = true ∧
    (ForestTree.mk (.mk ⟨1, "Assets", 1500, []⟩ 1000 .null
        (leaf 10 "Cash" 500 500))).addAccount3 10 "Cash" 500 =
      .ok (false, ⟨.mk ⟨1, "Assets", 2000, []⟩ 1000 .null (leaf 10 "Cash" 500 500)⟩) := by
  constructor
  · decide
  · with_unfolding_all decide

/-- C4, the code at a failing input: the hierarchy holds the single top-level
ledger 5; 12 is above 9 and its leading digit 1 is no top-level number, yet
`addAccount(12, "Twelve", 7)` returns true and stores 12 as a sibling of 5. -/
theorem C4_insert_without_parent_category :
    (9 : Int) < 12 ∧ firstDigit 12 = 1 ∧ (1 : Int) ∉ (leaf 5 "Five" 0 0).chain ∧
    (ForestTree.mk (leaf 5 "Five" 0 0)).addAccount3 12 "Twelve" 7 =
      .ok (true, ⟨.mk ⟨5, "Five", 0, []⟩ 0 (leaf 12 "Twelve" 7 7) .null⟩) := by
  refine ⟨by decide, by decide, by decide, ?_⟩
  with_unfolding_all decide

/-- C5, the code at a failing input: after `addAccount` of 1, 12, 140 and 13
the node 13 has the child 140, although "13" is no prefix of "140". -/
theorem C5_child_not_prefixed :
    ∃ t, ForestTree.empty.addAccounts [(1, "a", 0), (12, "b", 0), (140, "c", 0), (13, "d", 0)]
        = .ok t ∧
      t.root.deref [Link.child, Link.sibling] = .mk ⟨13, "d", 0, []⟩ 0 .null (leaf 140 "c" 0 0) ∧
      ¬ ChildrenPrefixed t.root := by
  refine ⟨⟨.mk ⟨1, "a", 0, []⟩ 0 .null
      (.mk ⟨12, "b", 0, []⟩ 0 (.mk ⟨13, "d", 0, []⟩ 0 .null (leaf 140 "c" 0 0)) .null)⟩,
    ?_, rfl, ?_⟩
  · with_unfolding_all decide
  · intro h
    have h1 := h [Link.child, Link.sibling] _ _ _ _ rfl 140 (by decide)
    revert h1
    decide

/-- C6, the code at a failing input: after `addAccount` of 5, 45 and 6 the
node 45 is the child of 6, its only structural ancestor, and "6" is no prefix
of "45". -/
theorem C6_no_prefix_ancestor :
    ∃ t, ForestTree.empty.addAccounts [(5, "a", 0), (45, "b", 0), (6, "c", 0)] = .ok t ∧
      t.root.ancestors [Link.sibling, Link.child] = [6] ∧
      (t.root.deref [Link.sibling, Link.child]).account? = some ⟨45, "b", 0, []⟩ ∧
      ¬ PrefixInvariant t.root := by
  refine ⟨⟨.mk ⟨5, "a", 0, []⟩ 0
      (.mk ⟨6, "c", 0, []⟩ 0 .null (leaf 45 "b" 0 0)) .null⟩, ?_, rfl, rfl, ?_⟩
  · with_unfolding_all decide
  · intro h
    have h1 := h [Link.sibling, Link.child] _ _ _ _ rfl (by decide)
    revert h1
    decide

/-- C7: after any sequence of `addAccount` calls with positive numbers,
starting from the empty hierarchy, no call faults and every sibling chain (the
top-level chain and the chain of children of every node) is strictly
ascending by account number. -/
theorem C7_sibling_chains_ascending (calls : List (Int × String × ℚ))
    (_hpos : ∀ x ∈ calls, 0 < x.1) :
    ∃ t, ForestTree.empty.addAccounts calls = .ok t ∧ ChainsAscending t.root := by
  obtain ⟨t, ht, hasc⟩ := addAccounts_ascending calls ForestTree.empty trivial
  exact ⟨t, ht, chainsAscending_of_ascending t.root hasc⟩

/-- C7 at the calls 1, 10, 1011, 100 and 12. -/
theorem C7_sibling_chains_ascending_witness :
    (∀ x ∈ [((1 : Int), "Assets", (1000 : ℚ)), (10, "Cash", 500), (1011, "Cash A", 100),
        (100, "Bank", 5), (12, "Stock", 7)], 0 < x.1) ∧
    ∃ t, ForestTree.empty.addAccounts [((1 : Int), "Assets", (1000 : ℚ)), (10, "Cash", 500),
        (1011, "Cash A", 100), (100, "Bank", 5), (12, "Stock", 7)] = .ok t ∧
      ChainsAscending t.root :=
  ⟨by decide, C7_sibling_chains_ascending _ (by decide)⟩

/-- C8, the code at a failing input: `addAccount(123)` returns true in the
hierarchy holding 1; after the later `addAccount(12)` tracked search for 123
no longer ends in an exact match (it stops at 12). -/
theorem C8_inserted_account_lost :
    ∃ t0 t1 t2, ForestTree.empty.addAccounts [(1, "a", 0)] = .ok t0 ∧
      t0.addAccount3 123 "b" 0 = .ok (true, t1) ∧
      t1.addAccounts [(12, "c", 0)] = .ok t2 ∧
      (t2.searchAccountWithTracking 123).1.1 = some [Link.child] ∧
      (t2.root.deref [Link.child]).account? = some ⟨12, "c", 0, []⟩ ∧
      t2.exactMatch 123 = false := by
  refine ⟨⟨leaf 1 "a" 0 0⟩, ⟨.mk ⟨1, "a", 0, []⟩ 0 .null (leaf 123 "b" 0 0)⟩,
    ⟨.mk ⟨1, "a", 0, []⟩ 0 .null (.mk ⟨12, "c", 0, []⟩ 0 (leaf 123 "b" 0 0) .null)⟩,
    ?_, ?_, ?_, ?_, rfl, ?_⟩
  · with_unfolding_all decide
  · with_unfolding_all decide
  · with_unfolding_all decide
  · decide
  · decide

/-- C9: from the empty hierarchy, `addAccount(1, "Assets", 1000)`,
`addAccount(10, "Cash", 500)` and `addAccount(1011, "Cash A", 100)` all return
true, and give root 1 (balance 1600) with the only child 10 (balance 600) with
the only child 1011 (balance 100), no node having a sibling. -/
theorem C9_build_scenario :
    ForestTree.empty.addAccount3 1 "Assets" 1000 = .ok (true, ⟨leaf 1 "Assets" 1000 1000⟩) ∧
    (ForestTree.mk (leaf 1 "Assets" 1000 1000)).addAccount3 10 "Cash" 500 =
      .ok (true, ⟨.mk ⟨1, "Assets", 1500, []⟩ 1000 .null (leaf 10 "Cash" 500 500)⟩) ∧
    (ForestTree.mk (.mk ⟨1, "Assets", 1500, []⟩ 1000 .null
        (leaf 10 "Cash" 500 500))).addAccount3 1011 "Cash A" 100 =
      .ok (true, ⟨.mk ⟨1, "Assets", 1600, []⟩ 1000 .null
        (.mk ⟨10, "Cash", 600, []⟩ 500 .null (leaf 1011 "Cash A" 100 100))⟩) := by
  refine ⟨?_, ?_, ?_⟩ <;> with_unfolding_all decide

/-- C10, the claim as stated fails. Account 10 of the tree 1 → 10 holds the
record 7; after `Transaction(-5)` has been added to it, account 10 is still
found exactly and holds no record with the id 3, and adding the debit record
with the fresh id 3 makes `countingSortByDigit` index `count` with the
digit -5. -/
theorem C10_fault_on_negative_stored_id :
    ∃ t1, cashTree.addAcountTransaction 10 (Transaction.ofId (-5)) = .ok t1 ∧
      t1.exactMatch 10 = true ∧
      (∃ d, (t1.root.deref [Link.child]).account? = some d ∧ d.accountNumber = 10 ∧
        ∀ x ∈ d.transactions, x.id ≠ 3) ∧
      t1.addAcountTransaction 10 ⟨3, 10, 'D'⟩ = .error .outOfBounds := by
  refine ⟨⟨.mk ⟨1, "Assets", 1600, []⟩ 1000 .null
      (.mk ⟨10, "Cash", 600, [⟨7, 100, 'D'⟩, ⟨-5, 0, 'D'⟩]⟩ 500 .null .null)⟩,
    ?_, ?_, ⟨⟨10, "Cash", 600, [⟨7, 100, 'D'⟩, ⟨-5, 0, 'D'⟩]⟩, ?_, ?_, ?_⟩, ?_⟩ <;>
  with_unfolding_all decide

/-- C10, as amended: in a hierarchy where tracked search finds account `n`
exactly and the records stored in account `n` have ids from 0 to 999999999,
adding a record of kind `'D'` or `'C'` with a fresh id through `addAcountTransaction`
does not fault, keeps the node structure, puts the record into account `n`
(whose records are otherwise only reordered), changes the balance of
account `n` and of every tracked ledger by exactly the signed amount, and
leaves every other ledger as it was. -/
theorem C10_add_transaction_propagates (t : ForestTree) (n : Int) (r : Transaction)
    (found : NodePtr) (d : Account) (g : ℚ) (s c : Node)
    (hfound : (t.searchAccountWithTracking n).1.1 = some found)
    (hnode : t.root.deref found = .mk d g s c) (hexact : d.accountNumber = n)
    (hkind : r.type = 'D' ∨ r.type = 'C')
    (hfresh : ∀ x ∈ d.transactions, x.id ≠ r.id)
    (hids : ∀ x ∈ d.transactions, 0 ≤ x.id)
    (hbig : ∀ x ∈ d.transactions, x.id < 1000000000) :
    ∃ t1, t.addAcountTransaction n r = .ok t1 ∧ TransactionAdded t n r found d t1 := by
  obtain ⟨hnd, htr⟩ := tracked_spec t n
  obtain ⟨d1, hadd, hperm, hbal, hnum, hdesc⟩ := addTransaction_fresh d r hids hbig hfresh hkind
  have hnotin : found ∉ (t.searchAccountWithTracking n).2 := by
    intro hin
    obtain ⟨d', g', s', c', hd', hne⟩ := htr found hin
    rw [hnode] at hd'
    injection hd' with h1
    exact hne (h1 ▸ hexact)
  have hamt : r.amount * (if r.type = 'D' then 1 else -1) = signedAmount r := by
    rcases hkind with h | h <;> simp [signedAmount, h]
  have hmod : t.root.modify (fun _ => Node.mk d1 g s c) found =
      t.root.modify (Node.mapData (fun _ => d1)) found := by
    apply Node.modify_congr
    rw [hnode]; rfl
  refine ⟨⟨updateTracked (signedAmount r) (t.searchAccountWithTracking n).2
      (t.root.modify (Node.mapData (fun _ => d1)) found)⟩, ?_, ?_, hnotin, ?_, ?_, ?_⟩
  · unfold ForestTree.addAcountTransaction
    simp only [hfound, hnode, hexact, ne_eq, not_true_eq_false, if_false, hadd, hamt, hmod]
  · intro q
    rw [deref_updateTracked_null_iff, Node.deref_mapData_null_iff]
  · refine ⟨d1, ?_, hperm, hbal, hnum, hdesc⟩
    rw [account_deref_updateTracked _ _ hnd, if_neg hnotin, Node.account_deref_mapData,
      if_pos rfl, hnode]
    rfl
  · intro q hq
    obtain ⟨d', g', s', c', hd', _⟩ := htr q hq
    have hqf : q ≠ found := fun h => hnotin (h ▸ hq)
    refine ⟨d', by rw [hd']; rfl, ?_⟩
    rw [account_deref_updateTracked _ _ hnd, if_pos hq, Node.account_deref_mapData,
      if_neg hqf, hd']
    rfl
  · intro q hqf hq
    rw [account_deref_updateTracked _ _ hnd, if_neg hq, Node.account_deref_mapData,
      if_neg hqf]

/-- C10 at the scenario of the claim: the debit record with id 1 and amount 50
added to account 1011 of the tree 1 → 10 → 1011 gives the balances 150, 650
and 1650. -/
theorem C10_add_transaction_propagates_witness :
    ((scenarioTree.searchAccountWithTracking 1011).1.1 = some [Link.child, Link.child] ∧
      scenarioTree.addAcountTransaction 1011 ⟨1, 50, 'D'⟩ = .ok ⟨.mk ⟨1, "Assets", 1650, []⟩ 1000
        .null (.mk ⟨10, "Cash", 650, []⟩ 500 .null
          (.mk ⟨1011, "Cash A", 150, [⟨1, 50, 'D'⟩]⟩ 100 .null .null))⟩) ∧
    ∃ t1, scenarioTree.addAcountTransaction 1011 ⟨1, 50, 'D'⟩ = .ok t1 ∧
      TransactionAdded scenarioTree 1011 ⟨1, 50, 'D'⟩ [Link.child, Link.child]
        ⟨1011, "Cash A", 100, []⟩ t1 :=
  ⟨⟨by decide, by with_unfolding_all decide⟩,
    C10_add_transaction_propagates scenarioTree 1011 ⟨1, 50, 'D'⟩ [Link.child, Link.child]
      ⟨1011, "Cash A", 100, []⟩ 100 .null .null (by decide) (by decide) rfl
      (Or.inl rfl) (by simp) (by simp) (by simp)⟩

/-- C11, the claim as stated fails. In the tree 1 → 10 → 1011 the debit record
with id -1 and amount 50 is added to 1011 and removed again: the record
returned by `Account::removeTransaction` has the id -1 of the record "not
found", so the ancestors keep 650 and 1650 instead of 600 and 1600. In the
tree 1 → 10 with the record 7 stored in 10, the record `Transaction(-5)` with
the fresh id -5 is added, and removing it makes `countingSortByDigit` index
`count` with the digit -5. -/
theorem C11_remove_does_not_undo_add :
    (scenarioTree.exactMatch 1011 = true ∧
      ∃ t1, scenarioTree.addAcountTransaction 1011 ⟨-1, 50, 'D'⟩ = .ok t1 ∧
        t1.removeAccountTransaction 1011 (-1) = .ok ⟨.mk ⟨1, "Assets", 1650, []⟩ 1000 .null
          (.mk ⟨10, "Cash", 650, []⟩ 500 .null (leaf 1011 "Cash A" 100 100))⟩) ∧
    (cashTree.exactMatch 10 = true ∧ (∀ x ∈ [(⟨7, 100, 'D'⟩ : Transaction)], x.id ≠ -5) ∧
      ∃ t1, cashTree.addAcountTransaction 10 (Transaction.ofId (-5)) = .ok t1 ∧
        t1.removeAccountTransaction 10 (-5) = .error .outOfBounds) := by
  refine ⟨⟨by decide, ⟨.mk ⟨1, "Assets", 1650, []⟩ 1000 .null
      (.mk ⟨10, "Cash", 650, []⟩ 500 .null
        (.mk ⟨1011, "Cash A", 150, [⟨-1, 50, 'D'⟩]⟩ 100 .null .null))⟩, ?_, ?_⟩,
    ⟨by decide, by decide, ⟨.mk ⟨1, "Assets", 1600, []⟩ 1000 .null
      (.mk ⟨10, "Cash", 600, [⟨7, 100, 'D'⟩, ⟨-5, 0, 'D'⟩]⟩ 500 .null .null)⟩, ?_, ?_⟩⟩ <;>
  with_unfolding_all decide

/-- C11, as amended: in a hierarchy where tracked search finds account `n`
exactly and the records stored in account `n` have ids from 0 to 999999999,
for a record of kind `'D'` or `'C'` with a fresh id from 0 to 999999999,
`addAcountTransaction` followed by `removeAccountTransaction` of that id does
not fault and restores the balance of every ledger and the records of every
ledger; only the order of the records of account `n` may differ. -/
theorem C11_remove_undoes_add (t : ForestTree) (n : Int) (r : Transaction)
    (found : NodePtr) (d : Account) (g : ℚ) (s c : Node)
    (hfound : (t.searchAccountWithTracking n).1.1 = some found)
    (hnode : t.root.deref found = .mk d g s c) (hexact : d.accountNumber = n)
    (hkind : r.type = 'D' ∨ r.type = 'C')
    (hfresh : ∀ x ∈ d.transactions, x.id ≠ r.id)
    (hids : ∀ x ∈ d.transactions, 0 ≤ x.id)
    (hbig : ∀ x ∈ d.transactions, x.id < 1000000000)
    (hrid : 0 ≤ r.id) (hrbig : r.id < 1000000000) :
    ∃ t1 t2, t.addAcountTransaction n r = .ok t1 ∧
      t1.removeAccountTransaction n r.id = .ok t2 ∧ TransactionUndone t found d t2 := by
  obtain ⟨hnd, htr⟩ := tracked_spec t n
  obtain ⟨d1, d2, hadd, hnum1, hrem, hnum2, hdesc2, hbal2, hperm2⟩ :=
    add_then_remove d r hids hbig hfresh hrid hrbig hkind
  have hnotin : found ∉ (t.searchAccountWithTracking n).2 := by
    intro hin
    obtain ⟨d', g', s', c', hd', hne⟩ := htr found hin
    rw [hnode] at hd'
    injection hd' with h1
    exact hne (h1 ▸ hexact)
  have hamt1 : r.amount * (if r.type = 'D' then 1 else -1) = signedAmount r := by
    rcases hkind with h | h <;> simp [signedAmount, h]
  have hamt2 : r.amount * (if r.type = 'C' then 1 else -1) = - signedAmount r := by
    rcases hkind with h | h <;> simp [signedAmount, h]
  -- the tree after the add
  have hadd' : t.addAcountTransaction n r = .ok ⟨updateTracked (signedAmount r)
      (t.searchAccountWithTracking n).2 (t.root.modify
        (Node.mapData (fun a => { d1 with accountNumber := a.accountNumber })) found)⟩ := by
    rw [addAcountTransaction_eq t n r found d d1 g s c hfound hnode hexact hadd, hamt1,
      modify_const_eq_mapData t.root found d d1 g s c hnode hnum1]
  -- the search sees the same tree after the add
  have hsearch : (ForestTree.mk (updateTracked (signedAmount r)
      (t.searchAccountWithTracking n).2 (t.root.modify
        (Node.mapData (fun a => { d1 with accountNumber := a.accountNumber }))
          found))).searchAccountWithTracking n = t.searchAccountWithTracking n := by
    unfold ForestTree.searchAccountWithTracking
    simp only
    rw [searchLoop_updateTracked]
    exact searchLoop_mapData (fun a => { d1 with accountNumber := a.accountNumber })
      (fun _ => rfl) n t.root found [] none []
  have hacc1 : ((updateTracked (signedAmount r) (t.searchAccountWithTracking n).2
      (t.root.modify (Node.mapData (fun a => { d1 with accountNumber := a.accountNumber }))
        found)).deref found).account? = some d1 := by
    rw [account_deref_updateTracked _ _ hnd, if_neg hnotin, Node.account_deref_mapData,
      if_pos rfl, hnode]
    simp only [Node.account?, Option.map_some']
    rw [← hnum1]
  obtain ⟨g1, s1, c1, hnode1⟩ := account_some_deref _ _ _ hacc1
  have hrne : ¬ r.id = -1 := by omega
  have hrem' := removeAccountTransaction_eq (ForestTree.mk (updateTracked (signedAmount r)
      (t.searchAccountWithTracking n).2 (t.root.modify
        (Node.mapData (fun a => { d1 with accountNumber := a.accountNumber })) found)))
    n r.id found d1 d2 r g1 s1 c1 (by rw [hsearch]; exact hfound) hnode1
    (hnum1.trans hexact) hrem hrne
  rw [hsearch, hamt2] at hrem'
  simp only at hrem'
  rw [modify_const_eq_mapData _ found d1 d2 g1 s1 c1 hnode1 (hnum2.trans hnum1.symm)] at hrem'
  refine ⟨_, _, hadd', hrem', ?_, ?_, ?_⟩
  · intro q
    rw [deref_updateTracked_null_iff, Node.deref_mapData_null_iff,
      deref_updateTracked_null_iff, Node.deref_mapData_null_iff]
  · refine ⟨d2, ?_, hbal2, hperm2, hnum2, hdesc2⟩
    simp only
    rw [account_deref_updateTracked _ _ hnd, if_neg hnotin, Node.account_deref_mapData,
      if_pos rfl, hacc1]
    simp only [Option.map_some']
    rw [hnum1, ← hnum2]
  · intro q hq
    simp only
    rw [account_deref_updateTracked _ _ hnd, Node.account_deref_mapData, if_neg hq,
      account_deref_updateTracked _ _ hnd, Node.account_deref_mapData, if_neg hq]
    by_cases hqt : q ∈ (t.searchAccountWithTracking n).2
    · rw [if_pos hqt, if_pos hqt]
      cases (t.root.deref q).account? with
      | none => rfl
      | some a =>
        simp only [Option.map_some']
        rw [updateBalance_cancel a _ _ (by ring)]
    · rw [if_neg hqt, if_neg hqt]

/-- C11 at the scenario: the debit record with id 1 and amount 50 is added to
account 1011 of the tree 1 → 10 → 1011 and removed again; the balances are
100, 600 and 1600 as before. -/
theorem C11_remove_undoes_add_witness :
    ((scenarioTree.searchAccountWithTracking 1011).1.1 = some [Link.child, Link.child] ∧
      ∃ t1, scenarioTree.addAcountTransaction 1011 ⟨1, 50, 'D'⟩ = .ok t1 ∧
        t1.removeAccountTransaction 1011 1 = .ok scenarioTree) ∧
    ∃ t1 t2, scenarioTree.addAcountTransaction 1011 ⟨1, 50, 'D'⟩ = .ok t1 ∧
      t1.removeAccountTransaction 1011 (Transaction.mk 1 50 'D').id = .ok t2 ∧
      TransactionUndone scenarioTree [Link.child, Link.child] ⟨1011, "Cash A", 100, []⟩ t2 :=
  ⟨⟨by decide, ⟨.mk ⟨1, "Assets", 1650, []⟩ 1000 .null (.mk ⟨10, "Cash", 650, []⟩ 500 .null
      (.mk ⟨1011, "Cash A", 150, [⟨1, 50, 'D'⟩]⟩ 100 .null .null))⟩,
      by with_unfolding_all decide, by with_unfolding_all decide⟩,
    C11_remove_undoes_add scenarioTree 1011 ⟨1, 50, 'D'⟩ [Link.child, Link.child]
      ⟨1011, "Cash A", 100, []⟩ 100 .null .null (by decide) (by decide) rfl
      (Or.inl rfl) (by simp) (by simp) (by simp) (by decide) (by decide)⟩

/-- C12, the code at a failing input: account 1011 of the tree 1 → 10 → 1011
(balances 1650, 650, 150) already holds a record with id 1; adding another
debit record with id 1 and amount 50 leaves account 1011 as it was, yet the
ancestors 10 and 1 go to 700 and 1700. -/
theorem C12_refused_record_changes_ancestors :
    (ForestTree.mk (.mk ⟨1, "Assets", 1650, []⟩ 1000 .null (.mk ⟨10, "Cash", 650, []⟩ 500 .null
      (.mk ⟨1011, "Cash A", 150, [⟨1, 50, 'D'⟩]⟩ 100 .null .null)))).exactMatch 1011 = true ∧
    (∃ x ∈ [(⟨1, 50, 'D'⟩ : Transaction)], x.id = (Transaction.mk 1 50 'D').id) ∧
    (ForestTree.mk (.mk ⟨1, "Assets", 1650, []⟩ 1000 .null (.mk ⟨10, "Cash", 650, []⟩ 500 .null
      (.mk ⟨1011, "Cash A", 150, [⟨1, 50, 'D'⟩]⟩ 100 .null .null)))).addAcountTransaction 1011
        ⟨1, 50, 'D'⟩ =
      .ok ⟨.mk ⟨1, "Assets", 1700, []⟩ 1000 .null (.mk ⟨10, "Cash", 700, []⟩ 500 .null
        (.mk ⟨1011, "Cash A", 150, [⟨1, 50, 'D'⟩]⟩ 100 .null .null))⟩ := by
  refine ⟨by decide, by decide, ?_⟩
  with_unfolding_all decide

/-- C13, the code at a failing input. The account `Account(10, "Cash", 500)`
takes the debit record with the id 1000000000 as its first record. Adding a
second record with that id, which is stored, runs `radixSortTransactions`:
the pass at `exp` = 1000000000 is followed by `exp *= 10`, which leaves the
range of `int`, so the call does not come back with the account unchanged. -/
theorem C13_add_stored_id_overflows_sort :
    ∃ a, (Account.ofParts 0 10 "Cash" 500).addTransaction ⟨1000000000, 5, 'D'⟩ = .ok a ∧
      (∀ t ∈ a.transactions, 0 ≤ t.id ∧ t.id ≤ INT_MAX) ∧
      (∃ t ∈ a.transactions, t.id = (Transaction.mk 1000000000 9 'D').id) ∧
      a.addTransaction ⟨1000000000, 9, 'D'⟩ = .error .signedOverflow := by
  have h : (505 : ℚ) = 500 + 5 * (if ('D' : Char) = 'C' then -1 else 1) := by
    rw [if_neg (by decide)]; norm_num
  refine ⟨⟨10, "Cash", 505, [⟨1000000000, 5, 'D'⟩]⟩, ?_, ?_, ?_, ?_⟩
  · rw [h]; rfl
  · decide
  · decide
  · decide

/-- C14, the code at a failing input. The account `Account(10, "Cash", 500)`
holds the one record with the id 1000000000. Removing the id 8, which is not
stored, runs `radixSortTransactions`, whose `exp *= 10` after the pass at
1000000000 leaves the range of `int`: the call does not come back with the
record of id -1. -/
theorem C14_remove_absent_id_overflows_sort :
    ∃ a, (Account.ofParts 0 10 "Cash" 500).addTransaction ⟨1000000000, 5, 'D'⟩ = .ok a ∧
      (∀ t ∈ a.transactions, 0 ≤ t.id ∧ t.id ≤ INT_MAX) ∧
      (∀ t ∈ a.transactions, t.id ≠ 8) ∧
      a.removeTransaction 8 = .error .signedOverflow := by
  have h : (505 : ℚ) = 500 + 5 * (if ('D' : Char) = 'C' then -1 else 1) := by
    rw [if_neg (by decide)]; norm_num
  refine ⟨⟨10, "Cash", 505, [⟨1000000000, 5, 'D'⟩]⟩, ?_, ?_, ?_, ?_⟩
  · rw [h]; rfl
  · decide
  · decide
  · decide

/-- C15, the code at a failing input. The account `Account(10, "Cash", 500)`
holds the records with the ids 7 and 1000000000. Removing the stored id
1000000000 runs `radixSortTransactions`, whose `exp *= 10` after the pass at
1000000000 leaves the range of `int`: the call does not come back with the
stored record. -/
theorem C15_remove_stored_id_overflows_sort :
    ∃ a, (Account.ofParts 0 10 "Cash" 500).calls
        [.addTransaction ⟨1000000000, 5, 'D'⟩, .addTransaction ⟨7, 20, 'C'⟩] = .error
          .signedOverflow ∧
      (Account.ofParts 0 10 "Cash" 500).calls
        [.addTransaction ⟨7, 20, 'C'⟩, .addTransaction ⟨1000000000, 5, 'D'⟩] = .ok a ∧
      (∀ t ∈ a.transactions, 0 ≤ t.id ∧ t.id ≤ INT_MAX) ∧
      a.transactions.Pairwise (fun x y => x.id ≠ y.id) ∧
      (∃ t ∈ a.transactions, t.id = 1000000000) ∧
      a.removeTransaction 1000000000 = .error .signedOverflow := by
  have h : (505 : ℚ) = 500 + 5 * (if ('D' : Char) = 'C' then -1 else 1) := by
    rw [if_neg (by decide)]; norm_num
  have h1 : (Account.ofParts 0 10 "Cash" 500).call (.addTransaction ⟨1000000000, 5, 'D'⟩) =
      .ok ⟨10, "Cash", 505, [⟨1000000000, 5, 'D'⟩]⟩ := by rw [h]; rfl
  have h2 : (Account.mk 10 "Cash" 505 [⟨1000000000, 5, 'D'⟩]).call
      (.addTransaction ⟨7, 20, 'C'⟩) = .error .signedOverflow := by decide
  refine ⟨⟨10, "Cash", 485, [⟨7, 20, 'C'⟩, ⟨1000000000, 5, 'D'⟩]⟩, ?_, ?_, ?_, ?_, ?_, ?_⟩
  · rw [Account.calls, h1]
    simp only
    rw [Account.calls, h2]
  · have h3 : (485 : ℚ) = 500 + 20 * (if ('C' : Char) = 'C' then -1 else 1) +
        5 * (if ('D' : Char) = 'C' then -1 else 1) := by
      rw [if_pos rfl, if_neg (by decide)]; norm_num
    rw [h3]; rfl
  · decide
  · decide
  · decide
  · decide

/-- C16, the code at a failing input. On `Account(10, "Cash", 500)`, which has
no records, the debit record with the id 1000000000 is added and then the
credit record with the id 3: the second call runs `radixSortTransactions`,
whose `exp *= 10` after the pass at 1000000000 leaves the range of `int`. The
run does not come back with an account and a balance. -/
theorem C16_balance_run_overflows_sort :
    (Account.ofParts 0 10 "Cash" 500).transactions = [] ∧
    (∀ c ∈ [AccountCall.addTransaction ⟨1000000000, 5, 'D'⟩, .addTransaction ⟨3, 20, 'C'⟩],
      c.Valid) ∧
    (Account.ofParts 0 10 "Cash" 500).calls [.addTransaction ⟨1000000000, 5, 'D'⟩] =
      .ok ⟨10, "Cash", 505, [⟨1000000000, 5, 'D'⟩]⟩ ∧
    (Account.ofParts 0 10 "Cash" 500).calls
      [.addTransaction ⟨1000000000, 5, 'D'⟩, .addTransaction ⟨3, 20, 'C'⟩] =
        .error .signedOverflow := by
  have h : (505 : ℚ) = 500 + 5 * (if ('D' : Char) = 'C' then -1 else 1) := by
    rw [if_neg (by decide)]; norm_num
  have h1 : (Account.ofParts 0 10 "Cash" 500).call (.addTransaction ⟨1000000000, 5, 'D'⟩) =
      .ok ⟨10, "Cash", 505, [⟨1000000000, 5, 'D'⟩]⟩ := by rw [h]; rfl
  have h2 : (Account.mk 10 "Cash" 505 [⟨1000000000, 5, 'D'⟩]).call
      (.addTransaction ⟨3, 20, 'C'⟩) = .error .signedOverflow := by decide
  refine ⟨rfl, by simp [AccountCall.Valid], ?_, ?_⟩
  · rw [Account.calls, h1]
    rfl
  · rw [Account.calls, h1]
    simp only
    rw [Account.calls, h2]

/-- C17, the code at a failing input. On an account without records the
record with the id 2147483647, the largest `int`, is added and not removed;
`findTransaction(2147483647)` then runs `radixSortTransactions`, whose
`exp *= 10` after the pass at 1000000000 leaves the range of `int`: the call
does not come back with a position. -/
theorem C17_lookup_overflows_sort :
    Account.default.transactions = [] ∧
    (∀ c ∈ [AccountCall.addTransaction ⟨2147483647, 5, 'D'⟩], c.IdPositive) ∧
    liveAfter 2147483647 false [.addTransaction ⟨2147483647, 5, 'D'⟩] = true ∧
    ∃ a, Account.default.calls [.addTransaction ⟨2147483647, 5, 'D'⟩] = .ok a ∧
      a.findTransaction 2147483647 = .error .signedOverflow := by
  refine ⟨rfl, by simp [AccountCall.IdPositive], by decide,
    ⟨⟨0, "", 0 + 5 * (if ('D' : Char) = 'C' then -1 else 1), [⟨2147483647, 5, 'D'⟩]⟩, ?_, ?_⟩⟩
  · rfl
  · decide

/-- C18, the code at a failing input. An account without records takes the
records with the ids 170, 45 and 1000000000, all non-negative values of `int`,
and then holds them in the order 45, 170, 1000000000. On these records
`radixSortTransactions` makes the pass at `exp` = 1000000000 and its
`exp *= 10` then leaves the range of `int`: the method does not come back with
the sorted records, and neither does `findTransaction` on the account. -/
theorem C18_radix_sort_overflows :
    ∃ a, Account.default.calls [.addTransaction ⟨170, 1, 'D'⟩, .addTransaction ⟨45, 3, 'D'⟩,
        .addTransaction ⟨1000000000, 2, 'C'⟩] = .ok a ∧
      a.transactions = [⟨45, 3, 'D'⟩, ⟨170, 1, 'D'⟩, ⟨1000000000, 2, 'C'⟩] ∧
      (∀ t ∈ a.transactions, 0 ≤ t.id ∧ t.id ≤ INT_MAX) ∧
      radixSortTransactions a.transactions = .error .signedOverflow ∧
      a.findTransaction 45 = .error .signedOverflow := by
  refine ⟨⟨0, "", 0 + 1 * (if ('D' : Char) = 'C' then -1 else 1) +
      3 * (if ('D' : Char) = 'C' then -1 else 1) + 2 * (if ('C' : Char) = 'C' then -1 else 1),
    [⟨45, 3, 'D'⟩, ⟨170, 1, 'D'⟩, ⟨1000000000, 2, 'C'⟩]⟩, ?_, ?_, ?_, ?_, ?_⟩
  · rfl
  · rfl
  · decide
  · decide
  · decide

/-- C19: whenever `searchAccountWithTracking` ends in an exact match, the
tracked path lists, outermost first, exactly the structural ancestors of the
node found; each listed ledger has a number different from the target whose
decimal string is a prefix of the target's. -/
theorem C19_tracked_path_is_ancestor_chain (t : ForestTree) (n : Int) (found : NodePtr)
    (d : Account) (g : ℚ) (s c : Node)
    (hfound : (t.searchAccountWithTracking n).1.1 = some found)
    (hnode : t.root.deref found = .mk d g s c) (hexact : d.accountNumber = n) :
    (t.searchAccountWithTracking n).2 = ancestorPtrs found ∧
    (t.searchAccountWithTracking n).2.filterMap
        (fun q => ((t.root.deref q).account?).map (fun a => a.accountNumber)) =
      t.root.ancestors found ∧
    ∀ q ∈ (t.searchAccountWithTracking n).2, ∃ a, (t.root.deref q).account? = some a ∧
      a.accountNumber ≠ n ∧ to_string a.accountNumber <+: to_string n := by
  obtain ⟨rel, h1, h2⟩ := searchLoop_exact n t.root t.root [] none [] found (by simp) hfound
    ⟨d, g, s, c, hnode, hexact⟩
  have htr : (t.searchAccountWithTracking n).2 = ancestorPtrs found := by
    unfold ForestTree.searchAccountWithTracking
    rw [h2, h1]
    simp
  refine ⟨htr, ?_, ?_⟩
  · rw [htr, Node.ancestors_eq_filterMap t.root found (by rw [hnode]; simp)]
  · intro q hq
    obtain ⟨_, hne⟩ := tracked_spec t n
    obtain ⟨new, h3, h4⟩ := searchLoop_tracked_comp n t.root t.root [] none [] (by simp)
    obtain ⟨d1, g1, s1, c1, hd1, hn1⟩ := hne q hq
    have hq' : q ∈ new := by
      unfold ForestTree.searchAccountWithTracking at hq
      rw [h3] at hq
      simpa using hq
    obtain ⟨d2, g2, s2, c2, hd2, hc2⟩ := h4 q hq'
    rw [hd1] at hd2
    injection hd2 with h5
    subst h5
    refine ⟨d1, by rw [hd1]; rfl, hn1, ?_⟩
    simpa [Account.compAccountNumber] using hc2

/-- C19 at the tree 1 → 10 → 1011 and the target 1011: the tracked path is
the address of 1 followed by the address of 10. -/
theorem C19_tracked_path_is_ancestor_chain_witness :
    ((scenarioTree.searchAccountWithTracking 1011).1.1 = some [Link.child, Link.child] ∧
      (scenarioTree.searchAccountWithTracking 1011).2 = [[], [Link.child]]) ∧
    ((scenarioTree.searchAccountWithTracking 1011).2 = ancestorPtrs [Link.child, Link.child] ∧
      (scenarioTree.searchAccountWithTracking 1011).2.filterMap
          (fun q => ((scenarioTree.root.deref q).account?).map (fun a => a.accountNumber)) =
        scenarioTree.root.ancestors [Link.child, Link.child] ∧
      ∀ q ∈ (scenarioTree.searchAccountWithTracking 1011).2,
        ∃ a, (scenarioTree.root.deref q).account? = some a ∧
          a.accountNumber ≠ 1011 ∧ to_string a.accountNumber <+: to_string 1011) :=
  ⟨⟨by decide, by decide⟩,
    C19_tracked_path_is_ancestor_chain scenarioTree 1011 [Link.child, Link.child]
      ⟨1011, "Cash A", 100, []⟩ 100 .null .null (by decide) (by decide) rfl⟩


/-- C20: when `addAccount(acc)` with a positive number returns true, the new
tree holds `acc` (with its seed balance) at some address; every other ledger
of the new tree is a ledger of the old tree, in the same order, credited with
the seed balance if it is a structural ancestor of the new node and unchanged
otherwise. -/
theorem C20_seed_propagated_on_insert (t : ForestTree) (acc : Account) (t1 : ForestTree)
    (hpos : 0 < acc.accountNumber) (hadd : t.addAccount acc = .ok (true, t1)) :
    SeedPropagated t acc t1 := by
  obtain ⟨ht, hguard, hhit⟩ := addAccount_true t acc t1 hadd
  subst ht
  unfold SeedPropagated
  simp only
  unfold insertTop
  rw [if_neg hguard]
  cases hroot : t.root with
  | null =>
    refine ⟨[], by simp [Node.ofAccount, Node.account?], ?_⟩
    simp [Node.ofAccount, Node.ledgers]
  | mk d g s c =>
    simp only
    by_cases hlt : acc.accountNumber < d.accountNumber
    · rw [if_pos hlt]
      exact credited_in_front acc acc.balance (.mk d g s c)
        ((Node.mk d g s c).ledgers.map (fun x => (Link.sibling :: x.1, x.2)))
        (map_snd_ledgers_lift _ _) _
        (by simp [Node.ledgers, Node.ofAccount, Node.setSibling])
        (by simp [Node.ofAccount, Node.setSibling, Node.account?])
        (fun x hx => by
          obtain ⟨y, _, rfl⟩ := List.mem_map.1 hx
          simp)
    · rw [if_neg hlt]
      exact insertInto_ledgers acc hpos (.mk d g s c) Link.sibling
        (by rw [← hroot]; exact hhit d g s c hroot hlt)

/-- C20 at the tree 1 → 10 and the call `addAccount(1011, "Cash A", 100)`: the
call returns true and leaves the tree 1 (1600) → 10 (600) → 1011 (100). -/
theorem C20_seed_propagated_on_insert_witness :
    (0 < (Account.ofParts 0 1011 "Cash A" 100).accountNumber ∧
      (ForestTree.mk (.mk ⟨1, "Assets", 1500, []⟩ 1000 .null
        (leaf 10 "Cash" 500 500))).addAccount (Account.ofParts 0 1011 "Cash A" 100) =
          .ok (true, scenarioTree)) ∧
    SeedPropagated (ForestTree.mk (.mk ⟨1, "Assets", 1500, []⟩ 1000 .null
      (leaf 10 "Cash" 500 500))) (Account.ofParts 0 1011 "Cash A" 100) scenarioTree :=
  ⟨⟨by decide, by with_unfolding_all decide⟩,
    C20_seed_propagated_on_insert _ _ _ (by decide) (by with_unfolding_all decide)⟩


/-- C21: for positive numbers `a` (of the account) and `c`,
`compAccountNumber(c)` is true exactly when the decimal string of `c` starts
with the decimal string of `a`, that is, exactly when `c` with some number of
its last decimal digits dropped is `a`; it is true for `c = a`. -/
theorem C21_ancestor_test (d : Account) (c : Int) (ha : 0 < d.accountNumber) (hc : 0 < c) :
    (d.compAccountNumber c = true ↔ to_string d.accountNumber <+: to_string c) ∧
    (d.compAccountNumber c = true ↔ ∃ k : Nat, c / 10 ^ k = d.accountNumber) ∧
    d.compAccountNumber d.accountNumber = true := by
  have h1 : d.compAccountNumber c = true ↔ to_string d.accountNumber <+: to_string c := by
    simp [Account.compAccountNumber]
  exact ⟨h1, h1.trans (to_string_prefix_iff _ _ ha hc), compAccountNumber_self d⟩

/-- C21 at the account 10: it passes the test for 1011 (1011 without its last
two digits is 10) and fails it for 1100 and for 1. -/
theorem C21_ancestor_test_witness :
    ((0 : Int) < (Account.mk 10 "Cash" 500 []).accountNumber ∧ (0 : Int) < 1011) ∧
    (Account.compAccountNumber ⟨10, "Cash", 500, []⟩ 1011 = true ∧
      (1011 : Int) / 10 ^ 2 = 10 ∧
      Account.compAccountNumber ⟨10, "Cash", 500, []⟩ 1100 = false ∧
      Account.compAccountNumber ⟨10, "Cash", 500, []⟩ 1 = false) ∧
    ((Account.compAccountNumber ⟨10, "Cash", 500, []⟩ 1011 = true ↔
        to_string (Account.mk 10 "Cash" 500 []).accountNumber <+: to_string 1011) ∧
      (Account.compAccountNumber ⟨10, "Cash", 500, []⟩ 1011 = true ↔
        ∃ k : Nat, (1011 : Int) / 10 ^ k = (Account.mk 10 "Cash" 500 []).accountNumber) ∧
      Account.compAccountNumber ⟨10, "Cash", 500, []⟩
        (Account.mk 10 "Cash" 500 []).accountNumber = true) :=
  ⟨⟨by decide, by decide⟩, ⟨by decide, by decide, by decide, by decide⟩,
    C21_ancestor_test ⟨10, "Cash", 500, []⟩ 1011 (by decide) (by decide)⟩


/-- C22: when tracked search for `n` is not an exact match,
`addAcountTransaction(n, r)` does not fault and leaves the hierarchy as it is,
for every record `r`. -/
theorem C22_add_transaction_unknown_account (t : ForestTree) (n : Int) (r : Transaction)
    (h : t.exactMatch n = false) : t.addAcountTransaction n r = .ok t := by
  unfold ForestTree.addAcountTransaction
  rcases not_exactMatch_cases t n h with hnone | ⟨f, d, g, s, c, hf, hd, hne⟩
  · simp only [hnone]
  · simp only [hf, hd, ne_eq, hne, not_false_eq_true, if_true]

/-- C22 at the tree 1 → 10 → 1011: no account 1010 (the search stops at 1011)
and no account 2 (the search runs off the top level). -/
theorem C22_add_transaction_unknown_account_witness :
    (scenarioTree.exactMatch 1010 = false ∧
      (scenarioTree.searchAccountWithTracking 1010).1.1 = some [Link.child, Link.child] ∧
      scenarioTree.exactMatch 2 = false ∧
      (scenarioTree.searchAccountWithTracking 2).1.1 = none ∧
      scenarioTree.addAcountTransaction 2 ⟨1, 50, 'D'⟩ = .ok scenarioTree) ∧
    scenarioTree.addAcountTransaction 1010 ⟨1, 50, 'D'⟩ = .ok scenarioTree :=
  ⟨⟨by decide, by decide, by decide, by decide, by decide⟩,
    C22_add_transaction_unknown_account scenarioTree 1010 ⟨1, 50, 'D'⟩ (by decide)⟩

/-- C23, the claim as stated fails. Account 10 of the tree 1 → 10 holds the
record 7; after `Transaction(-5)` has been added to it, removing the id 3,
which the account does not hold, makes `countingSortByDigit` index `count`
with the digit -5. -/
theorem C23_failed_removal_faults_on_negative_stored_id :
    ∃ t1, cashTree.addAcountTransaction 10 (Transaction.ofId (-5)) = .ok t1 ∧
      t1.exactMatch 10 = true ∧
      (∃ d, (t1.root.deref [Link.child]).account? = some d ∧ d.accountNumber = 10 ∧
        ∀ x ∈ d.transactions, x.id ≠ 3) ∧
      (1 : Int) ≤ 3 ∧
      t1.removeAccountTransaction 10 3 = .error .outOfBounds := by
  refine ⟨⟨.mk ⟨1, "Assets", 1600, []⟩ 1000 .null
      (.mk ⟨10, "Cash", 600, [⟨7, 100, 'D'⟩, ⟨-5, 0, 'D'⟩]⟩ 500 .null .null)⟩,
    ?_, ?_, ⟨⟨10, "Cash", 600, [⟨7, 100, 'D'⟩, ⟨-5, 0, 'D'⟩]⟩, ?_, ?_, ?_⟩, ?_, ?_⟩ <;>
  with_unfolding_all decide

/-- C23, as amended: for an id `tid` of at least 1, when tracked search for
`n` is not an exact match, or it is and account `n` holds records with ids
from 0 to 999999999 only, none of them `tid`, `removeAccountTransaction(n, tid)`
does not fault and leaves every ledger with its balance and its records (the
records of account `n` may be reordered). -/
theorem C23_failed_removal_changes_nothing (t : ForestTree) (n tid : Int) (_htid : 1 ≤ tid)
    (h : t.exactMatch n = false ∨
      ∃ found d g s c, (t.searchAccountWithTracking n).1.1 = some found ∧
        t.root.deref found = .mk d g s c ∧ d.accountNumber = n ∧
        (∀ x ∈ d.transactions, 0 ≤ x.id ∧ x.id < 1000000000) ∧
        ∀ x ∈ d.transactions, x.id ≠ tid) :
    ∃ t2, t.removeAccountTransaction n tid = .ok t2 ∧ LedgersKept t t2 := by
  rcases h with h | ⟨found, d, g, s, c, hfound, hnode, hexact, hids, habs⟩
  · refine ⟨t, ?_, ledgersKept_refl t⟩
    unfold ForestTree.removeAccountTransaction
    rcases not_exactMatch_cases t n h with hnone | ⟨f, d, g, s, c, hf, hd, hne⟩
    · simp only [hnone]
    · simp only [hf, hd, ne_eq, hne, not_false_eq_true, if_true]
  · obtain ⟨d1, it, hrem, hnum, hdesc, hcase⟩ := removeTransaction_spec d tid (fun x hx => (hids x hx).1)
      (fun x hx => (hids x hx).2)
    rcases hcase with ⟨_, hit, hperm, hbal⟩ | ⟨hid, hp, _⟩
    · refine ⟨⟨t.root.modify (fun _ => .mk d1 g s c) found⟩, ?_, ?_, ?_⟩
      · unfold ForestTree.removeAccountTransaction
        simp only [hfound, hnode, hexact, ne_eq, not_true_eq_false, if_false, hrem, hit,
          Transaction.ofId, if_true]
      · intro q
        simp only
        rw [modify_const_eq_mapData t.root found d d1 g s c hnode hnum,
          Node.deref_mapData_null_iff]
      · intro q a ha
        simp only
        rw [modify_const_eq_mapData t.root found d d1 g s c hnode hnum,
          Node.account_deref_mapData]
        by_cases hq : q = found
        · subst hq
          rw [hnode] at ha
          simp only [Node.account?, Option.some.injEq] at ha
          subst ha
          rw [if_pos rfl, hnode]
          exact ⟨d1, by simp [Node.account?, ← hnum], hbal, hperm, hnum, hdesc⟩
        · rw [if_neg hq, ha]
          exact ⟨a, rfl, rfl, List.Perm.refl _, rfl, rfl⟩
    · exact absurd hid (habs it (hp.subset (List.mem_cons_self _ _)))

/-- C23 at the tree 1 → 10 → 1011 and the id 4: account 1010 is not found, and
account 1011 is found and holds no record. -/
theorem C23_failed_removal_changes_nothing_witness :
    ((1 : Int) ≤ 4 ∧ scenarioTree.exactMatch 1010 = false ∧
      scenarioTree.removeAccountTransaction 1010 4 = .ok scenarioTree ∧
      scenarioTree.removeAccountTransaction 1011 4 = .ok scenarioTree) ∧
    (∃ t2, scenarioTree.removeAccountTransaction 1011 4 = .ok t2 ∧
      LedgersKept scenarioTree t2) :=
  ⟨⟨by decide, by decide, by decide, by decide⟩,
    C23_failed_removal_changes_nothing scenarioTree 1011 4 (by decide)
      (Or.inr ⟨[Link.child, Link.child], ⟨1011, "Cash A", 100, []⟩, 100, .null, .null,
        by decide, by decide, rfl, by simp, by simp⟩)⟩


/-- C24, the code at two failing inputs. The file `1 Assets 1000`,
`10 Cash 500`, `Cash`: the third line has one part, `readAccount` leaves the
account object as the second line set it, and `addAccount` is called with it
again; the call is refused, but not before the balance 500 has been added to
account 1 a second time, which ends with 2000 instead of the 1500 that the
file without the third line gives. The file with the one line `Cash`, read
into the empty tree: `addAccount` is called with the account `Account()` and
stores a ledger numbered 0, where the empty file leaves the tree empty. -/
theorem C24_malformed_line_inserts_again :
    (split "Cash".data ' ').length < 3 ∧
    ForestTree.empty.buildTreeFromFile (some ["1 Assets 1000", "10 Cash 500", "Cash"]) =
      .ok (true, ⟨.mk ⟨1, "Assets", 2000, []⟩ 1000 .null (leaf 10 "Cash" 500 500)⟩) ∧
    ForestTree.empty.buildTreeFromFile (some ["1 Assets 1000", "10 Cash 500"]) =
      .ok (true, ⟨.mk ⟨1, "Assets", 1500, []⟩ 1000 .null (leaf 10 "Cash" 500 500)⟩) ∧
    ForestTree.empty.buildTreeFromFile (some ["Cash"]) = .ok (true, ⟨leaf 0 "" 0 0⟩) ∧
    ForestTree.empty.buildTreeFromFile (some []) = .ok (true, ForestTree.empty) := by
  refine ⟨by decide, ?_, ?_, ?_, ?_⟩ <;> with_unfolding_all decide


/-- C25, the claim as stated fails. The calls `addAccount(1, "Assets", 1000)`
and `addAccount(10, "Cash", 500)` build the tree 1 (1500) → 10 (500); its dump
is `1 Assets 1500`, `10 Cash 500` (balances of 4, 3 and 1 digits are written in
full), and inserting these lines into a fresh tree gives account 1 the
balance 2000. The calls `addAccount` of 1, 123 and 12, with
balance 0, build a tree in which 12 and 123 are both children of 1; inserting
its dump 1, 12, 123 makes 123 the child of 12. -/
theorem C25_rebuild_differs_from_dumped_tree :
    (∃ t, ForestTree.empty.addAccounts [(1, "Assets", 1000), (10, "Cash", 500)] = .ok t ∧
      printTreeRecursive writtenInFull t.root = [(1, "Assets", 1500), (10, "Cash", 500)] ∧
      t.root.ledgers = [([], ⟨1, "Assets", 1500, []⟩), ([Link.child], ⟨10, "Cash", 500, []⟩)] ∧
      ∃ t2, ForestTree.empty.addAccounts (printTreeRecursive writtenInFull t.root) = .ok t2 ∧
        t2.root.ledgers =
          [([], ⟨1, "Assets", 2000, []⟩), ([Link.child], ⟨10, "Cash", 500, []⟩)]) ∧
    (∃ t, ForestTree.empty.addAccounts [(1, "A", 0), (123, "B", 0), (12, "C", 0)] = .ok t ∧
      printTreeRecursive writtenInFull t.root = [(1, "A", 0), (12, "C", 0), (123, "B", 0)] ∧
      t.root.ledgers.map Prod.fst = [[], [Link.child], [Link.child, Link.sibling]] ∧
      ∃ t2, ForestTree.empty.addAccounts (printTreeRecursive writtenInFull t.root) = .ok t2 ∧
        t2.root.ledgers.map Prod.fst = [[], [Link.child], [Link.child, Link.child]]) := by
  refine ⟨⟨⟨.mk ⟨1, "Assets", 1500, []⟩ 1000 .null (leaf 10 "Cash" 500 500)⟩, ?_, ?_, ?_,
      ⟨.mk ⟨1, "Assets", 2000, []⟩ 1500 .null (leaf 10 "Cash" 500 500)⟩, ?_, ?_⟩,
    ⟨⟨.mk ⟨1, "A", 0, []⟩ 0 .null (.mk ⟨12, "C", 0, []⟩ 0 (leaf 123 "B" 0 0) .null)⟩,
      ?_, ?_, ?_, ⟨.mk ⟨1, "A", 0, []⟩ 0 .null (.mk ⟨12, "C", 0, []⟩ 0 .null (leaf 123 "B" 0 0))⟩,
      ?_, ?_⟩⟩ <;>
  with_unfolding_all decide

/-- C25, as amended: for a hierarchy that keeps the prefix discipline
(`Orderly`) and in which every number above 9 comes after the ledger numbered
by its first digit, inserting the lines of its dump, in order, into a fresh
hierarchy does not fault and gives the same arrangement of nodes with the same
numbers and descriptions, without records; the balance of each ledger is its
balance as the dump writes it plus the balances, as the dump writes them, of
all ledgers below it. The dump writes a balance at 6 significant digits;
`written b` is the number that the text written for `b` denotes, whatever the
stream makes of it. -/
theorem C25_rebuild_from_dump (written : ℚ → ℚ) (t : ForestTree) (horderly : t.root.Orderly)
    (hfirst : firstDigitsKnown [] t.root.numbers) :
    ∃ t2, ForestTree.empty.addAccounts (printTreeRecursive written t.root) = .ok t2 ∧
      (∀ q, t2.root.deref q = .null ↔ t.root.deref q = .null) ∧
      ∀ q d g s c, t.root.deref q = .mk d g s c →
        (t2.root.deref q).account? =
          some ⟨d.accountNumber, d.description, written d.balance + c.total written, []⟩ := by
  have hpos : ∀ x ∈ printTreeRecursive written t.root, 0 < x.1 := by
    intro x hx
    refine orderly_pos t.root horderly x.1 ?_
    rw [← printTreeRecursive_numbers written]
    exact List.mem_map.2 ⟨x, hx, rfl⟩
  obtain ⟨h1, _⟩ := foldl_insertTop_dump written t.root horderly .null [] []
    (fun _ _ => trivial) (fun k hk => by simp at hk) hfirst
  refine ⟨⟨Node.regrown written t.root⟩, ?_, ?_, ?_⟩
  · rw [addAccounts_eq_foldl _ _ hpos]
    simp only [ForestTree.empty]
    rw [h1]
    rfl
  · intro q
    simp only
    rw [deref_regrown, regrown_eq_null_iff]
  · intro q d g s c hq
    simp only
    rw [deref_regrown, hq]
    rfl

/-- C25 at the tree 1 (1600) → 10 (600) → 1011 (100), whose balances are
written in full: inserting its dump gives the same arrangement with the
balances 2300, 700 and 100. -/
theorem C25_rebuild_from_dump_witness :
    (scenarioTree.root.Orderly ∧ firstDigitsKnown [] scenarioTree.root.numbers ∧
      ForestTree.empty.addAccounts (printTreeRecursive writtenInFull scenarioTree.root) =
        .ok ⟨.mk ⟨1, "Assets", 2300, []⟩ 1600 .null
          (.mk ⟨10, "Cash", 700, []⟩ 600 .null (leaf 1011 "Cash A" 100 100))⟩) ∧
    ∃ t2, ForestTree.empty.addAccounts (printTreeRecursive writtenInFull scenarioTree.root) = .ok t2 ∧
      (∀ q, t2.root.deref q = .null ↔ scenarioTree.root.deref q = .null) ∧
      ∀ q d g s c, scenarioTree.root.deref q = .mk d g s c →
        (t2.root.deref q).account? =
          some ⟨d.accountNumber, d.description,
            writtenInFull d.balance + c.total writtenInFull, []⟩ :=
  have h1 : scenarioTree.root.Orderly := by
    simp only [scenarioTree, leaf, Node.Orderly, Node.numbers, List.append_nil, List.nil_append]
    decide
  have h2 : firstDigitsKnown [] scenarioTree.root.numbers := by
    simp only [scenarioTree, leaf, Node.numbers, List.append_nil, List.nil_append,
      List.cons_append, firstDigitsKnown]
    decide
  ⟨⟨h1, h2, by with_unfolding_all decide⟩, C25_rebuild_from_dump writtenInFull scenarioTree h1 h2⟩


/-- C26, the code at a failing input. In the line `10  Cash 500` two spaces
stand between the first two of its three tokens `10`, `Cash` and `500`. The
second space meets an empty `current` in `split` and is kept as the first
character of the next part, so the description read is ` Cash` with a leading
space, not `Cash`; with one space the description is `Cash`. -/
theorem C26_second_space_kept_in_part :
    split "10  Cash 500".data ' ' = ["10".data, " Cash".data, "500".data] ∧
    Account.default.readAccount "10  Cash 500".data = .ok ⟨10, " Cash", 500, []⟩ ∧
    Account.default.readAccount "10 Cash 500".data = .ok ⟨10, "Cash", 500, []⟩ ∧
    Account.default.readAccount "10 Petty  Cash 500".data = .ok ⟨10, "Petty  Cash", 500, []⟩ ∧
    Account.default.readAccount "10 Petty Cash 500".data = .ok ⟨10, "Petty Cash", 500, []⟩ := by
  refine ⟨by decide, ?_, ?_, ?_, ?_⟩ <;> with_unfolding_all decide


/-- C27: `setType(c)` returns true exactly when `c` is one of `'D'`, `'d'`,
`'C'`, `'c'`; it then sets the kind to the uppercase of `c`, which is `'D'` for
`'D'` and `'d'` and `'C'` for `'C'` and `'c'`; for every other character the
kind stays as it is. Id and amount are kept in every case. So `setType` has
failed or the kind is `'D'` or `'C'` afterwards. -/
theorem C27_set_type (t : Transaction) (c : Char) :
    ((t.setType c).1 = true ↔ c = 'D' ∨ c = 'd' ∨ c = 'C' ∨ c = 'c') ∧
    (t.setType c).2.type =
      (if c = 'D' ∨ c = 'd' ∨ c = 'C' ∨ c = 'c' then c.toUpper else t.type) ∧
    (t.setType c).2.type =
      (if c = 'D' ∨ c = 'd' then 'D' else if c = 'C' ∨ c = 'c' then 'C' else t.type) ∧
    (t.setType c).2.id = t.id ∧ (t.setType c).2.amount = t.amount ∧
    ((t.setType c).1 = false ∨ (t.setType c).2.type = 'D' ∨ (t.setType c).2.type = 'C') := by
  rw [setType_spec]
  by_cases h1 : c = 'D'
  · subst h1; simp
  · by_cases h2 : c = 'd'
    · subst h2; simp
    · by_cases h3 : c = 'C'
      · subst h3; simp
      · by_cases h4 : c = 'c'
        · subst h4; simp
        · simp [h1, h2, h3, h4]

/-- C28: `Transaction::setId(v)` keeps the id when `v < 1` and sets it to `v`
otherwise, and keeps amount and kind; `Account::setAccountNumber(v)` keeps the
number when `v < 1` and sets it to `v` otherwise, and keeps description,
balance and records. -/
theorem C28_identifier_setters (t : Transaction) (a : Account) (v : Int) :
    ((t.setId v).id = if v < 1 then t.id else v) ∧
    (t.setId v).amount = t.amount ∧ (t.setId v).type = t.type ∧
    ((a.setAccountNumber v).accountNumber = if v < 1 then a.accountNumber else v) ∧
    (a.setAccountNumber v).description = a.description ∧
    (a.setAccountNumber v).balance = a.balance ∧
    (a.setAccountNumber v).transactions = a.transactions := by
  unfold Transaction.setId Account.setAccountNumber
  by_cases h : v < 1 <;> simp [h]


/-- C29: `printAccountRecursive(N, 0, out)` writes one block for `N` and for
every node of the child subtree of `N`, in the order of the ledgers of `N` cut
off from its siblings: `N` first, each node before its child subtree, each
child subtree before the next sibling. The nodes written are exactly `N` and
the nodes reached from `N` through its `child` link, each once; nothing reached
through the `sibling` link of `N` is written. -/
theorem C29_report_scope (d : Account) (g : ℚ) (s c : Node) :
    printAccountRecursive (.mk d g s c) 0 =
      (Node.mk d g .null c).ledgers.map (fun x =>
        ⟨depthOf x.1, x.2.accountNumber, shownDescription x.2.description, x.2.balance,
          x.2.transactions⟩) ∧
    (printAccountRecursive (.mk d g s c) 0).head? =
      some ⟨0, d.accountNumber, shownDescription d.description, d.balance, d.transactions⟩ ∧
    (∀ q a, (q, a) ∈ (Node.mk d g .null c).ledgers ↔
      (q = [] ∨ ∃ r, q = Link.child :: r) ∧ ((Node.mk d g s c).deref q).account? = some a) ∧
    ((Node.mk d g .null c).ledgers.map Prod.fst).Nodup ∧
    ((Node.mk d g .null c).ledgers.map Prod.fst).Pairwise PreorderBefore := by
  refine ⟨?_, by simp [printAccountRecursive], ?_, ledgers_nodup _, ledgers_pairwise _⟩
  · simp only [printAccountRecursive, ne_eq, not_true_eq_false, if_false, List.append_nil,
      Node.ledgers, List.map_nil, List.map_cons, List.map_map, Function.comp_def,
      printAccountRecursive_eq c 1 (by decide), depthOf, List.count_nil,
      List.count_cons_self]
    simp only [Nat.add_comm 1]
  · intro q a
    rw [mem_ledgers_iff]
    cases q with
    | nil => simp [Node.account?]
    | cons l r => cases l <;> simp [Node.deref, Node.account?]

/-- C30: `printTreeRecursive` and `printTree`, started at the root, write one
line (one block) for every node of the hierarchy, each once, in the order of
the ledgers of the root: a node is written before everything reached from it,
and everything reached through its `child` link before everything reached
through its `sibling` link. So a node comes after its parent and after its
earlier siblings and their subtrees. The order is the same whatever text the
stream writes for a balance (`written`). -/
theorem C30_dump_is_preorder (written : ℚ → ℚ) (root : Node) :
    printTreeRecursive written root =
      root.ledgers.map
        (fun x => (x.2.accountNumber, x.2.description, written x.2.balance)) ∧
    printTree root 0 = root.ledgers.map (fun x =>
      ⟨depthOf x.1, x.2.accountNumber, x.2.description, x.2.balance, x.2.transactions⟩) ∧
    (∀ q a, (q, a) ∈ root.ledgers ↔ (root.deref q).account? = some a) ∧
    (root.ledgers.map Prod.fst).Nodup ∧
    (root.ledgers.map Prod.fst).Pairwise PreorderBefore ∧
    (∀ (p : NodePtr) (l : Link) (r : NodePtr), PreorderBefore p (p ++ l :: r)) ∧
    (∀ p r r1 : NodePtr, PreorderBefore (p ++ Link.child :: r) (p ++ Link.sibling :: r1)) := by
  refine ⟨printTreeRecursive_eq written root, ?_, mem_ledgers_iff root, ledgers_nodup root,
    ledgers_pairwise root, preorderBefore_append, preorderBefore_child_sibling⟩
  rw [printTree_eq root 0]
  simp only [Nat.zero_add]


/-- C31: for records with non-negative ids, `maxId` is the largest id present
(0 for no records), and `radixSortTransactions` makes one `countingSortByDigit`
pass for each decimal digit of `maxId`, with `exp` = 1, 10, 100, ... in turn;
when `maxId` is 0 (every id is 0, or there is no record) it makes no pass.
The passes are those of the run with integers taken as unbounded; the method
itself, whose `exp` is an `int`, returns the same records while `maxId` is below
1000000000 and from there on computes an `exp` outside the range of `int`. -/
theorem C31_radix_pass_count (ts : List Transaction) (hids : ∀ t ∈ ts, 0 ≤ t.id) :
    (∀ t ∈ ts, t.id ≤ maxIdOf ts) ∧ (ts ≠ [] → ∃ t ∈ ts, t.id = maxIdOf ts) ∧
    ((∀ t ∈ ts, t.id = 0) → maxIdOf ts = 0) ∧
    ∃ last sorted,
      radixSortTrace ts =
        .ok ((List.range (if maxIdOf ts = 0 then 0 else (to_string (maxIdOf ts)).length)).map
          (fun j => (10 : Int) ^ j), last, sorted) ∧
      radixSortTransactions ts =
        if maxIdOf ts < 1000000000 then .ok sorted else .error .signedOverflow := by
  refine ⟨le_maxIdOf ts, maxIdOf_mem ts hids, ?_, ?_⟩
  · intro h0
    rcases foldl_max_mem ts 0 with h | ⟨t, ht, hid⟩
    · exact h
    · have : maxIdOf ts = t.id := hid.symm
      rw [this, h0 t ht]
  · have hM : maxIdOf ts = (((maxIdOf ts).toNat : Nat) : Int) :=
      (Int.toNat_of_nonneg (maxIdOf_nonneg ts)).symm
    obtain ⟨last, sorted, h1, h2, h3⟩ :=
      radixLoopTrace_spec (maxIdOf ts).toNat (maxIdOf ts).toNat 0 ts
      (by rw [Nat.zero_add]; exact Nat.lt_pow_self (by decide) _) hids
    refine ⟨last, sorted, ?_, ?_⟩
    · unfold radixSortTrace
      simp only
      have hexp : (((10 ^ 0 : Nat) : Nat) : Int) = 1 := by norm_num
      rw [hexp, ← hM] at h1
      rw [h1, List.range_eq_range', Nat.sub_zero]
      have hcond : ((maxIdOf ts).toNat = 0) ↔ (maxIdOf ts = 0) := by
        have := maxIdOf_nonneg ts
        omega
      have hstr : to_string (maxIdOf ts) = Nat.toDigits 10 (maxIdOf ts).toNat := by
        rw [hM]
        rfl
      simp only [hcond, hstr]
    · unfold radixSortTransactions
      simp only
      have hexp : (((10 ^ 0 : Nat) : Nat) : Int) = 1 := by norm_num
      rw [hexp, ← hM] at h2 h3
      by_cases hsmall : maxIdOf ts < 1000000000
      · rw [if_pos hsmall]
        exact h2 (by omega)
      · rw [if_neg hsmall]
        exact h3 (by omega) (by decide)

/-- C31 at the records with ids 170, 45 and 802: the largest id has three
digits and the passes are made with `exp` = 1, 10 and 100. -/
theorem C31_radix_pass_count_witness :
    ((∀ t ∈ [(⟨170, 1, 'D'⟩ : Transaction), ⟨45, 2, 'C'⟩, ⟨802, 5, 'C'⟩], 0 ≤ t.id) ∧
      maxIdOf [⟨170, 1, 'D'⟩, ⟨45, 2, 'C'⟩, ⟨802, 5, 'C'⟩] = 802 ∧
      radixSortTrace [⟨170, 1, 'D'⟩, ⟨45, 2, 'C'⟩, ⟨802, 5, 'C'⟩] =
        .ok ([1, 10, 100], 1000, [⟨45, 2, 'C'⟩, ⟨170, 1, 'D'⟩, ⟨802, 5, 'C'⟩]) ∧
      radixSortTrace [⟨0, 1, 'D'⟩, ⟨0, 2, 'C'⟩] = .ok ([], 1, [⟨0, 1, 'D'⟩, ⟨0, 2, 'C'⟩]) ∧
      radixSortTrace [] = .ok ([], 1, [])) ∧
    ((∀ t ∈ [(⟨170, 1, 'D'⟩ : Transaction), ⟨45, 2, 'C'⟩, ⟨802, 5, 'C'⟩],
        t.id ≤ maxIdOf [⟨170, 1, 'D'⟩, ⟨45, 2, 'C'⟩, ⟨802, 5, 'C'⟩]) ∧
      ([(⟨170, 1, 'D'⟩ : Transaction), ⟨45, 2, 'C'⟩, ⟨802, 5, 'C'⟩] ≠ [] →
        ∃ t ∈ [(⟨170, 1, 'D'⟩ : Transaction), ⟨45, 2, 'C'⟩, ⟨802, 5, 'C'⟩],
          t.id = maxIdOf [⟨170, 1, 'D'⟩, ⟨45, 2, 'C'⟩, ⟨802, 5, 'C'⟩]) ∧
      ((∀ t ∈ [(⟨170, 1, 'D'⟩ : Transaction), ⟨45, 2, 'C'⟩, ⟨802, 5, 'C'⟩], t.id = 0) →
        maxIdOf [⟨170, 1, 'D'⟩, ⟨45, 2, 'C'⟩, ⟨802, 5, 'C'⟩] = 0) ∧
      ∃ last sorted,
        radixSortTrace [⟨170, 1, 'D'⟩, ⟨45, 2, 'C'⟩, ⟨802, 5, 'C'⟩] =
          .ok ((List.range (if maxIdOf [⟨170, 1, 'D'⟩, ⟨45, 2, 'C'⟩, ⟨802, 5, 'C'⟩] = 0 then 0
              else (to_string (maxIdOf [⟨170, 1, 'D'⟩, ⟨45, 2, 'C'⟩,
                ⟨802, 5, 'C'⟩])).length)).map (fun j => (10 : Int) ^ j), last, sorted) ∧
        radixSortTransactions [⟨170, 1, 'D'⟩, ⟨45, 2, 'C'⟩, ⟨802, 5, 'C'⟩] =
          if maxIdOf [⟨170, 1, 'D'⟩, ⟨45, 2, 'C'⟩, ⟨802, 5, 'C'⟩] < 1000000000 then .ok sorted
          else .error .signedOverflow) :=
  ⟨⟨by decide, by decide, by decide, by decide, by decide⟩,
    C31_radix_pass_count _ (by decide)⟩


/-- C32, the code at a failing input. On `Account(10, "Cash", 500)`, which has
no records, the record with the id 1500000000 is added and then a record with
the id 4: the second call runs `radixSortTransactions`, whose `exp *= 10`
after the pass at 1000000000 leaves the range of `int`. The run does not come
back with an account whose ids could be compared. -/
theorem C32_id_run_overflows_sort :
    (Account.ofParts 0 10 "Cash" 500).transactions = [] ∧
    (∀ c ∈ [AccountCall.addTransaction ⟨1500000000, 1, 'D'⟩, .addTransaction ⟨4, 2, 'D'⟩],
      c.IdPositive) ∧
    (Account.ofParts 0 10 "Cash" 500).calls
      [.addTransaction ⟨1500000000, 1, 'D'⟩, .addTransaction ⟨4, 2, 'D'⟩] =
        .error .signedOverflow := by
  have h : (501 : ℚ) = 500 + 1 * (if ('D' : Char) = 'C' then -1 else 1) := by
    rw [if_neg (by decide)]; norm_num
  have h1 : (Account.ofParts 0 10 "Cash" 500).call (.addTransaction ⟨1500000000, 1, 'D'⟩) =
      .ok ⟨10, "Cash", 501, [⟨1500000000, 1, 'D'⟩]⟩ := by rw [h]; rfl
  have h2 : (Account.mk 10 "Cash" 501 [⟨1500000000, 1, 'D'⟩]).call
      (.addTransaction ⟨4, 2, 'D'⟩) = .error .signedOverflow := by decide
  refine ⟨rfl, by simp [AccountCall.IdPositive], ?_⟩
  rw [Account.calls, h1]
  simp only
  rw [Account.calls, h2]

/-- C33: `addAccount` with a positive number does not fault. When it returns
true, the nodes afterwards are the nodes before, in the same order and each
with its number, description and records, and one more node, which holds the
new account. When it returns false, the nodes afterwards are at the addresses
of the nodes before (the same `child` and `sibling` links), each with its
number, description and records. -/
theorem C33_insertion_keeps_nodes (t : ForestTree) (acc : Account)
    (hpos : 0 < acc.accountNumber) :
    ∃ flag t1, t.addAccount acc = .ok (flag, t1) ∧
      (flag = true → NodesKeptPlusOne t acc t1) ∧ (flag = false → SameNodes t t1) := by
  obtain ⟨flag, hadd⟩ := addAccount_eq_insertTop t acc
  refine ⟨flag, _, hadd, ?_, ?_⟩
  · intro hflag
    subst hflag
    obtain ⟨pNew, h1, h2⟩ := seedPropagated_of_true t acc _ hpos hadd
    exact ⟨pNew, h1, h2.imp (fun {a b} h => sameIdentity_of_credited _ _ a b h)⟩
  · intro hflag
    subst hflag
    rcases addAccount_false t acc _ hadd with h | h
    · rw [h]
      exact ⟨rfl, List.forall₂_same.2 (fun x _ => ⟨rfl, rfl, rfl⟩)⟩
    · rw [h]
      exact sameNodes_updateTracked _ _ _

/-- C33 at the tree 1 → 10 → 1011: `addAccount(1010, "Till", 0)` returns true
and puts 1010 before 1011 below 10; `addAccount(1011, "Cash A", 100)` returns
false and leaves the same nodes (the balances of 10 and 1 have changed). -/
theorem C33_insertion_keeps_nodes_witness :
    ((0 : Int) < (Account.mk 1010 "Till" 0 []).accountNumber ∧
      scenarioTree.addAccount ⟨1010, "Till", 0, []⟩ =
        .ok (true, ⟨.mk ⟨1, "Assets", 1600, []⟩ 1000 .null (.mk ⟨10, "Cash", 600, []⟩ 500 .null
          (.mk ⟨1010, "Till", 0, []⟩ 0 (leaf 1011 "Cash A" 100 100) .null))⟩) ∧
      scenarioTree.addAccount ⟨1011, "Cash A", 100, []⟩ =
        .ok (false, ⟨.mk ⟨1, "Assets", 1700, []⟩ 1000 .null (.mk ⟨10, "Cash", 700, []⟩ 500 .null
          (leaf 1011 "Cash A" 100 100))⟩)) ∧
    ∃ flag t1, scenarioTree.addAccount ⟨1010, "Till", 0, []⟩ = .ok (flag, t1) ∧
      (flag = true → NodesKeptPlusOne scenarioTree ⟨1010, "Till", 0, []⟩ t1) ∧
      (flag = false → SameNodes scenarioTree t1) :=
  ⟨⟨by decide, by with_unfolding_all decide, by with_unfolding_all decide⟩,
    C33_insertion_keeps_nodes scenarioTree ⟨1010, "Till", 0, []⟩ (by decide)⟩


/-- C34, the code at a failing input. The record `Transaction(1, 50, 'W')`
(`'W'` is a kind the header of `Transaction` lists) is added to account 1011
of the tree 1 (1600) → 10 (600) → 1011 (100): `Account::addTransaction` tests
`type == 'C'` and adds 50 to account 1011, `addAcountTransaction` tests
`type == 'D'` and adds -50 to the ancestors 10 and 1. Removing the record
again, `Account::removeTransaction` tests `type == 'D'` and adds 50 to account
1011 once more, `removeAccountTransaction` tests `type == 'C'` and adds -50 to
the ancestors. -/
theorem C34_sign_differs_for_other_kinds :
    Transaction.ofParts 0 1 50 'W' = ⟨1, 50, 'W'⟩ ∧
    Account.addTransaction ⟨1011, "Cash A", 100, []⟩ ⟨1, 50, 'W'⟩ =
      .ok ⟨1011, "Cash A", 150, [⟨1, 50, 'W'⟩]⟩ ∧
    scenarioTree.addAcountTransaction 1011 (Transaction.ofParts 0 1 50 'W') =
      .ok ⟨.mk ⟨1, "Assets", 1550, []⟩ 1000 .null (.mk ⟨10, "Cash", 550, []⟩ 500 .null
        (.mk ⟨1011, "Cash A", 150, [⟨1, 50, 'W'⟩]⟩ 100 .null .null))⟩ ∧
    Account.removeTransaction ⟨1011, "Cash A", 150, [⟨1, 50, 'W'⟩]⟩ 1 =
      .ok (⟨1011, "Cash A", 200, []⟩, ⟨1, 50, 'W'⟩) ∧
    ForestTree.removeAccountTransaction
        ⟨.mk ⟨1, "Assets", 1550, []⟩ 1000 .null (.mk ⟨10, "Cash", 550, []⟩ 500 .null
          (.mk ⟨1011, "Cash A", 150, [⟨1, 50, 'W'⟩]⟩ 100 .null .null))⟩ 1011 1 =
      .ok ⟨.mk ⟨1, "Assets", 1500, []⟩ 1000 .null (.mk ⟨10, "Cash", 500, []⟩ 500 .null
        (.mk ⟨1011, "Cash A", 200, []⟩ 100 .null .null))⟩ := by
  refine ⟨by decide, ?_, ?_, ?_, ?_⟩ <;> with_unfolding_all decide


/-- C35: in a hierarchy with a non-null root, for an account number not below
the number of the root, `addAccount` does not dereference a null pointer; in
particular the preceding node `res[1]` returned by tracked search is non-null
whenever the search ran off the end (the final append) and whenever it stopped
at a node with a larger number (the insert-before-found branches). -/
theorem C35_preceding_node_not_null (t : ForestTree) (acc : Account) (d : Account) (g : ℚ)
    (s c : Node) (hroot : t.root = .mk d g s c)
    (hge : ¬ acc.accountNumber < d.accountNumber) :
    (∃ r, t.addAccount acc = .ok r) ∧
    ((t.searchAccountWithTracking acc.accountNumber).1.1 = none →
      ∃ b, (t.searchAccountWithTracking acc.accountNumber).1.2 = some b ∧
        t.root.deref b ≠ .null) ∧
    ∀ f d0 g0 s0 c0, (t.searchAccountWithTracking acc.accountNumber).1.1 = some f →
      t.root.deref f = .mk d0 g0 s0 c0 → acc.accountNumber < d0.accountNumber →
      ∃ b, (t.searchAccountWithTracking acc.accountNumber).1.2 = some b ∧
        t.root.deref b ≠ .null := by
  have hb := searchLoop_behind acc.accountNumber t.root t.root [] none [] (by simp)
  refine ⟨?_, ?_, ?_⟩
  · obtain ⟨flag, h⟩ := addAccount_eq_insertTop t acc
    exact ⟨_, h⟩
  · intro hnone
    rcases hb with ⟨_, h | h⟩ | h
    · rw [hroot] at h; cases h
    · unfold ForestTree.searchAccountWithTracking at hnone
      rw [hnone] at h
      cases h
    · exact h
  · intro f d0 g0 s0 c0 hf hd0 hlt
    rcases hb with ⟨_, h | h⟩ | h
    · rw [hroot] at h; cases h
    · unfold ForestTree.searchAccountWithTracking at hf
      rw [hf] at h
      injection h with h
      subst h
      rw [Node.deref_nil, hroot] at hd0
      injection hd0 with h1
      rw [h1] at hge
      exact absurd hlt hge
    · exact h

/-- C35 at the tree 1 → 10 → 1011: for the new number 1010 the search stops at
1011, which is larger, and the preceding node is 10; for the new number 2 the
search runs off the top level and the preceding node is 1. -/
theorem C35_preceding_node_not_null_witness :
    (scenarioTree.root = .mk ⟨1, "Assets", 1600, []⟩ 1000 .null
        (.mk ⟨10, "Cash", 600, []⟩ 500 .null (leaf 1011 "Cash A" 100 100)) ∧
      ¬ (Account.mk 1010 "Till" 0 []).accountNumber < (Account.mk 1 "Assets" 1600 []).accountNumber ∧
      (scenarioTree.searchAccountWithTracking 1010).1 =
        (some [Link.child, Link.child], some [Link.child]) ∧
      (scenarioTree.searchAccountWithTracking 2).1 = (none, some [])) ∧
    ((∃ r, scenarioTree.addAccount ⟨1010, "Till", 0, []⟩ = .ok r) ∧
      ((scenarioTree.searchAccountWithTracking (Account.mk 1010 "Till" 0 []).accountNumber).1.1 =
          none →
        ∃ b, (scenarioTree.searchAccountWithTracking
            (Account.mk 1010 "Till" 0 []).accountNumber).1.2 = some b ∧
          scenarioTree.root.deref b ≠ .null) ∧
      ∀ f d0 g0 s0 c0,
        (scenarioTree.searchAccountWithTracking (Account.mk 1010 "Till" 0 []).accountNumber).1.1 =
          some f →
        scenarioTree.root.deref f = .mk d0 g0 s0 c0 →
        (Account.mk 1010 "Till" 0 []).accountNumber < d0.accountNumber →
        ∃ b, (scenarioTree.searchAccountWithTracking
            (Account.mk 1010 "Till" 0 []).accountNumber).1.2 = some b ∧
          scenarioTree.root.deref b ≠ .null) :=
  ⟨⟨rfl, by decide, by decide, by decide⟩,
    C35_preceding_node_not_null scenarioTree ⟨1010, "Till", 0, []⟩ ⟨1, "Assets", 1600, []⟩ 1000
      .null (.mk ⟨10, "Cash", 600, []⟩ 500 .null (leaf 1011 "Cash A" 100 100)) rfl (by decide)⟩


/-- C36, the code at a failing input. For the one record with the id
1000000000, which is below 2^31, the passes are made with `exp` = 1, 10, ...,
1000000000, and the last `exp *= 10` computes 10000000000, which is above
2^31 - 1 = 2147483647: in `int` arithmetic that multiplication overflows. -/
theorem C36_radix_multiplier_leaves_int_range :
    (∀ t ∈ [(⟨1000000000, 0, 'D'⟩ : Transaction)], 1 ≤ t.id ∧ t.id ≤ 2147483647) ∧
    (2147483647 : Int) = 2 ^ 31 - 1 ∧
    radixSortTrace [⟨1000000000, 0, 'D'⟩] =
      .ok ([1, 10, 100, 1000, 10000, 100000, 1000000, 10000000, 100000000, 1000000000],
        10000000000, [⟨1000000000, 0, 'D'⟩]) ∧
    (1000000000 : Int) * 10 = 10000000000 ∧ (2147483647 : Int) < 10000000000 := by
  refine ⟨by decide, by decide, by decide, by decide, by decide⟩


/-- C37: for records with non-negative ids and `exp` at least 1,
`countingSortByDigit` does not fault (every index into `count` and `output` is
within bounds) and leaves a permutation of the records in non-decreasing order
of the digit `(id / exp) % 10`, in which the records of each digit are in the
order they had before. -/
theorem C37_counting_sort_stable (ts : List Transaction) (exp : Int)
    (hids : ∀ t ∈ ts, 0 ≤ t.id) (hexp : 1 ≤ exp) :
    ∃ sorted, countingSortByDigit ts exp = .ok sorted ∧ sorted.Perm ts ∧
      sorted.Pairwise (fun a b => digitOf a.id exp ≤ digitOf b.id exp) ∧
      ∀ k : Int, sorted.filter (fun t => decide (digitOf t.id exp = k)) =
        ts.filter (fun t => decide (digitOf t.id exp = k)) := by
  have hpos : 0 < exp := by omega
  have hperm := stableByDigit_perm exp hpos ts hids
  refine ⟨stableByDigit exp ts, countingSortByDigit_eq exp hpos ts hids, hperm, ?_, ?_⟩
  · refine (bucketsUpTo_pairwise_digit exp ts 10).imp_of_mem ?_
    intro a b ha hb h
    have h1 := digitOf_bounds (hids a (hperm.subset ha)) hpos
    have h2 := digitOf_bounds (hids b (hperm.subset hb)) hpos
    unfold digitIdx at h
    omega
  · intro k
    by_cases hk : 0 ≤ k ∧ k < 10
    · unfold stableByDigit
      rw [filter_bucketsUpTo exp ts _ k.toNat ?_ 10, if_pos (by omega)]
      intro t ht hp
      simp only [decide_eq_true_eq] at hp
      unfold digitIdx
      rw [hp]
    · have hnone : ∀ t ∈ ts, ¬ digitOf t.id exp = k := by
        intro t ht h
        have := digitOf_bounds (hids t ht) hpos
        omega
      rw [List.filter_eq_nil_iff.2 (fun t ht => by simpa using hnone t (hperm.subset ht)),
        List.filter_eq_nil_iff.2 (fun t ht => by simpa using hnone t ht)]

/-- C37 at the records with ids 170, 45, 75, 90, 802, 24, 2 and 66 and
`exp = 10`: the digits 7, 4, 7, 9, 0, 2, 0, 6 come out as 0, 0, 2, 4, 6, 7, 7,
9, with 802 before 2 and 170 before 75 as in the input. -/
theorem C37_counting_sort_stable_witness :
    ((∀ t ∈ [(⟨170, 1, 'D'⟩ : Transaction), ⟨45, 2, 'C'⟩, ⟨75, 3, 'D'⟩, ⟨90, 4, 'D'⟩,
        ⟨802, 5, 'C'⟩, ⟨24, 6, 'D'⟩, ⟨2, 7, 'D'⟩, ⟨66, 8, 'C'⟩], 0 ≤ t.id) ∧ (1 : Int) ≤ 10 ∧
      countingSortByDigit [⟨170, 1, 'D'⟩, ⟨45, 2, 'C'⟩, ⟨75, 3, 'D'⟩, ⟨90, 4, 'D'⟩,
        ⟨802, 5, 'C'⟩, ⟨24, 6, 'D'⟩, ⟨2, 7, 'D'⟩, ⟨66, 8, 'C'⟩] 10 =
        .ok [⟨802, 5, 'C'⟩, ⟨2, 7, 'D'⟩, ⟨24, 6, 'D'⟩, ⟨45, 2, 'C'⟩, ⟨66, 8, 'C'⟩,
          ⟨170, 1, 'D'⟩, ⟨75, 3, 'D'⟩, ⟨90, 4, 'D'⟩]) ∧
    ∃ sorted, countingSortByDigit [⟨170, 1, 'D'⟩, ⟨45, 2, 'C'⟩, ⟨75, 3, 'D'⟩, ⟨90, 4, 'D'⟩,
        ⟨802, 5, 'C'⟩, ⟨24, 6, 'D'⟩, ⟨2, 7, 'D'⟩, ⟨66, 8, 'C'⟩] 10 = .ok sorted ∧
      sorted.Perm [⟨170, 1, 'D'⟩, ⟨45, 2, 'C'⟩, ⟨75, 3, 'D'⟩, ⟨90, 4, 'D'⟩,
        ⟨802, 5, 'C'⟩, ⟨24, 6, 'D'⟩, ⟨2, 7, 'D'⟩, ⟨66, 8, 'C'⟩] ∧
      sorted.Pairwise (fun a b => digitOf a.id 10 ≤ digitOf b.id 10) ∧
      ∀ k : Int, sorted.filter (fun t => decide (digitOf t.id 10 = k)) =
        List.filter (fun t => decide (digitOf t.id 10 = k))
          [⟨170, 1, 'D'⟩, ⟨45, 2, 'C'⟩, ⟨75, 3, 'D'⟩, ⟨90, 4, 'D'⟩,
            ⟨802, 5, 'C'⟩, ⟨24, 6, 'D'⟩, ⟨2, 7, 'D'⟩, ⟨66, 8, 'C'⟩] :=
  ⟨⟨by decide, by decide, by decide⟩, C37_counting_sort_stable _ 10 (by decide) (by decide)⟩


end AMS
